import Mathlib

/-!
Verification of the grid-search and Sudoku cores of the repository.

The grid searches are modelled from src/AI_CLASSWORK/AI3.py (BFS, DFS, UCS over
a wall grid), src/AI_CLASSWORK/Main.py (BFS variant), and
src/AI_CLASSWORK/Main (2).py (A* and greedy best-first over a cell grid with a
priority queue tie-broken by a global counter).  The Sudoku backtracking solver
is modelled from src/AI_CLASSWORK/Main (3).py.
-/

set_option maxHeartbeats 1000000

/-- Positions are integer (row, column) pairs, as produced by the Python code. -/
abbrev Pos := Int × Int

/-- The occupancy grid: fixed dimensions and a list of wall cells.  This models
the passability information of the Python grids (state[r][c] == 1 walls in
AI3.py, cell.type == 'wall' in Main (2).py). -/
structure Grid where
  rows : Nat
  cols : Nat
  walls : List Pos

/-- Bounds check mirroring 0 <= r < ROWS and 0 <= c < COLS from the source. -/
def inBounds (g : Grid) (p : Pos) : Bool :=
  0 ≤ p.1 && p.1 < (g.rows : Int) && 0 ≤ p.2 && p.2 < (g.cols : Int)

/-- A cell is open when it is in bounds and not a wall (state != 1 in AI3.py,
type != 'wall' in Main (2).py). -/
def openCell (g : Grid) (p : Pos) : Bool :=
  inBounds g p && !(g.walls.contains p)

/-- Neighbor generation: 4-connected in the fixed order up, down, left, right,
keeping only in-bounds non-wall cells.  Mirrors MazeSolver.get_neighbors and
Grid.get_neighbors from the source. -/
def neighbors (g : Grid) (p : Pos) : List Pos :=
  [(p.1 - 1, p.2), (p.1 + 1, p.2), (p.1, p.2 - 1), (p.1, p.2 + 1)].filter
    (fun q => openCell g q)

/-- Manhattan distance, mirroring PathfindingApp.heuristic. -/
def manhattan (a b : Pos) : Nat :=
  ((a.1 - b.1).natAbs + (a.2 - b.2).natAbs)

/-- A path through the grid: a nonempty list of cells starting at s, ending at
t, each consecutive pair being a neighbor step.  Cells after the first are
therefore open and in bounds. -/
def isPath (g : Grid) (s t : Pos) (p : List Pos) : Prop :=
  p.head? = some s ∧ p.getLast? = some t ∧ p.Chain' (fun a b => b ∈ neighbors g a)

theorem isPath_single (g : Grid) (s : Pos) : isPath g s s [s] := by
  refine ⟨rfl, rfl, ?_⟩
  simp [List.chain'_singleton]

theorem isPath_ne_length (g : Grid) (s t : Pos) (p : List Pos) (hst : s ≠ t)
    (hp : isPath g s t p) : 2 ≤ p.length := by
  obtain ⟨h1, h2, _⟩ := hp
  match p with
  | [] => simp at h1
  | [a] =>
    simp at h1 h2
    exact absurd (h1.symm.trans h2) hst
  | a :: b :: rest => simp [List.length]

/-- Each neighbor step changes the Manhattan distance to a fixed target by at
most one. -/
theorem manhattan_step (g : Grid) (t : Pos) (a b : Pos) (hb : b ∈ neighbors g a) :
    manhattan a t ≤ manhattan b t + 1 := by
  simp only [neighbors, List.mem_filter, List.mem_cons, List.mem_singleton] at hb
  obtain ⟨hmem, _⟩ := hb
  obtain ⟨ar, ac⟩ := a
  obtain ⟨br, bc⟩ := b
  obtain ⟨tr, tc⟩ := t
  simp only [manhattan]
  rcases hmem with h | h | h | h | h
  case _ => injection h with h1 h2; subst h1; subst h2; simp only []; omega
  case _ => injection h with h1 h2; subst h1; subst h2; simp only []; omega
  case _ => injection h with h1 h2; subst h1; subst h2; simp only []; omega
  case _ => injection h with h1 h2; subst h1; subst h2; simp only []; omega
  case _ => exact absurd h (List.not_mem_nil _)

/-- Any path from s to t has at least manhattan s t edges: the Manhattan
distance is a lower bound on path edge count (and hence an admissible
heuristic). -/
theorem manhattan_le_path (g : Grid) (t : Pos) :
    ∀ (p : List Pos) (s : Pos), p.head? = some s → p.getLast? = some t →
      p.Chain' (fun a b => b ∈ neighbors g a) → manhattan s t + 1 ≤ p.length
  | [], s => by intro h _ _; simp at h
  | [a], s => by
    intro h1 h2 _
    simp at h1 h2
    subst h1; subst h2
    simp [manhattan]
  | a :: b :: rest, s => by
    intro h1 h2 hc
    have ha : a = s := by simpa using h1
    subst ha
    have hb : b ∈ neighbors g a := (List.chain'_cons.mp hc).1
    have hc2 : (b :: rest).Chain' (fun x y => y ∈ neighbors g x) :=
      (List.chain'_cons.mp hc).2
    have h2b : (b :: rest).getLast? = some t := by
      rw [List.getLast?_cons_cons] at h2; exact h2
    have hrec := manhattan_le_path g t (b :: rest) b rfl h2b hc2
    have hstep := manhattan_step g t a b hb
    simp only [List.length_cons] at *
    omega

/-! ### The Sudoku backtracking solver, from src/AI_CLASSWORK/Main (3).py -/

/-- A Sudoku board: 9x9 cells addressed by (row, col) with 0 meaning empty.
Models the Python list-of-lists board functionally. -/
abbrev Board := Nat → Nat → Nat

/-- Writing one cell of the board, modelling board[row][col] = num. -/
def setCell (b : Board) (r c v : Nat) : Board :=
  fun r' c' => if r' = r ∧ c' = c then v else b r' c'

/-- Row-major scan for the first empty cell, mirroring the nested loops at the
top of SudokuSolver.solve_board. -/
def findEmpty (b : Board) : Option (Nat × Nat) :=
  (List.range 9).findSome? fun r =>
    ((List.range 9).find? fun c => b r c == 0).map fun c => (r, c)

/-- SudokuSolver.is_valid: num clashes with no cell in the row, the column, or
the 3x3 box containing (row, col). -/
def isValidS (b : Board) (row col num : Nat) : Bool :=
  ((List.range 9).all fun i => b row i != num && b i col != num) &&
  ((List.range 3).all fun i => (List.range 3).all fun j =>
      b (3 * (row / 3) + i) (3 * (col / 3) + j) != num)

/-- The inner for-num loop of SudokuSolver.solve_board: try each candidate in
order; place it, recurse, and on failure reset the cell to 0 before moving to
the next candidate.  The recursive call is abstracted as solveRec. -/
def tryNums (solveRec : Board → Bool × Board) (b : Board) (r c : Nat) :
    List Nat → Bool × Board
  | [] => (false, b)
  | n :: rest =>
    if isValidS b r c n then
      if (solveRec (setCell b r c n)).1 then solveRec (setCell b r c n)
      else tryNums solveRec (setCell (solveRec (setCell b r c n)).2 r c 0) r c rest
    else tryNums solveRec b r c rest

/-- SudokuSolver.solve_board with explicit fuel (the Python recursion always
terminates since each call fills one empty cell; fuel 82 suffices for any
board).  Returns the Python return value together with the final state of the
mutated board. -/
def solveBoard : Nat → Board → Bool × Board
  | 0, b => (false, b)
  | fuel + 1, b =>
    match findEmpty b with
    | none => (true, b)
    | some rc => tryNums (solveBoard fuel) b rc.1 rc.2 (List.range' 1 9)

/-- Two cells are in the same Sudoku unit: same row, same column, or same 3x3
box. -/
def sameUnit (r c r' c' : Nat) : Prop :=
  r = r' ∨ c = c' ∨ (r / 3 = r' / 3 ∧ c / 3 = c' / 3)

instance (r c r' c' : Nat) : Decidable (sameUnit r c r' c') := by
  unfold sameUnit; infer_instance

/-- The Sudoku constraints: no two distinct cells of a common unit hold the
same nonzero digit. -/
def okBoard (b : Board) : Prop :=
  ∀ r < 9, ∀ c < 9, ∀ r' < 9, ∀ c' < 9,
    sameUnit r c r' c' → (r, c) ≠ (r', c') → b r c ≠ 0 → b r c ≠ b r' c'

/-- Executable mirror of okBoard. -/
def okBoardB (b : Board) : Bool :=
  (List.range 9).all fun r => (List.range 9).all fun c =>
    (List.range 9).all fun r' => (List.range 9).all fun c' =>
      !(decide (sameUnit r c r' c')) || (((r, c) == (r', c')) || ((b r c == 0) ||
        (b r c != b r' c')))

theorem okBoardB_iff (b : Board) : okBoardB b = true ↔ okBoard b := by
  simp only [okBoardB, okBoard, List.all_eq_true, List.mem_range, Bool.or_eq_true,
    Bool.not_eq_true', beq_iff_eq, bne_iff_ne, decide_eq_false_iff_not, decide_eq_true_eq]
  constructor
  · intro h r hr c hc r' hr' c' hc' hsu hne hnz
    rcases h r hr c hc r' hr' c' hc' with h1 | h1 | h1 | h1
    · exact absurd hsu h1
    · exact absurd h1 hne
    · exact absurd h1 hnz
    · exact h1
  · intro h r hr c hc r' hr' c' hc'
    by_cases h1 : sameUnit r c r' c'
    · by_cases h2 : (r, c) = (r', c')
      · exact Or.inr (Or.inl h2)
      · by_cases h3 : b r c = 0
        · exact Or.inr (Or.inr (Or.inl h3))
        · exact Or.inr (Or.inr (Or.inr (h r hr c hc r' hr' c' hc' h1 h2 h3)))
    · exact Or.inl h1

instance (b : Board) : Decidable (okBoard b) := decidable_of_iff _ (okBoardB_iff b)

/-- Every cell of the board is filled (nonzero). -/
def filledBoard (b : Board) : Prop := ∀ r < 9, ∀ c < 9, b r c ≠ 0

instance (b : Board) : Decidable (filledBoard b) := by
  unfold filledBoard; infer_instance

/-- Every cell is empty or holds a digit 1..9. -/
def rangeOK (b : Board) : Prop :=
  ∀ r < 9, ∀ c < 9, b r c = 0 ∨ (1 ≤ b r c ∧ b r c ≤ 9)

instance (b : Board) : Decidable (rangeOK b) := by
  unfold rangeOK; infer_instance

/-- The second board preserves every originally nonzero entry of the first. -/
def agreesOnGivens (b b' : Board) : Prop :=
  ∀ r < 9, ∀ c < 9, b r c ≠ 0 → b' r c = b r c

theorem setCell_self (b : Board) (r c v : Nat) : setCell b r c v r c = v := by
  simp [setCell]

theorem setCell_other (b : Board) (r c v r' c' : Nat) (h : ¬(r' = r ∧ c' = c)) :
    setCell b r c v r' c' = b r' c' := by
  simp [setCell, h]

theorem setCell_setCell_zero (b : Board) (r c v : Nat) (h : b r c = 0) :
    setCell (setCell b r c v) r c 0 = b := by
  funext r' c'
  by_cases hrc : r' = r ∧ c' = c
  · obtain ⟨h1, h2⟩ := hrc
    subst h1; subst h2
    simp [setCell, h]
  · simp [setCell, hrc]

theorem findEmpty_some (b : Board) (r c : Nat) (h : findEmpty b = some (r, c)) :
    r < 9 ∧ c < 9 ∧ b r c = 0 := by
  simp only [findEmpty] at h
  obtain ⟨rr, hrr, hb⟩ := List.exists_of_findSome?_eq_some h
  rw [Option.map_eq_some'] at hb
  obtain ⟨cc, hcc, heq⟩ := hb
  have hr : rr = r := congrArg Prod.fst heq
  have hc : cc = c := congrArg Prod.snd heq
  subst hr; subst hc
  have h1 := List.find?_some hcc
  have h2 := List.mem_of_find?_eq_some hcc
  simp only [List.mem_range] at hrr h2
  refine ⟨hrr, h2, ?_⟩
  exact eq_of_beq h1

theorem findEmpty_none (b : Board) (h : findEmpty b = none) : filledBoard b := by
  intro r hr c hc
  simp only [findEmpty, List.findSome?_eq_none_iff] at h
  have := h r (List.mem_range.mpr hr)
  rw [Option.map_eq_none'] at this
  rw [List.find?_eq_none] at this
  have := this c (List.mem_range.mpr hc)
  simpa using this

theorem tryNums_restore (solveRec : Board → Bool × Board)
    (hrec : ∀ b0, (solveRec b0).1 = false → (solveRec b0).2 = b0) (r c : Nat) :
    ∀ (nums : List Nat) (b : Board), b r c = 0 →
      (tryNums solveRec b r c nums).1 = false → (tryNums solveRec b r c nums).2 = b
  | [], b => by intro _ _; rfl
  | n :: rest, b => by
    intro h0 hf
    simp only [tryNums] at hf ⊢
    by_cases hv : isValidS b r c n = true
    · simp only [hv, if_true] at hf ⊢
      by_cases hr1 : (solveRec (setCell b r c n)).1 = true
      · simp only [hr1, if_true] at hf
        exact absurd hf (by simp [hr1])
      · simp only [Bool.not_eq_true] at hr1
        simp only [hr1, Bool.false_eq_true, if_false] at hf ⊢
        rw [hrec _ hr1, setCell_setCell_zero b r c n h0] at hf ⊢
        exact tryNums_restore solveRec hrec r c rest b h0 hf
    · simp only [Bool.not_eq_true] at hv
      simp only [hv, Bool.false_eq_true, if_false] at hf ⊢
      exact tryNums_restore solveRec hrec r c rest b h0 hf

/-- Backtracking restores the board exactly whenever the solver reports
failure: every tentatively placed digit has been reset to 0. -/
theorem solveBoard_restore :
    ∀ (fuel : Nat) (b : Board), (solveBoard fuel b).1 = false →
      (solveBoard fuel b).2 = b
  | 0, b => by intro _; rfl
  | fuel + 1, b => by
    intro hf
    simp only [solveBoard] at hf ⊢
    cases hfe : findEmpty b with
    | none => simp [hfe] at hf
    | some rc =>
      simp only [hfe] at hf ⊢
      have h0 := (findEmpty_some b rc.1 rc.2 (by rw [hfe])).2.2
      exact tryNums_restore (solveBoard fuel) (solveBoard_restore fuel) rc.1 rc.2 _ b h0 hf

theorem isValidS_true (b : Board) (row col num : Nat)
    (h : isValidS b row col num = true) :
    (∀ i < 9, b row i ≠ num ∧ b i col ≠ num) ∧
    (∀ i < 3, ∀ j < 3, b (3 * (row / 3) + i) (3 * (col / 3) + j) ≠ num) := by
  simp only [isValidS, Bool.and_eq_true, List.all_eq_true, List.mem_range,
    bne_iff_ne] at h
  obtain ⟨h1, h2⟩ := h
  exact ⟨fun i hi => h1 i hi, fun i hi j hj => h2 i hi j hj⟩

theorem sameUnit_symm (r c r' c' : Nat) (h : sameUnit r c r' c') :
    sameUnit r' c' r c := by
  rcases h with h | h | h
  · exact Or.inl h.symm
  · exact Or.inr (Or.inl h.symm)
  · exact Or.inr (Or.inr ⟨h.1.symm, h.2.symm⟩)

/-- Placing a digit that is_valid accepts cannot clash with any filled cell in
the same unit. -/
theorem isValidS_no_clash (b : Board) (r c n : Nat) (hv : isValidS b r c n = true)
    (r1 c1 : Nat) (hr1 : r1 < 9) (hc1 : c1 < 9)
    (hsu : sameUnit r c r1 c1) : b r1 c1 ≠ n := by
  obtain ⟨hrc, hbox⟩ := isValidS_true b r c n hv
  rcases hsu with h | h | h
  · rw [← h]; exact (hrc c1 hc1).1
  · rw [← h]; exact (hrc r1 hr1).2
  · have e1 : 3 * (r / 3) + r1 % 3 = r1 := by
      rw [h.1]; exact Nat.div_add_mod r1 3
    have e2 : 3 * (c / 3) + c1 % 3 = c1 := by
      rw [h.2]; exact Nat.div_add_mod c1 3
    have := hbox (r1 % 3) (Nat.mod_lt _ (by norm_num)) (c1 % 3)
      (Nat.mod_lt _ (by norm_num))
    rw [e1, e2] at this
    exact this

theorem place_ok (b : Board) (r c n : Nat) (h0 : b r c = 0) (hn : 1 ≤ n)
    (hv : isValidS b r c n = true) (hok : okBoard b) :
    okBoard (setCell b r c n) := by
  intro r0 hr0 c0 hc0 r1 hr1 c1 hc1 hsu hne hnz
  by_cases e0 : r0 = r ∧ c0 = c
  · obtain ⟨e0r, e0c⟩ := e0; subst e0r; subst e0c
    rw [setCell_self] at hnz ⊢
    by_cases e1 : r1 = r0 ∧ c1 = c0
    · exact absurd (by rw [e1.1, e1.2]) hne
    · rw [setCell_other b r0 c0 n r1 c1 e1]
      exact fun heq => isValidS_no_clash b r0 c0 n hv r1 c1 hr1 hc1 hsu heq.symm
  · rw [setCell_other b r c n r0 c0 e0] at hnz ⊢
    by_cases e1 : r1 = r ∧ c1 = c
    · obtain ⟨e1r, e1c⟩ := e1; subst e1r; subst e1c
      rw [setCell_self]
      exact isValidS_no_clash b r1 c1 n hv r0 c0 hr0 hc0 (sameUnit_symm _ _ _ _ hsu)
    · rw [setCell_other b r c n r1 c1 e1]
      exact hok r0 hr0 c0 hc0 r1 hr1 c1 hc1 hsu hne hnz

theorem place_rangeOK (b : Board) (r c n : Nat) (hn : 1 ≤ n) (hn9 : n ≤ 9)
    (hrg : rangeOK b) : rangeOK (setCell b r c n) := by
  intro r0 hr0 c0 hc0
  by_cases e0 : r0 = r ∧ c0 = c
  · obtain ⟨e0r, e0c⟩ := e0; subst e0r; subst e0c
    rw [setCell_self]
    exact Or.inr ⟨hn, hn9⟩
  · rw [setCell_other b r c n r0 c0 e0]
    exact hrg r0 hr0 c0 hc0

theorem agrees_of_place (b b2 : Board) (r c n : Nat) (h0 : b r c = 0)
    (h : agreesOnGivens (setCell b r c n) b2) : agreesOnGivens b b2 := by
  intro r0 hr0 c0 hc0 hnz
  have e0 : ¬(r0 = r ∧ c0 = c) := by
    rintro ⟨e0r, e0c⟩; subst e0r; subst e0c; exact hnz h0
  have := h r0 hr0 c0 hc0 (by rw [setCell_other b r c n r0 c0 e0]; exact hnz)
  rw [setCell_other b r c n r0 c0 e0] at this
  exact this

theorem tryNums_sound (solveRec : Board → Bool × Board)
    (hrecF : ∀ b0, (solveRec b0).1 = false → (solveRec b0).2 = b0)
    (hrecT : ∀ b0, okBoard b0 → rangeOK b0 → (solveRec b0).1 = true →
      okBoard (solveRec b0).2 ∧ filledBoard (solveRec b0).2 ∧
      rangeOK (solveRec b0).2 ∧ agreesOnGivens b0 (solveRec b0).2) (r c : Nat) :
    ∀ (nums : List Nat) (b : Board), (∀ n ∈ nums, 1 ≤ n ∧ n ≤ 9) → b r c = 0 →
      okBoard b → rangeOK b → (tryNums solveRec b r c nums).1 = true →
      okBoard (tryNums solveRec b r c nums).2 ∧
      filledBoard (tryNums solveRec b r c nums).2 ∧
      rangeOK (tryNums solveRec b r c nums).2 ∧
      agreesOnGivens b (tryNums solveRec b r c nums).2
  | [], b => by intro _ _ _ _ ht; exact absurd ht (by simp [tryNums])
  | n :: rest, b => by
    intro hrange h0 hok hrg ht
    have hn := hrange n (List.mem_cons_self n rest)
    simp only [tryNums] at ht ⊢
    by_cases hv : isValidS b r c n = true
    · simp only [hv, if_true] at ht ⊢
      by_cases hr1 : (solveRec (setCell b r c n)).1 = true
      · simp only [hr1, if_true] at ht ⊢
        have hok2 := place_ok b r c n h0 hn.1 hv hok
        have hrg2 := place_rangeOK b r c n hn.1 hn.2 hrg
        obtain ⟨a1, a2, a3, a4⟩ := hrecT _ hok2 hrg2 hr1
        exact ⟨a1, a2, a3, agrees_of_place b _ r c n h0 a4⟩
      · simp only [Bool.not_eq_true] at hr1
        simp only [hr1, Bool.false_eq_true, if_false] at ht ⊢
        rw [hrecF _ hr1, setCell_setCell_zero b r c n h0] at ht ⊢
        exact tryNums_sound solveRec hrecF hrecT r c rest b
          (fun m hm => hrange m (List.mem_cons_of_mem n hm)) h0 hok hrg ht
    · simp only [Bool.not_eq_true] at hv
      simp only [hv, Bool.false_eq_true, if_false] at ht ⊢
      exact tryNums_sound solveRec hrecF hrecT r c rest b
        (fun m hm => hrange m (List.mem_cons_of_mem n hm)) h0 hok hrg ht

/-- Success case of the backtracking solver: starting from a conflict-free
board of digits 0..9, a True result leaves a completely filled, conflict-free
board that preserves every original nonzero entry. -/
theorem solveBoard_sound :
    ∀ (fuel : Nat) (b : Board), okBoard b → rangeOK b →
      (solveBoard fuel b).1 = true →
      okBoard (solveBoard fuel b).2 ∧ filledBoard (solveBoard fuel b).2 ∧
      rangeOK (solveBoard fuel b).2 ∧ agreesOnGivens b (solveBoard fuel b).2
  | 0, b => by intro _ _ ht; exact absurd ht (by simp [solveBoard])
  | fuel + 1, b => by
    intro hok hrg ht
    simp only [solveBoard] at ht ⊢
    cases hfe : findEmpty b with
    | none =>
      simp only [hfe] at ht ⊢
      refine ⟨hok, findEmpty_none b hfe, hrg, fun r hr c hc _ => rfl⟩
    | some rc =>
      simp only [hfe] at ht ⊢
      have h0 := (findEmpty_some b rc.1 rc.2 (by rw [hfe])).2.2
      have hrange : ∀ n ∈ List.range' 1 9, 1 ≤ n ∧ n ≤ 9 := by
        intro n hn
        rw [List.mem_range'] at hn
        omega
      exact tryNums_sound (solveBoard fuel) (solveBoard_restore fuel)
        (solveBoard_sound fuel) rc.1 rc.2 _ b hrange h0 hok hrg ht

/-- A board entirely filled with the digit 1: solve_board returns True on it
immediately (there is no empty cell) although it is not a valid Sudoku. -/
def allOnes : Board := fun _ _ => 1

/-- A valid completed Sudoku grid with the single cell (0,0) emptied, given as
row lists. -/
def witnessRows : List (List Nat) :=
  [[0, 2, 3, 4, 5, 6, 7, 8, 9],
   [4, 5, 6, 7, 8, 9, 1, 2, 3],
   [7, 8, 9, 1, 2, 3, 4, 5, 6],
   [2, 3, 4, 5, 6, 7, 8, 9, 1],
   [5, 6, 7, 8, 9, 1, 2, 3, 4],
   [8, 9, 1, 2, 3, 4, 5, 6, 7],
   [3, 4, 5, 6, 7, 8, 9, 1, 2],
   [6, 7, 8, 9, 1, 2, 3, 4, 5],
   [9, 1, 2, 3, 4, 5, 6, 7, 8]]

def witnessBoard : Board := fun r c =>
  (((witnessRows.get? r).bind fun row => row.get? c).getD 0)

example : (solveBoard 82 allOnes).1 = true := by decide
example : ¬ okBoard allOnes := by decide
example : okBoard witnessBoard := by decide
example : rangeOK witnessBoard := by decide
example : (solveBoard 82 witnessBoard).1 = true := by decide

/-- C10, counterexample: solve_board returns True on the board that is
entirely filled with 1s (it finds no empty cell), yet the resulting board
violates the row constraint, so a True result does not by itself guarantee a
valid Sudoku. -/
theorem c10_counterexample :
    (solveBoard 82 allOnes).1 = true ∧ ¬ okBoard (solveBoard 82 allOnes).2 :=
  ⟨by decide, by decide⟩

/-- C10, amended: if solve_board returns False the board is exactly as it was
at the call (unconditionally); if it returns True and the original entries
were digits 1..9 with no row, column or box conflict among them, then the
result is completely filled with digits 1..9, satisfies the row, column and
box constraints, and keeps every originally nonzero cell. -/
theorem c10_sudoku (fuel : Nat) (b : Board) :
    ((solveBoard fuel b).1 = false → (solveBoard fuel b).2 = b) ∧
    (okBoard b → rangeOK b → (solveBoard fuel b).1 = true →
      okBoard (solveBoard fuel b).2 ∧ filledBoard (solveBoard fuel b).2 ∧
      (∀ r < 9, ∀ c < 9,
        1 ≤ (solveBoard fuel b).2 r c ∧ (solveBoard fuel b).2 r c ≤ 9) ∧
      agreesOnGivens b (solveBoard fuel b).2) := by
  refine ⟨solveBoard_restore fuel b, fun hok hrg ht => ?_⟩
  obtain ⟨a1, a2, a3, a4⟩ := solveBoard_sound fuel b hok hrg ht
  refine ⟨a1, a2, fun r hr c hc => ?_, a4⟩
  rcases a3 r hr c hc with h | h
  · exact absurd h (a2 r hr c hc)
  · exact h

/-- C10, witness: the amended theorem applied to a concrete nearly-complete
valid board. -/
theorem c10_sudoku_witness :
    okBoard witnessBoard ∧ rangeOK witnessBoard ∧
    (solveBoard 82 witnessBoard).1 = true ∧
    (okBoard (solveBoard 82 witnessBoard).2 ∧
      filledBoard (solveBoard 82 witnessBoard).2 ∧
      agreesOnGivens witnessBoard (solveBoard 82 witnessBoard).2) := by
  have h := (c10_sudoku 82 witnessBoard).2 (by decide) (by decide) (by decide)
  exact ⟨by decide, by decide, by decide, h.1, h.2.1, h.2.2.2⟩

/-! ### Path reconstruction, from PathfindingApp.reconstruct_path in
src/AI_CLASSWORK/Main (2).py -/

/-- One came_from mapping: keys are cells, values are an optional predecessor
(the start maps to None in the Python dict). -/
abbrev CameFrom := List (Pos × Option Pos)

/-- PathfindingApp.reconstruct_path: walk came_from.get links from the goal
until the start or a missing link (None) is met, accumulating the cells walked
so that the result lists them in start-to-goal order.  The while loop is given
as fuel-indexed recursion; came_from.get returns None both for a missing key
and for the stored None value, modelled by the join. -/
def reconPathAux (cf : CameFrom) (start : Pos) : Nat → Option Pos → List Pos
  | 0, _ => []
  | _ + 1, none => []
  | fuel + 1, some cur =>
    if cur = start then []
    else reconPathAux cf start fuel (List.lookup cur cf).join ++ [cur]

/-- The reconstruction as invoked on a search result, with fuel that the
intact-chain theorem shows suffices. -/
def reconstructPathRun (cf : CameFrom) (start goal : Pos) : List Pos :=
  reconPathAux cf start (cf.length + 1) (some goal)

/-- An intact predecessor chain: from x, following came_from links reaches
start, and p collects the cells walked (x last, the cell after start first). -/
inductive CFReach (cf : CameFrom) (start : Pos) : Pos → List Pos → Prop
  | base : CFReach cf start start []
  | step (x y : Pos) (p : List Pos) : x ≠ start → (List.lookup x cf).join = some y →
      CFReach cf start y p → CFReach cf start x (p ++ [x])

theorem reconPathAux_intact (cf : CameFrom) (start : Pos) :
    ∀ (p : List Pos) (x : Pos), CFReach cf start x p → ∀ fuel, p.length < fuel →
      reconPathAux cf start fuel (some x) = p := by
  intro p x h
  induction h with
  | base =>
    intro fuel hf
    match fuel, hf with
    | fuel + 1, _ => simp [reconPathAux]
  | step x y p hne hlk _ ih =>
    intro fuel hf
    match fuel, hf with
    | fuel + 1, hf =>
      simp only [reconPathAux, if_neg hne, hlk]
      rw [ih fuel (by simp at hf; omega)]

theorem cfReach_det (cf : CameFrom) (start : Pos) (x : Pos) (p q : List Pos)
    (hp : CFReach cf start x p) (hq : CFReach cf start x q) : p = q := by
  induction hp generalizing q with
  | base =>
    cases hq with
    | base => rfl
    | step _ _ _ hne _ _ => exact absurd rfl hne
  | step x y p hne hlk _ ih =>
    cases hq with
    | base => exact absurd rfl hne
    | step _ y2 q2 _ hlk2 hq2 =>
      have hy : y = y2 := by
        rw [hlk] at hlk2
        exact Option.some.inj hlk2
      subst hy
      rw [ih q2 hq2]

theorem cfReach_mem (cf : CameFrom) (start : Pos) (x : Pos) (p : List Pos)
    (hp : CFReach cf start x p) :
    ∀ z ∈ p, ∃ q, CFReach cf start z q ∧ q.length ≤ p.length := by
  induction hp with
  | base => intro z hz; exact absurd hz (List.not_mem_nil z)
  | step x y p hne hlk hy ih =>
    intro z hz
    rw [List.mem_append] at hz
    rcases hz with hz | hz
    · obtain ⟨q, hq, hql⟩ := ih z hz
      exact ⟨q, hq, by simp; omega⟩
    · rw [List.mem_singleton] at hz
      subst hz
      exact ⟨p ++ [z], CFReach.step z y p hne hlk hy, le_refl _⟩

theorem cfReach_nodup (cf : CameFrom) (start : Pos) (x : Pos) (p : List Pos)
    (hp : CFReach cf start x p) : p.Nodup := by
  induction hp with
  | base => exact List.nodup_nil
  | step x y p hne hlk hy ih =>
    rw [List.nodup_append]
    refine ⟨ih, List.nodup_singleton x, ?_⟩
    intro a ha hax
    rw [List.mem_singleton] at hax
    subst hax
    obtain ⟨q, hq, hql⟩ := cfReach_mem cf start y p hy a ha
    have := cfReach_det cf start a q (p ++ [a]) hq (CFReach.step a y p hne hlk hy)
    subst this
    simp only [List.length_append, List.length_singleton] at hql
    omega

theorem cfReach_keys (cf : CameFrom) (start : Pos) (x : Pos) (p : List Pos)
    (hp : CFReach cf start x p) :
    ∀ z ∈ p, ∃ v, List.lookup z cf = some v := by
  induction hp with
  | base => intro z hz; exact absurd hz (List.not_mem_nil z)
  | step x y p hne hlk hy ih =>
    intro z hz
    rw [List.mem_append] at hz
    rcases hz with hz | hz
    · exact ih z hz
    · rw [List.mem_singleton] at hz
      subst hz
      rcases h : List.lookup z cf with _ | v
      · rw [h] at hlk; simp at hlk
      · exact ⟨v, rfl⟩

theorem lookup_isSome_mem_keys {α β : Type} [BEq α] [LawfulBEq α] (l : List (α × β))
    (a : α) (v : β) (h : List.lookup a l = some v) : a ∈ l.map Prod.fst := by
  have hs : (l.lookup a).isSome := by rw [h]; rfl
  rw [List.lookup_isSome_iff] at hs
  obtain ⟨p, hp, he⟩ := hs
  rw [List.mem_map]
  exact ⟨p, hp, (eq_of_beq he).symm⟩

theorem cfReach_length_le (cf : CameFrom) (start : Pos) (x : Pos) (p : List Pos)
    (hp : CFReach cf start x p) : p.length ≤ cf.length := by
  have hnd := cfReach_nodup cf start x p hp
  have hsub : ∀ z ∈ p, z ∈ cf.map Prod.fst := by
    intro z hz
    obtain ⟨v, hv⟩ := cfReach_keys cf start x p hp z hz
    exact lookup_isSome_mem_keys cf z v hv
  calc p.length = p.toFinset.card := (List.toFinset_card_of_nodup hnd).symm
    _ ≤ (cf.map Prod.fst).toFinset.card := by
        apply Finset.card_le_card
        intro z hz
        rw [List.mem_toFinset] at hz ⊢
        exact hsub z hz
    _ ≤ (cf.map Prod.fst).length := List.toFinset_card_le _
    _ = cf.length := List.length_map _ _

/-- On an intact predecessor chain the reconstruction returns exactly the
walked chain, in start-to-goal order with the start excluded. -/
theorem reconstructPathRun_intact (cf : CameFrom) (start goal : Pos)
    (p : List Pos) (h : CFReach cf start goal p) :
    reconstructPathRun cf start goal = p :=
  reconPathAux_intact cf start p goal h (cf.length + 1)
    (Nat.lt_succ_of_le (cfReach_length_le cf start goal p h))

/-- A came_from map whose chain from (0,2) is broken: (0,1) has no recorded
predecessor and the start (0,0) is never reached. -/
def brokenCF : CameFrom := [(((0 : Int), (2 : Int)), some ((0 : Int), (1 : Int)))]

/-- C9, counterexample: on a predecessor map whose chain from the goal stops
before the start, reconstruct_path silently returns the partial path walked so
far; it does not signal anything (its only result type is a list of cells).
Here the predecessor of (0,1) is missing, yet the call returns the partial
path [(0,1), (0,2)]. -/
theorem c9_counterexample :
    List.lookup ((0 : Int), (1 : Int)) brokenCF = none ∧
    reconstructPathRun brokenCF (0, 0) (0, 2) =
      [((0 : Int), (1 : Int)), ((0 : Int), (2 : Int))] := by
  constructor
  · rfl
  · rfl

/-- C9, amended: reconstruct_path walks predecessor links from the goal back
toward the start and returns the walked cells in start-to-goal order (start
itself excluded); on an intact chain this is the full chain, but when a
predecessor is missing before reaching the start it returns the partial path
walked so far instead of signalling a broken chain. -/
theorem c9_reconstruct (cf : CameFrom) (start goal : Pos) (p : List Pos)
    (h : CFReach cf start goal p) : reconstructPathRun cf start goal = p :=
  reconstructPathRun_intact cf start goal p h

/-- An intact three-cell came_from map used as witness input. -/
def intactCF : CameFrom :=
  [(((0 : Int), (0 : Int)), none),
   (((0 : Int), (1 : Int)), some ((0 : Int), (0 : Int))),
   (((0 : Int), (2 : Int)), some ((0 : Int), (1 : Int)))]

/-- C9, witness: the amended theorem applied to a concrete intact chain. -/
theorem c9_reconstruct_witness :
    reconstructPathRun intactCF (0, 0) (0, 2) =
      [((0 : Int), (1 : Int)), ((0 : Int), (2 : Int))] := by
  have h1 : CFReach intactCF (0, 0) ((0 : Int), (1 : Int)) ([] ++ [((0 : Int), (1 : Int))]) := by
    refine CFReach.step _ ((0 : Int), (0 : Int)) [] (by decide) (by rfl) CFReach.base
  have h2 : CFReach intactCF (0, 0) ((0 : Int), (2 : Int))
      (([] ++ [((0 : Int), (1 : Int))]) ++ [((0 : Int), (2 : Int))]) := by
    refine CFReach.step _ ((0 : Int), (1 : Int)) _ (by decide) (by rfl) h1
  have := c9_reconstruct intactCF (0, 0) (0, 2) _ h2
  simpa using this

/-! ### BFS, from MazeSolver.solve_bfs in src/AI_CLASSWORK/AI3.py -/

/-- The mutable state of one search run: the frontier (queue/stack), the
visited set, and the parent map.  Visited and parent grow by consing; the
queue is appended to at the back for BFS and at the front for DFS. -/
structure SearchSt where
  queue : List Pos
  visited : List Pos
  parent : List (Pos × Pos)

/-- Outcome of a search: found (with the final parent map), frontier
exhausted, or out of fuel (never happens for the fuel the wrappers pass). -/
inductive SearchOut
  | found (parent : List (Pos × Pos))
  | noPath
  | fuelOut
deriving DecidableEq

/-- The neighbor loop of solve_bfs: each not-yet-visited neighbor is marked
visited, recorded in parent, and appended to the queue. -/
def bfsExpand (g : Grid) (cur : Pos) (st : SearchSt) : SearchSt :=
  (neighbors g cur).foldl
    (fun st n =>
      if st.visited.contains n then st
      else ⟨st.queue ++ [n], n :: st.visited, (n, cur) :: st.parent⟩)
    st

/-- The while loop of solve_bfs: pop the queue front; the goal succeeds at its
pop; otherwise expand.  The list accumulates the popped cells (the order cells
are expanded) and is returned alongside the outcome. -/
def bfsAux (g : Grid) (goal : Pos) : Nat → SearchSt → List Pos → List Pos × SearchOut
  | 0, _, tr => (tr.reverse, .fuelOut)
  | fuel + 1, st, tr =>
    match h : st.queue with
    | [] => (tr.reverse, .noPath)
    | cur :: rest =>
      if cur = goal then (tr.reverse, .found st.parent)
      else bfsAux g goal fuel (bfsExpand g cur ⟨rest, st.visited, st.parent⟩) (cur :: tr)

/-- MazeSolver.solve_bfs on a grid with both endpoints set: initial queue and
visited hold the start, and the fuel passed is shown sufficient. -/
def solveBfs (g : Grid) (s t : Pos) : List Pos × SearchOut :=
  bfsAux g t (g.rows * g.cols + 2) ⟨[s], [s], []⟩ []

/-- Path rebuilding of draw_path_with_steps in AI3.py: follow parent from the
goal to the start, then reverse, yielding the full start..goal cell list; a
missing parent link is a KeyError in Python, modelled as none. -/
def buildPathAux (par : List (Pos × Pos)) (start : Pos) : Nat → Pos → Option (List Pos)
  | 0, _ => none
  | fuel + 1, cur =>
    if cur = start then some [start]
    else
      match List.lookup cur par with
      | none => none
      | some c => (buildPathAux par start fuel c).map (fun p => p ++ [cur])

def buildPath (par : List (Pos × Pos)) (s t : Pos) : Option (List Pos) :=
  buildPathAux par s (par.length + 1) t

/-- The four neighbor candidates of a cell are pairwise distinct, so the
neighbor list of a cell has no duplicates. -/
theorem neighbors_nodup (g : Grid) (p : Pos) : (neighbors g p).Nodup := by
  apply List.Nodup.filter
  obtain ⟨r, c⟩ := p
  show ([((r - 1, c) : Pos), (r + 1, c), (r, c - 1), (r, c + 1)]).Nodup
  simp only [List.nodup_cons, List.mem_cons, List.mem_singleton, List.not_mem_nil,
    Prod.mk.injEq, not_or, or_false, List.nodup_nil, and_true]
  norm_num
  omega

/-- Closed form of one BFS expansion: with F the not-yet-visited neighbors of
cur, the queue gains F at the back, visited gains F, and parent gains the
links (n, cur) for n in F. -/
theorem bfsExpand_eq (g : Grid) (cur : Pos) :
    ∀ (ns : List Pos), ns.Nodup → ∀ (q vis : List Pos) (par : List (Pos × Pos)),
      ns.foldl (fun st n =>
        if st.visited.contains n then st
        else ⟨st.queue ++ [n], n :: st.visited, (n, cur) :: st.parent⟩)
        (⟨q, vis, par⟩ : SearchSt) =
      ⟨q ++ ns.filter (fun n => ¬ vis.contains n),
        (ns.filter (fun n => ¬ vis.contains n)).reverse ++ vis,
        ((ns.filter (fun n => ¬ vis.contains n)).map (fun n => (n, cur))).reverse ++ par⟩
  | [], _ => by intro q vis par; simp
  | n :: rest, hnd => by
    intro q vis par
    have hn : n ∉ rest := (List.nodup_cons.mp hnd).1
    have hrest : rest.Nodup := (List.nodup_cons.mp hnd).2
    simp only [List.foldl_cons]
    by_cases hv : vis.contains n
    · rw [if_pos hv]
      rw [bfsExpand_eq g cur rest hrest q vis par]
      have : rest.filter (fun m => ¬ vis.contains m) =
          (n :: rest).filter (fun m => ¬ vis.contains m) := by
        simp only [List.filter_cons]
        rw [if_neg (by simpa using hv)]
      rw [← this]
    · rw [if_neg hv]
      rw [bfsExpand_eq g cur rest hrest (q ++ [n]) (n :: vis) ((n, cur) :: par)]
      have hfe : rest.filter (fun m => ¬ (n :: vis).contains m) =
          rest.filter (fun m => ¬ vis.contains m) := by
        apply List.filter_congr
        intro m hm
        have : m ≠ n := fun he => hn (he ▸ hm)
        simp [List.contains_cons, this]
      have hff : (n :: rest).filter (fun m => ¬ vis.contains m) =
          n :: rest.filter (fun m => ¬ vis.contains m) := by
        simp only [List.filter_cons]
        rw [if_pos (by simpa using hv)]
      rw [hfe, hff]
      simp

/-! ### Shared list and path helper lemmas -/

theorem nodup_subset_length {α : Type} [DecidableEq α] (A B : List α)
    (hA : A.Nodup) (hsub : ∀ x ∈ A, x ∈ B) : A.length ≤ B.length := by
  calc A.length = A.toFinset.card := (List.toFinset_card_of_nodup hA).symm
    _ ≤ B.toFinset.card := by
        apply Finset.card_le_card
        intro z hz
        rw [List.mem_toFinset] at hz ⊢
        exact hsub z hz
    _ ≤ B.length := List.toFinset_card_le _

theorem lookup_append_right {α β : Type} [BEq α] [LawfulBEq α]
    (l1 l2 : List (α × β)) (x : α) (h : x ∉ l1.map Prod.fst) :
    List.lookup x (l1 ++ l2) = List.lookup x l2 := by
  rw [List.lookup_append]
  have : List.lookup x l1 = none := by
    rw [List.lookup_eq_none_iff]
    intro pr hpr
    simp only [bne_iff_ne]
    intro he
    exact h (List.mem_map.mpr ⟨pr, hpr, he.symm⟩)
  rw [this, Option.none_or]

theorem lookup_append_left {α β : Type} [BEq α] [LawfulBEq α]
    (l1 l2 : List (α × β)) (x : α) (v : β) (h : List.lookup x l1 = some v) :
    List.lookup x (l1 ++ l2) = some v := by
  rw [List.lookup_append, h]
  rfl

theorem lookup_map_const {α β : Type} [BEq α] [LawfulBEq α] (v : β) :
    ∀ (l : List α) (x : α), x ∈ l → List.lookup x (l.map fun n => (n, v)) = some v
  | [], x => by intro h; exact absurd h (List.not_mem_nil x)
  | a :: rest, x => by
    intro h
    simp only [List.map_cons, List.lookup_cons]
    by_cases he : x = a
    · rw [beq_iff_eq.mpr he]
    · have : (x == a) = false := beq_false_of_ne he
      rw [this]
      rcases List.mem_cons.mp h with h1 | h1
      · exact absurd h1 he
      · exact lookup_map_const v rest x h1

/-- Some path from s to x with exactly n edges. -/
def Reach (g : Grid) (s x : Pos) (n : Nat) : Prop :=
  ∃ p, isPath g s x p ∧ p.length = n + 1

theorem reach_self (g : Grid) (s : Pos) : Reach g s s 0 :=
  ⟨[s], isPath_single g s, rfl⟩

/-- Extending a path by one neighbor step. -/
theorem isPath_snoc (g : Grid) (s y x : Pos) (p : List Pos) (hp : isPath g s y p)
    (hx : x ∈ neighbors g y) : isPath g s x (p ++ [x]) := by
  obtain ⟨h1, h2, hc⟩ := hp
  refine ⟨?_, ?_, ?_⟩
  · match p, h1 with
    | a :: rest, h1 => simpa using h1
  · simp
  · rw [List.chain'_append]
    refine ⟨hc, List.chain'_singleton x, ?_⟩
    intro z hz w hw
    simp only [List.head?_cons, Option.mem_def, Option.some.injEq] at hw
    rw [h2] at hz
    simp only [Option.mem_def, Option.some.injEq] at hz
    subst hz; subst hw
    exact hx

theorem reach_step (g : Grid) (s y x : Pos) (n : Nat) (hr : Reach g s y n)
    (hx : x ∈ neighbors g y) : Reach g s x (n + 1) := by
  obtain ⟨p, hp, hl⟩ := hr
  exact ⟨p ++ [x], isPath_snoc g s y x p hp hx, by simp [hl]⟩

/-- Splitting the final step off a path of at least two cells. -/
theorem isPath_decomp (g : Grid) (s x : Pos) (p : List Pos) (hp : isPath g s x p)
    (hl : 2 ≤ p.length) :
    ∃ p' y, p = p' ++ [x] ∧ isPath g s y p' ∧ x ∈ neighbors g y ∧
      p.length = p'.length + 1 := by
  obtain ⟨h1, h2, hc⟩ := hp
  have hne : p ≠ [] := by intro he; rw [he] at hl; simp at hl
  obtain ⟨p', z, hpz⟩ := List.eq_nil_or_concat p |>.resolve_left hne
  rw [List.concat_eq_append] at hpz
  subst hpz
  have hz : z = x := by simpa using h2
  subst hz
  have hne' : p' ≠ [] := by
    intro he
    rw [he] at hl
    simp at hl
  obtain ⟨y, hy⟩ := List.getLast?_isSome.mpr hne' |> Option.isSome_iff_exists.mp
  rw [List.chain'_append] at hc
  obtain ⟨hc1, _, hlast⟩ := hc
  refine ⟨p', y, rfl, ⟨?_, hy, hc1⟩, ?_, by simp⟩
  · rw [List.head?_append_of_ne_nil _ hne'] at h1
    exact h1
  · exact hlast y (by rw [hy]; rfl) _ rfl

theorem mem_fresh_iff (vis ns : List Pos) (x : Pos) :
    x ∈ ns.filter (fun n => ¬ vis.contains n) ↔ x ∈ ns ∧ x ∉ vis := by
  simp [List.mem_filter, List.contains, List.elem_eq_mem]

/-- The BFS loop invariant, relative to a ghost labelling d of every visited
cell by its exact shortest-path edge count from the start. -/
structure BfsInv (g : Grid) (s goal : Pos) (st : SearchSt) (d : Pos → Nat) : Prop where
  nodupV : st.visited.Nodup
  qSubV : ∀ x ∈ st.queue, x ∈ st.visited
  sV : s ∈ st.visited
  dReach : ∀ x ∈ st.visited, Reach g s x (d x)
  dMin : ∀ x ∈ st.visited, ∀ m, Reach g s x m → d x ≤ m
  parChain : ∀ x ∈ st.visited, x ≠ s → ∃ c, List.lookup x st.parent = some c ∧
      c ∈ st.visited ∧ x ∈ neighbors g c ∧ d x = d c + 1
  parKeys : (st.parent.map Prod.fst).Nodup
  parKeysV : ∀ pr ∈ st.parent, pr.1 ∈ st.visited ∧ pr.1 ≠ s
  levels : ∃ a q1 q2, st.queue = q1 ++ q2 ∧ (∀ x ∈ q1, d x = a) ∧
      (∀ x ∈ q2, d x = a + 1) ∧
      (∀ x, x ∉ st.visited → ∀ p, isPath g s x p → a + 2 ≤ p.length)
  processed : ∀ v ∈ st.visited, v ∉ st.queue → ∀ n ∈ neighbors g v, n ∈ st.visited
  goalQ : goal ∈ st.visited → goal ∈ st.queue

theorem bfsInv_init (g : Grid) (s goal : Pos) :
    BfsInv g s goal ⟨[s], [s], []⟩ (fun _ => 0) := by
  refine ⟨List.nodup_singleton s, fun x hx => hx, List.mem_singleton_self s,
    ?_, ?_, ?_, List.nodup_nil, ?_, ?_, ?_, fun h => h⟩
  · intro x hx
    rw [List.mem_singleton] at hx
    subst hx
    exact reach_self g x
  · intro x hx m _
    exact Nat.zero_le m
  · intro x hx hxs
    rw [List.mem_singleton] at hx
    exact absurd hx hxs
  · intro pr hpr
    exact absurd hpr (List.not_mem_nil pr)
  · refine ⟨0, [s], [], rfl, ?_, ?_, ?_⟩
    · intro x _; rfl
    · intro x hx; exact absurd hx (List.not_mem_nil x)
    · intro x hx p hp
      have hxs : s ≠ x := fun he => hx (by rw [← he]; exact List.mem_singleton_self s)
      exact isPath_ne_length g s x p hxs hp
  · intro v hv hvq
    rw [List.mem_singleton] at hv
    exact absurd (hv ▸ List.mem_singleton_self s : v ∈ [s]) hvq

/-- When every queued cell sits at level a + 1 the unvisited lower bound can
be advanced by one: no unvisited cell is reachable in a + 1 edges. -/
theorem bfs_bound_advance (g : Grid) (s goal : Pos) (st : SearchSt) (d : Pos → Nat)
    (inv : BfsInv g s goal st d) (a : Nat)
    (hall : ∀ x ∈ st.queue, d x = a + 1)
    (hbound : ∀ x, x ∉ st.visited → ∀ p, isPath g s x p → a + 2 ≤ p.length) :
    ∀ x, x ∉ st.visited → ∀ p, isPath g s x p → a + 3 ≤ p.length := by
  intro x hx p hp
  by_contra hlt
  push_neg at hlt
  have hge := hbound x hx p hp
  have hlen : p.length = a + 2 := by omega
  have hxs : x ≠ s := fun he => hx (he ▸ inv.sV)
  obtain ⟨p', y, hpe, hp', hxy, hplen⟩ := isPath_decomp g s x p hp (by omega)
  have hylen : p'.length = a + 1 := by omega
  by_cases hyv : y ∈ st.visited
  · have hdy : d y ≤ a := inv.dMin y hyv a ⟨p', hp', by omega⟩
    have hynq : y ∉ st.queue := fun hq => by
      have := hall y hq
      omega
    exact hx (inv.processed y hyv hynq x hxy)
  · have := hbound y hyv p' hp'
    omega

/-- One BFS iteration preserves the invariant: popping a non-goal cell and
expanding its fresh neighbors at the next level. -/
theorem bfsInv_step (g : Grid) (s goal : Pos) (cur : Pos) (rest vis : List Pos)
    (par : List (Pos × Pos)) (d : Pos → Nat)
    (inv : BfsInv g s goal ⟨cur :: rest, vis, par⟩ d) (hcg : cur ≠ goal) :
    ∃ d', BfsInv g s goal (bfsExpand g cur ⟨rest, vis, par⟩) d' := by
  -- Normalize the level split so that cur sits at the front level A.
  obtain ⟨a, q1, q2, hsplit, hq1, hq2, hbound0⟩ := inv.levels
  obtain ⟨A, Q1t, Q2, hrest, hdcur, hQ1, hQ2, hbound⟩ :
      ∃ A Q1t Q2, rest = Q1t ++ Q2 ∧ d cur = A ∧ (∀ x ∈ Q1t, d x = A) ∧
        (∀ x ∈ Q2, d x = A + 1) ∧
        (∀ x, x ∉ vis → ∀ p, isPath g s x p → A + 2 ≤ p.length) := by
    match q1, hsplit with
    | [], hsplit =>
      have hq : (⟨cur :: rest, vis, par⟩ : SearchSt).queue = q2 := by
        simpa using hsplit
      have hall : ∀ x ∈ (⟨cur :: rest, vis, par⟩ : SearchSt).queue, d x = a + 1 := by
        intro x hx
        rw [hq] at hx
        exact hq2 x hx
      have hadv := bfs_bound_advance g s goal _ d inv a hall hbound0
      refine ⟨a + 1, rest, [], by simp, ?_, ?_, ?_, ?_⟩
      · exact hall cur (List.mem_cons_self cur rest)
      · intro x hx
        exact hall x (List.mem_cons_of_mem cur hx)
      · intro x hx; exact absurd hx (List.not_mem_nil x)
      · intro x hx p hp
        have := hadv x hx p hp
        omega
    | c :: q1t, hsplit =>
      simp only [List.cons_append, List.cons.injEq] at hsplit
      obtain ⟨hc, hrest⟩ := hsplit
      subst hc
      refine ⟨a, q1t, q2, hrest, hq1 cur (List.mem_cons_self cur q1t), ?_, hq2, hbound0⟩
      intro x hx
      exact hq1 x (List.mem_cons_of_mem cur hx)
  clear hsplit hq1 hq2 hbound0
  -- The fresh neighbor list and the new labelling.
  set F := (neighbors g cur).filter (fun n => ¬ vis.contains n) with hF
  have hexp : bfsExpand g cur ⟨rest, vis, par⟩ =
      ⟨rest ++ F, F.reverse ++ vis, (F.map fun n => (n, cur)).reverse ++ par⟩ :=
    bfsExpand_eq g cur (neighbors g cur) (neighbors_nodup g cur) rest vis par
  have hFmem : ∀ x, x ∈ F ↔ x ∈ neighbors g cur ∧ x ∉ vis := fun x =>
    mem_fresh_iff vis (neighbors g cur) x
  have hFnd : F.Nodup := List.Nodup.filter _ (neighbors_nodup g cur)
  have hcurV : cur ∈ vis := inv.qSubV cur (List.mem_cons_self cur rest)
  have hcurF : cur ∉ F := fun h => ((hFmem cur).mp h).2 hcurV
  refine ⟨fun x => if x ∈ F then A + 1 else d x, ?_⟩
  rw [hexp]
  have hdv : ∀ x ∈ vis, (if x ∈ F then A + 1 else d x) = d x := by
    intro x hx
    rw [if_neg (fun h => ((hFmem x).mp h).2 hx)]
  have hmemV : ∀ x, x ∈ F.reverse ++ vis ↔ x ∈ F ∨ x ∈ vis := by
    intro x
    rw [List.mem_append, List.mem_reverse]
  have hkeysNew : ((F.map fun n => (n, cur)).reverse).map Prod.fst = F.reverse := by
    rw [← List.map_reverse, List.map_map]
    have he : (Prod.fst ∘ fun n => (n, cur)) = fun (n : Pos) => n := rfl
    rw [he, List.map_id']
  refine ⟨?_, ?_, ?_, ?_, ?_, ?_, ?_, ?_, ?_, ?_, ?_⟩
  · -- nodupV
    rw [List.nodup_append]
    refine ⟨List.nodup_reverse.mpr hFnd, inv.nodupV, ?_⟩
    intro x hx hxv
    exact ((hFmem x).mp (List.mem_reverse.mp hx)).2 hxv
  · -- qSubV
    intro x hx
    rw [List.mem_append] at hx
    rw [hmemV]
    rcases hx with hx | hx
    · exact Or.inr (inv.qSubV x (List.mem_cons_of_mem cur (hrest ▸ hx)))
    · exact Or.inl hx
  · -- sV
    rw [hmemV]; exact Or.inr inv.sV
  · -- dReach
    intro x hx
    rw [hmemV] at hx
    rcases hx with hx | hx
    · rw [if_pos hx]
      have hcr : Reach g s cur A := hdcur ▸ inv.dReach cur hcurV
      exact reach_step g s cur x A hcr ((hFmem x).mp hx).1
    · rw [hdv x hx]
      exact inv.dReach x hx
  · -- dMin
    intro x hx m hm
    rw [hmemV] at hx
    rcases hx with hx | hx
    · rw [if_pos hx]
      obtain ⟨p, hp, hl⟩ := hm
      have := hbound x ((hFmem x).mp hx).2 p hp
      omega
    · rw [hdv x hx]
      exact inv.dMin x hx m hm
  · -- parChain
    intro x hx hxs
    rw [hmemV] at hx
    rcases hx with hx | hx
    · refine ⟨cur, ?_, ?_, ((hFmem x).mp hx).1, ?_⟩
      · apply lookup_append_left
        rw [← List.map_reverse]
        exact lookup_map_const cur F.reverse x (List.mem_reverse.mpr hx)
      · rw [hmemV]; exact Or.inr hcurV
      · rw [if_pos hx, if_neg hcurF, hdcur]
    · obtain ⟨c, hlk, hcv, hxn, hdx⟩ := inv.parChain x hx hxs
      refine ⟨c, ?_, ?_, hxn, ?_⟩
      · rw [lookup_append_right]
        · exact hlk
        · rw [hkeysNew, List.mem_reverse]
          exact fun h => ((hFmem x).mp h).2 hx
      · rw [hmemV]; exact Or.inr hcv
      · rw [hdv x hx, hdv c hcv]
        exact hdx
  · -- parKeys
    rw [List.map_append, List.nodup_append, hkeysNew]
    refine ⟨List.nodup_reverse.mpr hFnd, inv.parKeys, ?_⟩
    intro x hx hxk
    have hxF := List.mem_reverse.mp hx
    obtain ⟨pr, hpr, hpre⟩ := List.mem_map.mp hxk
    have := (inv.parKeysV pr hpr).1
    rw [hpre] at this
    exact ((hFmem x).mp hxF).2 this
  · -- parKeysV
    intro pr hpr
    rw [List.mem_append] at hpr
    rcases hpr with hpr | hpr
    · rw [List.mem_reverse] at hpr
      obtain ⟨n, hn, hne⟩ := List.mem_map.mp hpr
      have hnF : pr.1 = n := by rw [← hne]
      constructor
      · rw [hmemV, hnF]; exact Or.inl hn
      · rw [hnF]
        exact fun he => ((hFmem n).mp hn).2 (he ▸ inv.sV)
    · obtain ⟨h1, h2⟩ := inv.parKeysV pr hpr
      exact ⟨by rw [hmemV]; exact Or.inr h1, h2⟩
  · -- levels
    refine ⟨A, Q1t, Q2 ++ F, by rw [hrest]; simp, ?_, ?_, ?_⟩
    · intro x hx
      have hxv : x ∈ vis := inv.qSubV x (List.mem_cons_of_mem cur (by rw [hrest]; exact List.mem_append_left Q2 hx))
      rw [hdv x hxv]
      exact hQ1 x hx
    · intro x hx
      rw [List.mem_append] at hx
      rcases hx with hx | hx
      · have hxv : x ∈ vis := inv.qSubV x (List.mem_cons_of_mem cur (by rw [hrest]; exact List.mem_append_right Q1t hx))
        rw [hdv x hxv]
        exact hQ2 x hx
      · rw [if_pos hx]
    · intro x hx p hp
      have hxv : x ∉ vis := fun h => hx ((hmemV x).mpr (Or.inr h))
      exact hbound x hxv p hp
  · -- processed
    intro v hv hvq n hn
    rw [hmemV] at hv
    rw [hmemV]
    rcases hv with hv | hv
    · exact absurd (List.mem_append_right rest (by exact hv)) hvq
    · by_cases hvc : v = cur
      · subst hvc
        by_cases hnv : n ∈ vis
        · exact Or.inr hnv
        · exact Or.inl ((hFmem n).mpr ⟨hn, hnv⟩)
      · have hvrest : v ∉ rest := fun h => hvq (List.mem_append_left F h)
        have hvold : v ∉ cur :: rest := by
          intro h
          rcases List.mem_cons.mp h with h | h
          · exact hvc h
          · exact hvrest h
        exact Or.inr (inv.processed v hv hvold n hn)
  · -- goalQ
    intro hgv
    rw [hmemV] at hgv
    rcases hgv with hgv | hgv
    · exact List.mem_append_right rest hgv
    · have := inv.goalQ hgv
      rcases List.mem_cons.mp this with h | h
      · exact absurd h.symm hcg
      · exact List.mem_append_left F h

/-- Running the BFS loop from an invariant state: a found result carries the
parent map of an invariant state whose visited set holds the goal, and a
noPath result comes from an invariant state with an empty queue. -/
theorem bfsAux_run (g : Grid) (s goal : Pos) :
    ∀ (fuel : Nat) (st : SearchSt) (d : Pos → Nat) (tr : List Pos),
      BfsInv g s goal st d →
      (∀ p, (bfsAux g goal fuel st tr).2 = .found p →
        ∃ st2 d2, BfsInv g s goal st2 d2 ∧ goal ∈ st2.visited ∧ st2.parent = p) ∧
      ((bfsAux g goal fuel st tr).2 = .noPath →
        ∃ st2 d2, BfsInv g s goal st2 d2 ∧ st2.queue = [])
  | 0, st, d, tr => by
    intro _
    constructor
    · intro p h; simp [bfsAux] at h
    · intro h; simp [bfsAux] at h
  | fuel + 1, st, d, tr => by
    intro inv
    obtain ⟨q, v, par⟩ := st
    match q with
    | [] =>
      constructor
      · intro p h; simp [bfsAux] at h
      · intro _; exact ⟨⟨[], v, par⟩, d, inv, rfl⟩
    | cur :: rest =>
      by_cases hcg : cur = goal
      · subst hcg
        constructor
        · intro p h
          simp [bfsAux] at h
          exact ⟨⟨cur :: rest, v, par⟩, d, inv,
            inv.qSubV cur (List.mem_cons_self cur rest), h⟩
        · intro h; simp [bfsAux] at h
      · obtain ⟨d2, inv2⟩ := bfsInv_step g s goal cur rest v par d inv hcg
        have hred : bfsAux g goal (fuel + 1) ⟨cur :: rest, v, par⟩ tr =
            bfsAux g goal fuel (bfsExpand g cur ⟨rest, v, par⟩) (cur :: tr) := by
          simp [bfsAux, hcg]
        rw [hred]
        exact bfsAux_run g s goal fuel _ d2 (cur :: tr) inv2

/-- A rectangle of grid cells as a finset, for counting visited cells. -/
def rectFinset (g : Grid) : Finset Pos :=
  (Finset.range g.rows ×ˢ Finset.range g.cols).image
    (fun rc => ((rc.1 : Int), (rc.2 : Int)))

theorem rectFinset_card (g : Grid) : (rectFinset g).card = g.rows * g.cols := by
  rw [rectFinset, Finset.card_image_of_injective, Finset.card_product,
    Finset.card_range, Finset.card_range]
  intro a b h
  have h1 : (a.1 : Int) = (b.1 : Int) := congrArg Prod.fst h
  have h2 : (a.2 : Int) = (b.2 : Int) := congrArg Prod.snd h
  have := Int.ofNat.inj h1
  have := Int.ofNat.inj h2
  obtain ⟨a1, a2⟩ := a
  obtain ⟨b1, b2⟩ := b
  simp_all

theorem mem_rectFinset (g : Grid) (x : Pos) (h : inBounds g x = true) :
    x ∈ rectFinset g := by
  simp only [inBounds, Bool.and_eq_true, decide_eq_true_eq] at h
  obtain ⟨⟨⟨h1, h2⟩, h3⟩, h4⟩ := h
  rw [rectFinset, Finset.mem_image]
  refine ⟨(x.1.toNat, x.2.toNat), ?_, ?_⟩
  · rw [Finset.mem_product, Finset.mem_range, Finset.mem_range]
    constructor <;> omega
  · obtain ⟨xr, xc⟩ := x
    simp only at h1 h2 h3 h4 ⊢
    rw [Int.toNat_of_nonneg h1, Int.toNat_of_nonneg h3]

theorem bounded_pos_length (g : Grid) (s : Pos) (l : List Pos) (hnd : l.Nodup)
    (hmem : ∀ x ∈ l, x = s ∨ inBounds g x = true) :
    l.length ≤ g.rows * g.cols + 1 := by
  calc l.length = l.toFinset.card := (List.toFinset_card_of_nodup hnd).symm
    _ ≤ (insert s (rectFinset g)).card := by
        apply Finset.card_le_card
        intro z hz
        rw [List.mem_toFinset] at hz
        rcases hmem z hz with h | h
        · rw [h]; exact Finset.mem_insert_self s _
        · exact Finset.mem_insert_of_mem (mem_rectFinset g z h)
    _ ≤ (rectFinset g).card + 1 := Finset.card_insert_le s _
    _ = g.rows * g.cols + 1 := by rw [rectFinset_card]

/-- Every visited cell is the start or an in-bounds cell. -/
theorem bfsInv_vis_inB (g : Grid) (s goal : Pos) (st : SearchSt) (d : Pos → Nat)
    (inv : BfsInv g s goal st d) :
    ∀ x ∈ st.visited, x = s ∨ inBounds g x = true := by
  intro x hx
  by_cases hxs : x = s
  · exact Or.inl hxs
  · obtain ⟨c, _, _, hxn, _⟩ := inv.parChain x hx hxs
    simp only [neighbors, List.mem_filter] at hxn
    have := hxn.2
    simp only [openCell, Bool.and_eq_true] at this
    exact Or.inr this.1

theorem bfsInv_vis_len (g : Grid) (s goal : Pos) (st : SearchSt) (d : Pos → Nat)
    (inv : BfsInv g s goal st d) : st.visited.length ≤ g.rows * g.cols + 1 :=
  bounded_pos_length g s st.visited inv.nodupV (bfsInv_vis_inB g s goal st d inv)

/-- With fuel exceeding the measure queue length plus unvisited capacity, the
BFS loop never runs out of fuel. -/
theorem bfsAux_no_fuelOut (g : Grid) (s goal : Pos) :
    ∀ (fuel : Nat) (st : SearchSt) (d : Pos → Nat) (tr : List Pos),
      BfsInv g s goal st d →
      st.queue.length + (g.rows * g.cols + 1 - st.visited.length) < fuel →
      (bfsAux g goal fuel st tr).2 ≠ .fuelOut
  | 0, st, d, tr => by
    intro _ hm
    omega
  | fuel + 1, st, d, tr => by
    intro inv hm
    obtain ⟨q, v, par⟩ := st
    match q with
    | [] =>
      intro h; simp [bfsAux] at h
    | cur :: rest =>
      by_cases hcg : cur = goal
      · subst hcg
        intro h; simp [bfsAux] at h
      · obtain ⟨d2, inv2⟩ := bfsInv_step g s goal cur rest v par d inv hcg
        have hred : bfsAux g goal (fuel + 1) ⟨cur :: rest, v, par⟩ tr =
            bfsAux g goal fuel (bfsExpand g cur ⟨rest, v, par⟩) (cur :: tr) := by
          simp [bfsAux, hcg]
        rw [hred]
        have hexp : bfsExpand g cur ⟨rest, v, par⟩ =
            ⟨rest ++ (neighbors g cur).filter (fun n => ¬ v.contains n),
              ((neighbors g cur).filter (fun n => ¬ v.contains n)).reverse ++ v,
              (((neighbors g cur).filter (fun n => ¬ v.contains n)).map
                (fun n => (n, cur))).reverse ++ par⟩ :=
          bfsExpand_eq g cur (neighbors g cur) (neighbors_nodup g cur) rest v par
        apply bfsAux_no_fuelOut g s goal fuel _ d2 (cur :: tr) inv2
        have hlen2 := bfsInv_vis_len g s goal _ d2 inv2
        rw [hexp] at hlen2 ⊢
        simp only [List.length_append, List.length_cons, List.length_reverse] at hlen2 hm ⊢
        omega

/-- Once the queue is empty, every cell reachable from the start has been
visited (the frontier-cut argument). -/
theorem bfs_cut (g : Grid) (s goal : Pos) (st : SearchSt) (d : Pos → Nat)
    (inv : BfsInv g s goal st d) (hq : st.queue = []) :
    ∀ (n : Nat) (p : List Pos) (x : Pos), p.length ≤ n → isPath g s x p →
      x ∈ st.visited
  | 0, p, x => by
    intro hl hp
    obtain ⟨h1, _, _⟩ := hp
    match p with
    | [] => simp at h1
    | a :: r => simp at hl
  | n + 1, p, x => by
    intro hl hp
    by_cases hxs : x = s
    · exact hxs ▸ inv.sV
    · obtain ⟨p', y, hpe, hp', hxy, hplen⟩ :=
        isPath_decomp g s x p hp (isPath_ne_length g s x p (fun h => hxs h.symm) hp)
      have hyv : y ∈ st.visited :=
        bfs_cut g s goal st d inv hq n p' y (by omega) hp'
      have hynq : y ∉ st.queue := by rw [hq]; exact List.not_mem_nil y
      exact inv.processed y hyv hynq x hxy

theorem bfsInv_ds (g : Grid) (s goal : Pos) (st : SearchSt) (d : Pos → Nat)
    (inv : BfsInv g s goal st d) : d s = 0 :=
  Nat.le_zero.mp (inv.dMin s inv.sV 0 (reach_self g s))

/-- Following parent links from any visited cell yields the unique BFS tree
path: a shortest path from the start. -/
theorem bfs_build (g : Grid) (s goal : Pos) (st : SearchSt) (d : Pos → Nat)
    (inv : BfsInv g s goal st d) :
    ∀ (n : Nat) (x : Pos), d x ≤ n → x ∈ st.visited →
      ∃ p, (∀ fuel, d x < fuel → buildPathAux st.parent s fuel x = some p) ∧
        isPath g s x p ∧ p.length = d x + 1 ∧ p.Nodup ∧
        (∀ z ∈ p, z ∈ st.visited ∧ d z ≤ d x) := by
  intro n
  induction n with
  | zero =>
    intro x hdx hxv
    have hxs : x = s := by
      by_contra hxs
      obtain ⟨c, _, _, _, hd⟩ := inv.parChain x hxv hxs
      omega
    subst hxs
    refine ⟨[x], ?_, isPath_single g x, by simp; omega, List.nodup_singleton x, ?_⟩
    · intro fuel hf
      match fuel, hf with
      | fuel + 1, _ => simp [buildPathAux]
    · intro z hz
      rw [List.mem_singleton] at hz
      subst hz
      exact ⟨hxv, le_refl _⟩
  | succ n ih =>
    intro x hdx hxv
    by_cases hxs : x = s
    · subst hxs
      have hds : d x = 0 := bfsInv_ds g x goal st d inv
      refine ⟨[x], ?_, isPath_single g x, by simp [hds], List.nodup_singleton x, ?_⟩
      · intro fuel hf
        match fuel, hf with
        | fuel + 1, _ => simp [buildPathAux]
      · intro z hz
        rw [List.mem_singleton] at hz
        subst hz
        exact ⟨hxv, le_refl _⟩
    · obtain ⟨c, hlk, hcv, hxn, hd⟩ := inv.parChain x hxv hxs
      obtain ⟨pc, hbc, hpc, hlc, hndc, hmemc⟩ := ih c (by omega) hcv
      refine ⟨pc ++ [x], ?_, isPath_snoc g s c x pc hpc hxn, by simp [hlc]; omega, ?_, ?_⟩
      · intro fuel hf
        match fuel, hf with
        | fuel + 1, hf =>
          simp only [buildPathAux, if_neg hxs, hlk]
          rw [hbc fuel (by omega)]
          rfl
      · rw [List.nodup_append]
        refine ⟨hndc, List.nodup_singleton x, ?_⟩
        intro z hz hzx
        rw [List.mem_singleton] at hzx
        subst hzx
        have := (hmemc z hz).2
        omega
      · intro z hz
        rw [List.mem_append] at hz
        rcases hz with hz | hz
        · obtain ⟨h1, h2⟩ := hmemc z hz
          exact ⟨h1, by omega⟩
        · rw [List.mem_singleton] at hz
          subst hz
          exact ⟨hxv, le_refl _⟩

/-- The number of visited cells exceeds the number of parent entries by
exactly the start cell, so a visited cell's tree depth fits par.length. -/
theorem bfsInv_vis_le_par (g : Grid) (s goal : Pos) (st : SearchSt) (d : Pos → Nat)
    (inv : BfsInv g s goal st d) : st.visited.length ≤ st.parent.length + 1 := by
  have he : (st.visited.erase s).length + 1 = st.visited.length := by
    rw [List.length_erase_of_mem inv.sV]
    have : st.visited.length ≠ 0 := by
      intro h
      rw [List.length_eq_zero] at h
      have hs := inv.sV
      rw [h] at hs
      exact absurd hs (List.not_mem_nil s)
    omega
  have hsub : ∀ x ∈ st.visited.erase s, x ∈ st.parent.map Prod.fst := by
    intro x hx
    have hxv := List.mem_of_mem_erase hx
    have hxs : x ≠ s := by
      intro he2
      subst he2
      exact (List.Nodup.not_mem_erase inv.nodupV) hx
    obtain ⟨c, hlk, _, _, _⟩ := inv.parChain x hxv hxs
    exact lookup_isSome_mem_keys st.parent x c hlk
  have := nodup_subset_length (st.visited.erase s) (st.parent.map Prod.fst)
    (inv.nodupV.erase s) hsub
  rw [List.length_map] at this
  omega

/-- The full path produced by a BFS found result: a genuine shortest path. -/
theorem bfs_found_path (g : Grid) (s goal : Pos) (st : SearchSt) (d : Pos → Nat)
    (inv : BfsInv g s goal st d) (hgv : goal ∈ st.visited) :
    ∃ path, buildPath st.parent s goal = some path ∧ isPath g s goal path ∧
      (∀ q, isPath g s goal q → path.length ≤ q.length) := by
  obtain ⟨p, hb, hp, hl, hnd, hmem⟩ :=
    bfs_build g s goal st d inv (d goal) goal (le_refl _) hgv
  have hdg : d goal < st.parent.length + 1 := by
    have h1 : p.length ≤ st.visited.length :=
      nodup_subset_length p st.visited hnd (fun z hz => (hmem z hz).1)
    have h2 := bfsInv_vis_le_par g s goal st d inv
    omega
  refine ⟨p, hb (st.parent.length + 1) hdg, hp, ?_⟩
  intro q hq
  have hq1 : 1 ≤ q.length := by
    obtain ⟨h1, _, _⟩ := hq
    match q with
    | [] => simp at h1
    | a :: r => simp
  have hreach : Reach g s goal (q.length - 1) := ⟨q, hq, by omega⟩
  have := inv.dMin goal hgv (q.length - 1) hreach
  omega

/-- Main BFS run theorem: on any reachable goal, solve_bfs finds it and its
parent map reconstructs a shortest path. -/
theorem solveBfs_found (g : Grid) (s t : Pos) (hreach : ∃ p, isPath g s t p) :
    ∃ par, (solveBfs g s t).2 = .found par ∧
      ∃ path, buildPath par s t = some path ∧ isPath g s t path ∧
        (∀ q, isPath g s t q → path.length ≤ q.length) := by
  have inv0 := bfsInv_init g s t
  have hrun := bfsAux_run g s t (g.rows * g.cols + 2) ⟨[s], [s], []⟩ (fun _ => 0) [] inv0
  have hfuel := bfsAux_no_fuelOut g s t (g.rows * g.cols + 2) ⟨[s], [s], []⟩
    (fun _ => 0) [] inv0 (by simp only [List.length_singleton]; omega)
  rcases hout : (solveBfs g s t).2 with par | _ | _
  · obtain ⟨st2, d2, inv2, hgv, hpar⟩ := hrun.1 par hout
    subst hpar
    obtain ⟨path, hbp, hip, hmin⟩ := bfs_found_path g s t st2 d2 inv2 hgv
    exact ⟨st2.parent, rfl, path, hbp, hip, hmin⟩
  · obtain ⟨st2, d2, inv2, hq⟩ := hrun.2 hout
    obtain ⟨p, hp⟩ := hreach
    have hlt : p.length ≤ p.length := le_refl _
    have htv : t ∈ st2.visited := bfs_cut g s t st2 d2 inv2 hq p.length p t hlt hp
    have := inv2.goalQ htv
    rw [hq] at this
    exact absurd this (List.not_mem_nil t)
  · exact absurd hout hfuel

/-! ### A Manhattan-length path on a wall-free grid -/

def stepToward (a b : Int) : Int := if a < b then a + 1 else a - 1

def vertPath (c r2 : Int) : Nat → Int → List Pos
  | 0, r => [(r, c)]
  | n + 1, r => (r, c) :: vertPath c r2 n (stepToward r r2)

def horizPath (r c2 : Int) : Nat → Int → List Pos
  | 0, c => [(r, c)]
  | n + 1, c => (r, c) :: horizPath r c2 n (stepToward c c2)

/-- The straight vertical-then-horizontal path from s to t. -/
def manhattanPath (s t : Pos) : List Pos :=
  vertPath s.2 t.1 (t.1 - s.1).natAbs s.1 ++
    (horizPath t.1 t.2 (t.2 - s.2).natAbs s.2).tail

theorem isPath_cons (g : Grid) (x y t : Pos) (p : List Pos) (hp : isPath g y t p)
    (hyn : y ∈ neighbors g x) : isPath g x t (x :: p) := by
  obtain ⟨h1, h2, hc⟩ := hp
  match p, h1 with
  | a :: rest, h1 =>
    have ha : a = y := by simpa using h1
    subst ha
    refine ⟨rfl, ?_, ?_⟩
    · rw [List.getLast?_cons_cons]
      exact h2
    · rw [List.chain'_cons]
      exact ⟨hyn, hc⟩

theorem isPath_trans (g : Grid) (s m t : Pos) (p1 p2 : List Pos)
    (h1 : isPath g s m p1) (h2 : isPath g m t p2) :
    isPath g s t (p1 ++ p2.tail) ∧ (p1 ++ p2.tail).length + 1 = p1.length + p2.length := by
  obtain ⟨h2h, h2l, h2c⟩ := h2
  match p2, h2h with
  | m2 :: rest, h2h =>
    have hm : m2 = m := by simpa using h2h
    rw [← hm] at h1
    obtain ⟨h1h, h1l, h1c⟩ := h1
    match rest with
    | [] =>
      have hmt : m2 = t := by simpa using h2l
      rw [hmt] at h1l
      constructor
      · exact ⟨by simpa using h1h, by simpa using h1l, by simpa using h1c⟩
      · simp
    | b :: rest2 =>
      have hp1ne : p1 ≠ [] := by
        intro he
        rw [he] at h1h
        simp at h1h
      constructor
      · refine ⟨?_, ?_, ?_⟩
        · rw [List.head?_append_of_ne_nil _ hp1ne]
          exact h1h
        · simp only [List.tail_cons]
          rw [List.getLast?_append_of_ne_nil _ (by simp)]
          rw [List.getLast?_cons_cons] at h2l
          exact h2l
        · simp only [List.tail_cons]
          rw [List.chain'_append]
          refine ⟨h1c, (List.chain'_cons.mp h2c).2, ?_⟩
          intro z hz w hw
          rw [h1l] at hz
          simp only [Option.mem_def, Option.some.injEq] at hz
          simp only [List.head?_cons, Option.mem_def, Option.some.injEq] at hw
          subst hz
          subst hw
          exact (List.chain'_cons.mp h2c).1
      · simp
        omega

theorem vertPath_head (c r2 : Int) (n : Nat) (r : Int) :
    (vertPath c r2 n r).head? = some (r, c) := by
  cases n <;> rfl

theorem horizPath_head (r c2 : Int) (n : Nat) (c : Int) :
    (horizPath r c2 n c).head? = some (r, c) := by
  cases n <;> rfl

theorem openCell_empty (g : Grid) (hw : g.walls = []) (x : Pos) (h1 : 0 ≤ x.1)
    (h2 : x.1 < (g.rows : Int)) (h3 : 0 ≤ x.2) (h4 : x.2 < (g.cols : Int)) :
    openCell g x = true := by
  simp [openCell, inBounds, hw, h1, h2, h3, h4]

theorem mem_neighbors_iff (g : Grid) (a x : Pos) :
    x ∈ neighbors g a ↔
      (x ∈ [((a.1 - 1 : Int), a.2), (a.1 + 1, a.2), (a.1, a.2 - 1), (a.1, a.2 + 1)] ∧
        openCell g x = true) := by
  simp [neighbors, List.mem_filter]

theorem vertPath_spec (g : Grid) (hw : g.walls = []) (c r2 : Int)
    (hc : 0 ≤ c ∧ c < (g.cols : Int)) (hr2 : 0 ≤ r2 ∧ r2 < (g.rows : Int)) :
    ∀ (n : Nat) (r : Int), (r2 - r).natAbs = n → 0 ≤ r → r < (g.rows : Int) →
      isPath g (r, c) (r2, c) (vertPath c r2 n r) ∧ (vertPath c r2 n r).length = n + 1
  | 0, r => by
    intro hn hr1 hr2b
    have : r = r2 := by omega
    subst this
    exact ⟨isPath_single g (r, c), rfl⟩
  | n + 1, r => by
    intro hn hr1 hr2b
    have hne : r ≠ r2 := by omega
    have hstep : (r2 - stepToward r r2).natAbs = n := by
      simp only [stepToward]
      by_cases h : r < r2
      · rw [if_pos h]; omega
      · rw [if_neg h]; omega
    have hb1 : 0 ≤ stepToward r r2 := by
      simp only [stepToward]
      by_cases h : r < r2
      · rw [if_pos h]; omega
      · rw [if_neg h]; omega
    have hb2 : stepToward r r2 < (g.rows : Int) := by
      simp only [stepToward]
      by_cases h : r < r2
      · rw [if_pos h]; omega
      · rw [if_neg h]; omega
    obtain ⟨hip, hlen⟩ := vertPath_spec g hw c r2 hc hr2 n (stepToward r r2) hstep hb1 hb2
    have hnb : (stepToward r r2, c) ∈ neighbors g (r, c) := by
      rw [mem_neighbors_iff]
      constructor
      · simp only [stepToward]
        by_cases h : r < r2
        · rw [if_pos h]; simp
        · rw [if_neg h]; simp
      · exact openCell_empty g hw (stepToward r r2, c) hb1 hb2 hc.1 hc.2
    constructor
    · show isPath g (r, c) (r2, c) ((r, c) :: vertPath c r2 n (stepToward r r2))
      have := isPath_cons g (r, c) (stepToward r r2, c) (r2, c) _ hip hnb
      exact this
    · show (vertPath c r2 (n + 1) r).length = n + 2
      simp only [vertPath, List.length_cons, hlen]

theorem horizPath_spec (g : Grid) (hw : g.walls = []) (r c2 : Int)
    (hr : 0 ≤ r ∧ r < (g.rows : Int)) (hc2 : 0 ≤ c2 ∧ c2 < (g.cols : Int)) :
    ∀ (n : Nat) (c : Int), (c2 - c).natAbs = n → 0 ≤ c → c < (g.cols : Int) →
      isPath g (r, c) (r, c2) (horizPath r c2 n c) ∧ (horizPath r c2 n c).length = n + 1
  | 0, c => by
    intro hn hc1 hcb
    have : c = c2 := by omega
    subst this
    exact ⟨isPath_single g (r, c), rfl⟩
  | n + 1, c => by
    intro hn hc1 hcb
    have hstep : (c2 - stepToward c c2).natAbs = n := by
      simp only [stepToward]
      by_cases h : c < c2
      · rw [if_pos h]; omega
      · rw [if_neg h]; omega
    have hb1 : 0 ≤ stepToward c c2 := by
      simp only [stepToward]
      by_cases h : c < c2
      · rw [if_pos h]; omega
      · rw [if_neg h]; omega
    have hb2 : stepToward c c2 < (g.cols : Int) := by
      simp only [stepToward]
      by_cases h : c < c2
      · rw [if_pos h]; omega
      · rw [if_neg h]; omega
    obtain ⟨hip, hlen⟩ := horizPath_spec g hw r c2 hr hc2 n (stepToward c c2) hstep hb1 hb2
    have hnb : (r, stepToward c c2) ∈ neighbors g (r, c) := by
      rw [mem_neighbors_iff]
      constructor
      · simp only [stepToward]
        by_cases h : c < c2
        · rw [if_pos h]; simp
        · rw [if_neg h]; simp
      · exact openCell_empty g hw (r, stepToward c c2) hr.1 hr.2 hb1 hb2
    constructor
    · show isPath g (r, c) (r, c2) ((r, c) :: horizPath r c2 n (stepToward c c2))
      exact isPath_cons g (r, c) (r, stepToward c c2) (r, c2) _ hip hnb
    · show (horizPath r c2 (n + 1) c).length = n + 2
      simp only [horizPath, List.length_cons, hlen]

/-- On a wall-free grid there is a path of exactly Manhattan length between
any two in-bounds cells. -/
theorem manhattanPath_spec (g : Grid) (hw : g.walls = []) (s t : Pos)
    (hs : inBounds g s = true) (ht : inBounds g t = true) :
    isPath g s t (manhattanPath s t) ∧
      (manhattanPath s t).length = manhattan s t + 1 := by
  simp only [inBounds, Bool.and_eq_true, decide_eq_true_eq] at hs ht
  obtain ⟨⟨⟨hs1, hs2⟩, hs3⟩, hs4⟩ := hs
  obtain ⟨⟨⟨ht1, ht2⟩, ht3⟩, ht4⟩ := ht
  obtain ⟨hv, hvl⟩ := vertPath_spec g hw s.2 t.1 ⟨hs3, hs4⟩ ⟨ht1, ht2⟩
    (t.1 - s.1).natAbs s.1 rfl hs1 hs2
  obtain ⟨hh, hhl⟩ := horizPath_spec g hw t.1 t.2 ⟨ht1, ht2⟩ ⟨ht3, ht4⟩
    (t.2 - s.2).natAbs s.2 rfl hs3 hs4
  have hs' : s = (s.1, s.2) := rfl
  have ht' : t = (t.1, t.2) := rfl
  rw [← hs'] at hv
  rw [← ht'] at hh
  obtain ⟨hp, hl⟩ := isPath_trans g s (t.1, s.2) t _ _ hv hh
  constructor
  · exact hp
  · show (vertPath s.2 t.1 (t.1 - s.1).natAbs s.1 ++
      (horizPath t.1 t.2 (t.2 - s.2).natAbs s.2).tail).length = manhattan s t + 1
    rw [manhattan]
    omega

/-- C1: on every grid, for open distinct start and goal joined by some path of
open 4-connected cells, solve_bfs finds the goal, and the path reconstructed
from its parent map is a valid path of minimum length; in particular on a
wall-free grid its edge count (length minus one) equals the Manhattan
distance. -/
theorem c1_bfs_shortest (g : Grid) (s t : Pos) (hs : openCell g s = true)
    (ht : openCell g t = true) (hst : s ≠ t) (hreach : ∃ p, isPath g s t p) :
    ∃ par path, (solveBfs g s t).2 = .found par ∧ buildPath par s t = some path ∧
      isPath g s t path ∧ (∀ q, isPath g s t q → path.length ≤ q.length) ∧
      (g.walls = [] → path.length = manhattan s t + 1) := by
  obtain ⟨par, hfound, path, hbp, hip, hmin⟩ := solveBfs_found g s t hreach
  refine ⟨par, path, hfound, hbp, hip, hmin, ?_⟩
  intro hw
  have hsB : inBounds g s = true := by
    simp only [openCell, Bool.and_eq_true] at hs
    exact hs.1
  have htB : inBounds g t = true := by
    simp only [openCell, Bool.and_eq_true] at ht
    exact ht.1
  obtain ⟨hmp, hml⟩ := manhattanPath_spec g hw s t hsB htB
  have h1 := hmin _ hmp
  have h2 : manhattan s t + 1 ≤ path.length := by
    obtain ⟨ph, pl, pc⟩ := hip
    exact manhattan_le_path g t path s ph pl pc
  omega

/-- C1, witness: the theorem applied to the 2x2 wall-free grid from (0,0) to
(1,1). -/
theorem c1_bfs_witness :
    ∃ par path, (solveBfs ⟨2, 2, []⟩ (0, 0) (1, 1)).2 = .found par ∧
      buildPath par (0, 0) (1, 1) = some path ∧
      isPath ⟨2, 2, []⟩ (0, 0) (1, 1) path ∧
      (∀ q, isPath ⟨2, 2, []⟩ (0, 0) (1, 1) q → path.length ≤ q.length) ∧
      ((⟨2, 2, []⟩ : Grid).walls = [] → path.length = manhattan (0, 0) (1, 1) + 1) :=
  c1_bfs_shortest ⟨2, 2, []⟩ (0, 0) (1, 1) (by decide) (by decide) (by decide)
    ⟨[(0, 0), (0, 1), (1, 1)], rfl, rfl, by
      rw [List.chain'_cons, List.chain'_cons]
      exact ⟨by decide, by decide, List.chain'_singleton _⟩⟩

/-! ### DFS, from MazeSolver.solve_dfs in src/AI_CLASSWORK/AI3.py -/

/-- The neighbor loop of solve_dfs: as for BFS, but the stack is a Python list
whose pop() takes the most recently appended element; the stack top is
modelled at the list head, so pushing conses. -/
def dfsExpand (g : Grid) (cur : Pos) (st : SearchSt) : SearchSt :=
  (neighbors g cur).foldl
    (fun st n =>
      if st.visited.contains n then st
      else ⟨n :: st.queue, n :: st.visited, (n, cur) :: st.parent⟩)
    st

/-- The while loop of solve_dfs. -/
def dfsAux (g : Grid) (goal : Pos) : Nat → SearchSt → List Pos → List Pos × SearchOut
  | 0, _, tr => (tr.reverse, .fuelOut)
  | fuel + 1, st, tr =>
    match st.queue with
    | [] => (tr.reverse, .noPath)
    | cur :: rest =>
      if cur = goal then (tr.reverse, .found st.parent)
      else dfsAux g goal fuel (dfsExpand g cur ⟨rest, st.visited, st.parent⟩) (cur :: tr)

def solveDfs (g : Grid) (s t : Pos) : List Pos × SearchOut :=
  dfsAux g t (g.rows * g.cols + 2) ⟨[s], [s], []⟩ []

/-- Closed form of one DFS expansion. -/
theorem dfsExpand_eq (g : Grid) (cur : Pos) :
    ∀ (ns : List Pos), ns.Nodup → ∀ (q vis : List Pos) (par : List (Pos × Pos)),
      ns.foldl (fun st n =>
        if st.visited.contains n then st
        else ⟨n :: st.queue, n :: st.visited, (n, cur) :: st.parent⟩)
        (⟨q, vis, par⟩ : SearchSt) =
      ⟨(ns.filter (fun n => ¬ vis.contains n)).reverse ++ q,
        (ns.filter (fun n => ¬ vis.contains n)).reverse ++ vis,
        ((ns.filter (fun n => ¬ vis.contains n)).map (fun n => (n, cur))).reverse ++ par⟩
  | [], _ => by intro q vis par; simp
  | n :: rest, hnd => by
    intro q vis par
    have hn : n ∉ rest := (List.nodup_cons.mp hnd).1
    have hrest : rest.Nodup := (List.nodup_cons.mp hnd).2
    simp only [List.foldl_cons]
    by_cases hv : vis.contains n
    · rw [if_pos hv]
      rw [dfsExpand_eq g cur rest hrest q vis par]
      have : rest.filter (fun m => ¬ vis.contains m) =
          (n :: rest).filter (fun m => ¬ vis.contains m) := by
        simp only [List.filter_cons]
        rw [if_neg (by simpa using hv)]
      rw [← this]
    · rw [if_neg hv]
      rw [dfsExpand_eq g cur rest hrest (n :: q) (n :: vis) ((n, cur) :: par)]
      have hfe : rest.filter (fun m => ¬ (n :: vis).contains m) =
          rest.filter (fun m => ¬ vis.contains m) := by
        apply List.filter_congr
        intro m hm
        have : m ≠ n := fun he => hn (he ▸ hm)
        simp [List.contains_cons, this]
      have hff : (n :: rest).filter (fun m => ¬ vis.contains m) =
          n :: rest.filter (fun m => ¬ vis.contains m) := by
        simp only [List.filter_cons]
        rw [if_pos (by simpa using hv)]
      rw [hfe, hff]
      simp

/-- The DFS loop invariant: like the BFS one but with a ghost discovery rank
in place of the exact distance labelling. -/
structure DfsInv (g : Grid) (s goal : Pos) (st : SearchSt) (rk : Pos → Nat) (R : Nat) : Prop where
  nodupV : st.visited.Nodup
  qSubV : ∀ x ∈ st.queue, x ∈ st.visited
  sV : s ∈ st.visited
  rkLe : ∀ x ∈ st.visited, rk x ≤ R
  parChain : ∀ x ∈ st.visited, x ≠ s → ∃ c, List.lookup x st.parent = some c ∧
      c ∈ st.visited ∧ x ∈ neighbors g c ∧ rk c < rk x
  parKeys : (st.parent.map Prod.fst).Nodup
  parKeysV : ∀ pr ∈ st.parent, pr.1 ∈ st.visited ∧ pr.1 ≠ s
  processed : ∀ v ∈ st.visited, v ∉ st.queue → ∀ n ∈ neighbors g v, n ∈ st.visited
  goalQ : goal ∈ st.visited → goal ∈ st.queue

theorem dfsInv_init (g : Grid) (s goal : Pos) :
    DfsInv g s goal ⟨[s], [s], []⟩ (fun _ => 0) 0 := by
  refine ⟨List.nodup_singleton s, fun x hx => hx, List.mem_singleton_self s,
    ?_, ?_, List.nodup_nil, ?_, ?_, fun h => h⟩
  · intro x _; exact le_refl 0
  · intro x hx hxs
    rw [List.mem_singleton] at hx
    exact absurd hx hxs
  · intro pr hpr
    exact absurd hpr (List.not_mem_nil pr)
  · intro v hv hvq
    rw [List.mem_singleton] at hv
    exact absurd (hv ▸ List.mem_singleton_self s : v ∈ [s]) hvq

/-- One DFS iteration preserves the invariant: fresh neighbors take rank R+1. -/
theorem dfsInv_step (g : Grid) (s goal : Pos) (cur : Pos) (rest vis : List Pos)
    (par : List (Pos × Pos)) (rk : Pos → Nat) (R : Nat)
    (inv : DfsInv g s goal ⟨cur :: rest, vis, par⟩ rk R) (hcg : cur ≠ goal) :
    ∃ rk2 R2, DfsInv g s goal (dfsExpand g cur ⟨rest, vis, par⟩) rk2 R2 := by
  set F := (neighbors g cur).filter (fun n => ¬ vis.contains n) with hF
  have hexp : dfsExpand g cur ⟨rest, vis, par⟩ =
      ⟨F.reverse ++ rest, F.reverse ++ vis, (F.map fun n => (n, cur)).reverse ++ par⟩ :=
    dfsExpand_eq g cur (neighbors g cur) (neighbors_nodup g cur) rest vis par
  have hFmem : ∀ x, x ∈ F ↔ x ∈ neighbors g cur ∧ x ∉ vis := fun x =>
    mem_fresh_iff vis (neighbors g cur) x
  have hFnd : F.Nodup := List.Nodup.filter _ (neighbors_nodup g cur)
  have hcurV : cur ∈ vis := inv.qSubV cur (List.mem_cons_self cur rest)
  have hcurF : cur ∉ F := fun h => ((hFmem cur).mp h).2 hcurV
  refine ⟨fun x => if x ∈ F then R + 1 else rk x, R + 1, ?_⟩
  rw [hexp]
  have hrv : ∀ x ∈ vis, (if x ∈ F then R + 1 else rk x) = rk x := by
    intro x hx
    rw [if_neg (fun h => ((hFmem x).mp h).2 hx)]
  have hmemV : ∀ x, x ∈ F.reverse ++ vis ↔ x ∈ F ∨ x ∈ vis := by
    intro x
    rw [List.mem_append, List.mem_reverse]
  have hkeysNew : ((F.map fun n => (n, cur)).reverse).map Prod.fst = F.reverse := by
    rw [← List.map_reverse, List.map_map]
    have he : (Prod.fst ∘ fun n => (n, cur)) = fun (n : Pos) => n := rfl
    rw [he, List.map_id']
  refine ⟨?_, ?_, ?_, ?_, ?_, ?_, ?_, ?_, ?_⟩
  · rw [List.nodup_append]
    refine ⟨List.nodup_reverse.mpr hFnd, inv.nodupV, ?_⟩
    intro x hx hxv
    exact ((hFmem x).mp (List.mem_reverse.mp hx)).2 hxv
  · intro x hx
    rw [List.mem_append] at hx
    rw [hmemV]
    rcases hx with hx | hx
    · exact Or.inl (List.mem_reverse.mp hx)
    · exact Or.inr (inv.qSubV x (List.mem_cons_of_mem cur hx))
  · rw [hmemV]; exact Or.inr inv.sV
  · intro x hx
    rw [hmemV] at hx
    rcases hx with hx | hx
    · rw [if_pos hx]
    · rw [hrv x hx]
      exact le_trans (inv.rkLe x hx) (Nat.le_succ R)
  · intro x hx hxs
    rw [hmemV] at hx
    rcases hx with hx | hx
    · refine ⟨cur, ?_, ?_, ((hFmem x).mp hx).1, ?_⟩
      · apply lookup_append_left
        rw [← List.map_reverse]
        exact lookup_map_const cur F.reverse x (List.mem_reverse.mpr hx)
      · rw [hmemV]; exact Or.inr hcurV
      · rw [if_pos hx, if_neg hcurF]
        exact Nat.lt_succ_of_le (inv.rkLe cur hcurV)
    · obtain ⟨c, hlk, hcv, hxn, hrk⟩ := inv.parChain x hx hxs
      refine ⟨c, ?_, ?_, hxn, ?_⟩
      · rw [lookup_append_right]
        · exact hlk
        · rw [hkeysNew, List.mem_reverse]
          exact fun h => ((hFmem x).mp h).2 hx
      · rw [hmemV]; exact Or.inr hcv
      · rw [hrv x hx, hrv c hcv]
        exact hrk
  · rw [List.map_append, List.nodup_append, hkeysNew]
    refine ⟨List.nodup_reverse.mpr hFnd, inv.parKeys, ?_⟩
    intro x hx hxk
    have hxF := List.mem_reverse.mp hx
    obtain ⟨pr, hpr, hpre⟩ := List.mem_map.mp hxk
    have := (inv.parKeysV pr hpr).1
    rw [hpre] at this
    exact ((hFmem x).mp hxF).2 this
  · intro pr hpr
    rw [List.mem_append] at hpr
    rcases hpr with hpr | hpr
    · rw [List.mem_reverse] at hpr
      obtain ⟨n, hn, hne⟩ := List.mem_map.mp hpr
      have hnF : pr.1 = n := by rw [← hne]
      constructor
      · rw [hmemV, hnF]; exact Or.inl hn
      · rw [hnF]
        exact fun he => ((hFmem n).mp hn).2 (he ▸ inv.sV)
    · obtain ⟨h1, h2⟩ := inv.parKeysV pr hpr
      exact ⟨by rw [hmemV]; exact Or.inr h1, h2⟩
  · intro v hv hvq n hn
    rw [hmemV] at hv
    rw [hmemV]
    rcases hv with hv | hv
    · exact absurd (List.mem_append_left rest (List.mem_reverse.mpr hv)) hvq
    · by_cases hvc : v = cur
      · subst hvc
        by_cases hnv : n ∈ vis
        · exact Or.inr hnv
        · exact Or.inl ((hFmem n).mpr ⟨hn, hnv⟩)
      · have hvrest : v ∉ rest := fun h => hvq (List.mem_append_right F.reverse h)
        have hvold : v ∉ cur :: rest := by
          intro h
          rcases List.mem_cons.mp h with h | h
          · exact hvc h
          · exact hvrest h
        exact Or.inr (inv.processed v hv hvold n hn)
  · intro hgv
    rw [hmemV] at hgv
    rcases hgv with hgv | hgv
    · exact List.mem_append_left rest (List.mem_reverse.mpr hgv)
    · have := inv.goalQ hgv
      rcases List.mem_cons.mp this with h | h
      · exact absurd h.symm hcg
      · exact List.mem_append_right F.reverse h

theorem dfsAux_run (g : Grid) (s goal : Pos) :
    ∀ (fuel : Nat) (st : SearchSt) (rk : Pos → Nat) (R : Nat) (tr : List Pos),
      DfsInv g s goal st rk R →
      (∀ p, (dfsAux g goal fuel st tr).2 = .found p →
        ∃ st2 rk2 R2, DfsInv g s goal st2 rk2 R2 ∧ goal ∈ st2.visited ∧ st2.parent = p) ∧
      ((dfsAux g goal fuel st tr).2 = .noPath →
        ∃ st2 rk2 R2, DfsInv g s goal st2 rk2 R2 ∧ st2.queue = [])
  | 0, st, rk, R, tr => by
    intro _
    constructor
    · intro p h; simp [dfsAux] at h
    · intro h; simp [dfsAux] at h
  | fuel + 1, st, rk, R, tr => by
    intro inv
    obtain ⟨q, v, par⟩ := st
    match q with
    | [] =>
      constructor
      · intro p h; simp [dfsAux] at h
      · intro _; exact ⟨⟨[], v, par⟩, rk, R, inv, rfl⟩
    | cur :: rest =>
      by_cases hcg : cur = goal
      · subst hcg
        constructor
        · intro p h
          simp [dfsAux] at h
          exact ⟨⟨cur :: rest, v, par⟩, rk, R, inv,
            inv.qSubV cur (List.mem_cons_self cur rest), h⟩
        · intro h; simp [dfsAux] at h
      · obtain ⟨rk2, R2, inv2⟩ := dfsInv_step g s goal cur rest v par rk R inv hcg
        have hred : dfsAux g goal (fuel + 1) ⟨cur :: rest, v, par⟩ tr =
            dfsAux g goal fuel (dfsExpand g cur ⟨rest, v, par⟩) (cur :: tr) := by
          simp [dfsAux, hcg]
        rw [hred]
        exact dfsAux_run g s goal fuel _ rk2 R2 (cur :: tr) inv2

theorem dfsInv_vis_inB (g : Grid) (s goal : Pos) (st : SearchSt) (rk : Pos → Nat)
    (R : Nat) (inv : DfsInv g s goal st rk R) :
    ∀ x ∈ st.visited, x = s ∨ inBounds g x = true := by
  intro x hx
  by_cases hxs : x = s
  · exact Or.inl hxs
  · obtain ⟨c, _, _, hxn, _⟩ := inv.parChain x hx hxs
    simp only [neighbors, List.mem_filter] at hxn
    have := hxn.2
    simp only [openCell, Bool.and_eq_true] at this
    exact Or.inr this.1

theorem dfsAux_no_fuelOut (g : Grid) (s goal : Pos) :
    ∀ (fuel : Nat) (st : SearchSt) (rk : Pos → Nat) (R : Nat) (tr : List Pos),
      DfsInv g s goal st rk R →
      st.queue.length + (g.rows * g.cols + 1 - st.visited.length) < fuel →
      (dfsAux g goal fuel st tr).2 ≠ .fuelOut
  | 0, st, rk, R, tr => by
    intro _ hm
    omega
  | fuel + 1, st, rk, R, tr => by
    intro inv hm
    obtain ⟨q, v, par⟩ := st
    match q with
    | [] =>
      intro h; simp [dfsAux] at h
    | cur :: rest =>
      by_cases hcg : cur = goal
      · subst hcg
        intro h; simp [dfsAux] at h
      · obtain ⟨rk2, R2, inv2⟩ := dfsInv_step g s goal cur rest v par rk R inv hcg
        have hred : dfsAux g goal (fuel + 1) ⟨cur :: rest, v, par⟩ tr =
            dfsAux g goal fuel (dfsExpand g cur ⟨rest, v, par⟩) (cur :: tr) := by
          simp [dfsAux, hcg]
        rw [hred]
        have hexp : dfsExpand g cur ⟨rest, v, par⟩ =
            ⟨((neighbors g cur).filter (fun n => ¬ v.contains n)).reverse ++ rest,
              ((neighbors g cur).filter (fun n => ¬ v.contains n)).reverse ++ v,
              (((neighbors g cur).filter (fun n => ¬ v.contains n)).map
                (fun n => (n, cur))).reverse ++ par⟩ :=
          dfsExpand_eq g cur (neighbors g cur) (neighbors_nodup g cur) rest v par
        apply dfsAux_no_fuelOut g s goal fuel _ rk2 R2 (cur :: tr) inv2
        have hlen2 : (dfsExpand g cur ⟨rest, v, par⟩).visited.length ≤
            g.rows * g.cols + 1 :=
          bounded_pos_length g s _ inv2.nodupV (dfsInv_vis_inB g s goal _ rk2 R2 inv2)
        rw [hexp] at hlen2 ⊢
        simp only [List.length_append, List.length_cons, List.length_reverse] at hlen2 hm ⊢
        omega

theorem dfs_cut (g : Grid) (s goal : Pos) (st : SearchSt) (rk : Pos → Nat) (R : Nat)
    (inv : DfsInv g s goal st rk R) (hq : st.queue = []) :
    ∀ (n : Nat) (p : List Pos) (x : Pos), p.length ≤ n → isPath g s x p →
      x ∈ st.visited
  | 0, p, x => by
    intro hl hp
    obtain ⟨h1, _, _⟩ := hp
    match p with
    | [] => simp at h1
    | a :: r => simp at hl
  | n + 1, p, x => by
    intro hl hp
    by_cases hxs : x = s
    · exact hxs ▸ inv.sV
    · obtain ⟨p', y, hpe, hp', hxy, hplen⟩ :=
        isPath_decomp g s x p hp (isPath_ne_length g s x p (fun h => hxs h.symm) hp)
      have hyv : y ∈ st.visited :=
        dfs_cut g s goal st rk R inv hq n p' y (by omega) hp'
      have hynq : y ∉ st.queue := by rw [hq]; exact List.not_mem_nil y
      exact inv.processed y hyv hynq x hxy

/-- Following DFS parent links yields a valid (not necessarily shortest)
path. -/
theorem dfs_build (g : Grid) (s goal : Pos) (st : SearchSt) (rk : Pos → Nat) (R : Nat)
    (inv : DfsInv g s goal st rk R) :
    ∀ (n : Nat) (x : Pos), rk x ≤ n → x ∈ st.visited →
      ∃ p, (∀ fuel, p.length ≤ fuel → buildPathAux st.parent s fuel x = some p) ∧
        isPath g s x p ∧ p.Nodup ∧ (∀ z ∈ p, z ∈ st.visited ∧ rk z ≤ rk x) := by
  intro n
  induction n with
  | zero =>
    intro x hrx hxv
    by_cases hxs : x = s
    · subst hxs
      refine ⟨[x], ?_, isPath_single g x, List.nodup_singleton x, ?_⟩
      · intro fuel hf
        match fuel, hf with
        | fuel + 1, _ => simp [buildPathAux]
      · intro z hz
        rw [List.mem_singleton] at hz
        subst hz
        exact ⟨hxv, le_refl _⟩
    · obtain ⟨c, _, _, _, hrk⟩ := inv.parChain x hxv hxs
      omega
  | succ n ih =>
    intro x hrx hxv
    by_cases hxs : x = s
    · subst hxs
      refine ⟨[x], ?_, isPath_single g x, List.nodup_singleton x, ?_⟩
      · intro fuel hf
        match fuel, hf with
        | fuel + 1, _ => simp [buildPathAux]
      · intro z hz
        rw [List.mem_singleton] at hz
        subst hz
        exact ⟨hxv, le_refl _⟩
    · obtain ⟨c, hlk, hcv, hxn, hrk⟩ := inv.parChain x hxv hxs
      obtain ⟨pc, hbc, hpc, hndc, hmemc⟩ := ih c (by omega) hcv
      refine ⟨pc ++ [x], ?_, isPath_snoc g s c x pc hpc hxn, ?_, ?_⟩
      · intro fuel hf
        simp only [List.length_append, List.length_singleton] at hf
        match fuel, hf with
        | fuel + 1, hf =>
          simp only [buildPathAux, if_neg hxs, hlk]
          rw [hbc fuel (by omega)]
          rfl
      · rw [List.nodup_append]
        refine ⟨hndc, List.nodup_singleton x, ?_⟩
        intro z hz hzx
        rw [List.mem_singleton] at hzx
        subst hzx
        have := (hmemc z hz).2
        omega
      · intro z hz
        rw [List.mem_append] at hz
        rcases hz with hz | hz
        · obtain ⟨h1, h2⟩ := hmemc z hz
          exact ⟨h1, by omega⟩
        · rw [List.mem_singleton] at hz
          subst hz
          exact ⟨hxv, le_refl _⟩

theorem dfsInv_vis_le_par (g : Grid) (s goal : Pos) (st : SearchSt) (rk : Pos → Nat)
    (R : Nat) (inv : DfsInv g s goal st rk R) :
    st.visited.length ≤ st.parent.length + 1 := by
  have he : (st.visited.erase s).length + 1 = st.visited.length := by
    rw [List.length_erase_of_mem inv.sV]
    have : st.visited.length ≠ 0 := by
      intro h
      rw [List.length_eq_zero] at h
      have hs := inv.sV
      rw [h] at hs
      exact absurd hs (List.not_mem_nil s)
    omega
  have hsub : ∀ x ∈ st.visited.erase s, x ∈ st.parent.map Prod.fst := by
    intro x hx
    have hxv := List.mem_of_mem_erase hx
    have hxs : x ≠ s := by
      intro he2
      subst he2
      exact (List.Nodup.not_mem_erase inv.nodupV) hx
    obtain ⟨c, hlk, _, _, _⟩ := inv.parChain x hxv hxs
    exact lookup_isSome_mem_keys st.parent x c hlk
  have := nodup_subset_length (st.visited.erase s) (st.parent.map Prod.fst)
    (inv.nodupV.erase s) hsub
  rw [List.length_map] at this
  omega

/-- Main DFS run theorem: a reachable goal is found and the parent map
reconstructs a valid path (no optimality guarantee). -/
theorem solveDfs_found (g : Grid) (s t : Pos) (hreach : ∃ p, isPath g s t p) :
    ∃ par, (solveDfs g s t).2 = .found par ∧
      ∃ path, buildPath par s t = some path ∧ isPath g s t path := by
  have inv0 := dfsInv_init g s t
  have hrun := dfsAux_run g s t (g.rows * g.cols + 2) ⟨[s], [s], []⟩ (fun _ => 0) 0 [] inv0
  have hfuel := dfsAux_no_fuelOut g s t (g.rows * g.cols + 2) ⟨[s], [s], []⟩
    (fun _ => 0) 0 [] inv0 (by simp only [List.length_singleton]; omega)
  rcases hout : (solveDfs g s t).2 with par | _ | _
  · obtain ⟨st2, rk2, R2, inv2, hgv, hpar⟩ := hrun.1 par hout
    subst hpar
    obtain ⟨p, hb, hp, hnd, hmem⟩ :=
      dfs_build g s t st2 rk2 R2 inv2 (rk2 t) t (le_refl _) hgv
    have hfl : p.length ≤ st2.parent.length + 1 := by
      have h1 : p.length ≤ st2.visited.length :=
        nodup_subset_length p st2.visited hnd (fun z hz => (hmem z hz).1)
      have h2 := dfsInv_vis_le_par g s t st2 rk2 R2 inv2
      omega
    exact ⟨st2.parent, rfl, p, hb (st2.parent.length + 1) hfl, hp⟩
  · obtain ⟨st2, rk2, R2, inv2, hq⟩ := hrun.2 hout
    obtain ⟨p, hp⟩ := hreach
    have htv : t ∈ st2.visited :=
      dfs_cut g s t st2 rk2 R2 inv2 hq p.length p t (le_refl _) hp
    have := inv2.goalQ htv
    rw [hq] at this
    exact absurd this (List.not_mem_nil t)
  · exact absurd hout hfuel

/-! ### UCS, from MazeSolver.solve_ucs in src/AI_CLASSWORK/AI3.py -/

/-- Strict comparison of heap entries (cost, (row, col)) exactly as Python
compares the tuples heapq stores: by cost, then row, then column. -/
def eLT (a b : Nat × Pos) : Bool :=
  a.1 < b.1 || (a.1 == b.1 && (a.2.1 < b.2.1 || (a.2.1 == b.2.1 && a.2.2 < b.2.2)))

/-- Popping the heap minimum: heapq.heappop returns the least tuple; the fold
keeps the first of equal minima and erase removes that occurrence. -/
def ucsPopMin (h : List (Nat × Pos)) : Option ((Nat × Pos) × List (Nat × Pos)) :=
  match h with
  | [] => none
  | e :: rest =>
    let m := rest.foldl (fun acc x => if eLT x acc then x else acc) e
    some (m, h.erase m)

/-- The neighbor loop of solve_ucs: an unvisited neighbor is pushed with cost
cost+1 and given a parent only if it has none yet. -/
def ucsExpand (cur : Pos) (cost : Nat) (visited2 : List Pos) (ns : List Pos)
    (heap : List (Nat × Pos)) (parent : List (Pos × Pos)) :
    List (Nat × Pos) × List (Pos × Pos) :=
  ns.foldl
    (fun hp n =>
      if visited2.contains n then hp
      else (hp.1 ++ [(cost + 1, n)],
        if (List.lookup n hp.2).isSome then hp.2 else (n, cur) :: hp.2))
    (heap, parent)

/-- The while loop of solve_ucs: pop the cheapest entry; the goal wins at its
pop; a pop of an already-expanded cell is discarded; otherwise the cell is
expanded.  The trace records the cells actually expanded. -/
def ucsAux (g : Grid) (goal : Pos) :
    Nat → List (Nat × Pos) → List Pos → List (Pos × Pos) → List Pos →
      List Pos × SearchOut
  | 0, _, _, _, tr => (tr.reverse, .fuelOut)
  | fuel + 1, heap, visited, parent, tr =>
    match ucsPopMin heap with
    | none => (tr.reverse, .noPath)
    | some ((cost, cur), hrest) =>
      if cur = goal then (tr.reverse, .found parent)
      else if visited.contains cur then ucsAux g goal fuel hrest visited parent tr
      else
        ucsAux g goal fuel
          (ucsExpand cur cost (cur :: visited) (neighbors g cur) hrest parent).1
          (cur :: visited)
          (ucsExpand cur cost (cur :: visited) (neighbors g cur) hrest parent).2
          (cur :: tr)

def solveUcs (g : Grid) (s t : Pos) : List Pos × SearchOut :=
  ucsAux g t (5 * (g.rows * g.cols) + 7) [(0, s)] [] [] []

/-- Closed form of the heap after the UCS expansion fold: the unvisited
neighbors are appended with cost cost+1. -/
theorem ucsExpand_heap (cur : Pos) (cost : Nat) (visited2 : List Pos) :
    ∀ (ns : List Pos) (heap : List (Nat × Pos)) (parent : List (Pos × Pos)),
      (ucsExpand cur cost visited2 ns heap parent).1 =
        heap ++ (ns.filter (fun n => ¬ visited2.contains n)).map
          (fun n => (cost + 1, n)) := by
  intro ns
  induction ns with
  | nil => intro heap parent; simp [ucsExpand]
  | cons n rest ih =>
    intro heap parent
    simp only [ucsExpand, List.foldl_cons]
    by_cases hv : visited2.contains n
    · rw [if_pos hv]
      have := ih heap parent
      simp only [ucsExpand] at this
      rw [this]
      simp only [List.filter_cons]
      rw [if_neg (by simpa using hv)]
    · rw [if_neg hv]
      have := ih (heap ++ [(cost + 1, n)])
        (if (List.lookup n parent).isSome then parent else (n, cur) :: parent)
      simp only [ucsExpand] at this
      rw [this]
      simp only [List.filter_cons]
      rw [if_pos (by simpa using hv)]
      simp

/-- The UCS expansion changes a parent binding only by giving a previously
unbound cell the parent cur: solve_ucs records a predecessor only on first
discovery and never overwrites one. -/
theorem ucsExpand_parent_cases (cur : Pos) (cost : Nat) (visited2 : List Pos) :
    ∀ (ns : List Pos) (heap : List (Nat × Pos)) (parent : List (Pos × Pos)) (x : Pos),
      List.lookup x (ucsExpand cur cost visited2 ns heap parent).2 =
          List.lookup x parent ∨
        (List.lookup x parent = none ∧
          List.lookup x (ucsExpand cur cost visited2 ns heap parent).2 = some cur) := by
  intro ns
  induction ns with
  | nil => intro heap parent x; exact Or.inl rfl
  | cons n rest ih =>
    intro heap parent x
    simp only [ucsExpand, List.foldl_cons]
    by_cases hv : visited2.contains n
    · rw [if_pos hv]
      exact ih heap parent x
    · rw [if_neg hv]
      by_cases hk : (List.lookup n parent).isSome
      · rw [if_pos hk]
        exact ih (heap ++ [(cost + 1, n)]) parent x
      · rw [if_neg hk]
        have hrec := ih (heap ++ [(cost + 1, n)]) ((n, cur) :: parent) x
        by_cases hx : x = n
        · subst hx
          have hnone : List.lookup x parent = none := by
            rcases h : List.lookup x parent with _ | v
            · rfl
            · rw [h] at hk; simp at hk
          have hcons : List.lookup x ((x, cur) :: parent) = some cur := by
            simp [List.lookup_cons_self]
          rcases hrec with h1 | h1
          · rw [hcons] at h1
            exact Or.inr ⟨hnone, h1⟩
          · exact Or.inr ⟨hnone, h1.2⟩
        · have hcons : List.lookup x ((n, cur) :: parent) = List.lookup x parent := by
            rw [List.lookup_cons]
            rw [beq_false_of_ne hx]
          rcases hrec with h1 | h1
          · rw [hcons] at h1
            exact Or.inl h1
          · rw [hcons] at h1
            exact Or.inr h1

theorem foldl_min_mem :
    ∀ (rest : List (Nat × Pos)) (e : Nat × Pos),
      rest.foldl (fun acc x => if eLT x acc then x else acc) e ∈ e :: rest
  | [], e => List.mem_singleton_self e
  | x :: xs, e => by
    simp only [List.foldl_cons]
    have := foldl_min_mem xs (if eLT x e then x else e)
    rcases List.mem_cons.mp this with h | h
    · rw [h]
      by_cases he : eLT x e
      · rw [if_pos he]
        exact List.mem_cons_of_mem e (List.mem_cons_self x xs)
      · rw [if_neg he]
        exact List.mem_cons_self e _
    · exact List.mem_cons_of_mem e (List.mem_cons_of_mem x h)

theorem ucsPopMin_spec (h : List (Nat × Pos)) (e : Nat × Pos) (rest : List (Nat × Pos))
    (hp : ucsPopMin h = some (e, rest)) :
    e ∈ h ∧ rest = h.erase e := by
  match h with
  | [] => simp [ucsPopMin] at hp
  | a :: as =>
    simp only [ucsPopMin, Option.some.injEq, Prod.mk.injEq] at hp
    obtain ⟨h1, h2⟩ := hp
    constructor
    · rw [← h1]
      exact foldl_min_mem as a
    · rw [← h1, ← h2]

/-- The UCS loop invariant: visited cells and heap entries are reachable and
in bounds, and the expansion trace has no duplicates. -/
structure UcsInv (g : Grid) (s : Pos) (heap : List (Nat × Pos)) (visited : List Pos)
    (tr : List Pos) : Prop where
  nodupV : visited.Nodup
  heapReach : ∀ e ∈ heap, ∃ p, isPath g s e.2 p
  heapB : ∀ e ∈ heap, e.2 = s ∨ inBounds g e.2 = true
  visB : ∀ x ∈ visited, x = s ∨ inBounds g x = true
  trNodup : tr.Nodup
  trSubV : ∀ x ∈ tr, x ∈ visited

theorem ucsInv_init (g : Grid) (s : Pos) : UcsInv g s [(0, s)] [] [] := by
  refine ⟨List.nodup_nil, ?_, ?_, ?_, List.nodup_nil, ?_⟩
  · intro e he
    rw [List.mem_singleton] at he
    subst he
    exact ⟨[s], isPath_single g s⟩
  · intro e he
    rw [List.mem_singleton] at he
    subst he
    exact Or.inl rfl
  · intro x hx; exact absurd hx (List.not_mem_nil x)
  · intro x hx; exact absurd hx (List.not_mem_nil x)

theorem neighbors_len_le (g : Grid) (p : Pos) : (neighbors g p).length ≤ 4 := by
  have := List.length_filter_le (fun q => openCell g q)
    [(p.1 - 1, p.2), (p.1 + 1, p.2), (p.1, p.2 - 1), (p.1, p.2 + 1)]
  simpa [neighbors] using this

/-- UCS run facts: a found result implies the goal is reachable, and the
returned expansion trace never repeats a cell. -/
theorem ucsAux_run (g : Grid) (s goal : Pos) :
    ∀ (fuel : Nat) (heap : List (Nat × Pos)) (visited : List Pos)
      (parent : List (Pos × Pos)) (tr : List Pos), UcsInv g s heap visited tr →
      (∀ p, (ucsAux g goal fuel heap visited parent tr).2 = .found p →
        ∃ q, isPath g s goal q) ∧
      (ucsAux g goal fuel heap visited parent tr).1.Nodup
  | 0, heap, visited, parent, tr => by
    intro inv
    constructor
    · intro p h; simp [ucsAux] at h
    · simp only [ucsAux]
      exact List.nodup_reverse.mpr inv.trNodup
  | fuel + 1, heap, visited, parent, tr => by
    intro inv
    rcases hpop : ucsPopMin heap with _ | ⟨⟨cost, cur⟩, hrest⟩
    · constructor
      · intro p h
        simp only [ucsAux, hpop] at h
        simp at h
      · simp only [ucsAux, hpop]
        exact List.nodup_reverse.mpr inv.trNodup
    · obtain ⟨hmem, hrest_eq⟩ := ucsPopMin_spec heap (cost, cur) hrest hpop
      by_cases hcg : cur = goal
      · subst hcg
        constructor
        · intro p _
          exact inv.heapReach (cost, cur) hmem
        · simp only [ucsAux, hpop, if_pos rfl]
          exact List.nodup_reverse.mpr inv.trNodup
      · have hsub : ∀ e ∈ hrest, e ∈ heap := by
          intro e he
          rw [hrest_eq] at he
          exact List.mem_of_mem_erase he
        by_cases hcv : visited.contains cur = true
        · have inv2 : UcsInv g s hrest visited tr :=
            ⟨inv.nodupV, fun e he => inv.heapReach e (hsub e he),
              fun e he => inv.heapB e (hsub e he), inv.visB, inv.trNodup, inv.trSubV⟩
          have hred : ucsAux g goal (fuel + 1) heap visited parent tr =
              ucsAux g goal fuel hrest visited parent tr := by
            simp only [ucsAux, hpop]
            rw [if_neg hcg, if_pos hcv]
          rw [hred]
          exact ucsAux_run g s goal fuel hrest visited parent tr inv2
        · have hcv2 : cur ∉ visited := by
            intro h
            exact hcv (by simpa [List.contains, List.elem_eq_mem] using h)
          obtain ⟨pc, hpc⟩ := inv.heapReach (cost, cur) hmem
          have inv2 : UcsInv g s
              (ucsExpand cur cost (cur :: visited) (neighbors g cur) hrest parent).1
              (cur :: visited) (cur :: tr) := by
            rw [ucsExpand_heap]
            refine ⟨List.nodup_cons.mpr ⟨hcv2, inv.nodupV⟩, ?_, ?_, ?_, ?_, ?_⟩
            · intro e he
              rw [List.mem_append] at he
              rcases he with he | he
              · exact inv.heapReach e (hsub e he)
              · obtain ⟨n, hn, hne⟩ := List.mem_map.mp he
                have hnn : n ∈ neighbors g cur := (List.mem_filter.mp hn).1
                refine ⟨pc ++ [e.2], ?_⟩
                have he2 : e.2 = n := by rw [← hne]
                rw [he2]
                exact isPath_snoc g s cur n pc hpc hnn
            · intro e he
              rw [List.mem_append] at he
              rcases he with he | he
              · exact inv.heapB e (hsub e he)
              · obtain ⟨n, hn, hne⟩ := List.mem_map.mp he
                have hnn : n ∈ neighbors g cur := (List.mem_filter.mp hn).1
                simp only [neighbors, List.mem_filter, openCell, Bool.and_eq_true] at hnn
                have he2 : e.2 = n := by rw [← hne]
                rw [he2]
                exact Or.inr hnn.2.1
            · intro x hx
              rcases List.mem_cons.mp hx with hx | hx
              · subst hx
                exact inv.heapB (cost, x) hmem
              · exact inv.visB x hx
            · exact List.nodup_cons.mpr
                ⟨fun h => hcv2 (inv.trSubV cur h), inv.trNodup⟩
            · intro x hx
              rcases List.mem_cons.mp hx with hx | hx
              · exact hx ▸ List.mem_cons_self cur visited
              · exact List.mem_cons_of_mem cur (inv.trSubV x hx)
          have hred : ucsAux g goal (fuel + 1) heap visited parent tr =
              ucsAux g goal fuel
                (ucsExpand cur cost (cur :: visited) (neighbors g cur) hrest parent).1
                (cur :: visited)
                (ucsExpand cur cost (cur :: visited) (neighbors g cur) hrest parent).2
                (cur :: tr) := by
            simp only [ucsAux, hpop]
            rw [if_neg hcg, if_neg hcv]
          rw [hred]
          exact ucsAux_run g s goal fuel _ _ _ _ inv2

theorem ucsAux_no_fuelOut (g : Grid) (s goal : Pos) :
    ∀ (fuel : Nat) (heap : List (Nat × Pos)) (visited : List Pos)
      (parent : List (Pos × Pos)) (tr : List Pos), UcsInv g s heap visited tr →
      heap.length + 5 * (g.rows * g.cols + 1 - visited.length) < fuel →
      (ucsAux g goal fuel heap visited parent tr).2 ≠ .fuelOut
  | 0, heap, visited, parent, tr => by
    intro _ hm
    omega
  | fuel + 1, heap, visited, parent, tr => by
    intro inv hm
    rcases hpop : ucsPopMin heap with _ | ⟨⟨cost, cur⟩, hrest⟩
    · simp only [ucsAux, hpop]
      intro h
      simp at h
    · obtain ⟨hmem, hrest_eq⟩ := ucsPopMin_spec heap (cost, cur) hrest hpop
      have hrl : hrest.length + 1 = heap.length := by
        rw [hrest_eq]
        rw [List.length_erase_of_mem hmem]
        have : heap.length ≠ 0 := by
          intro h
          rw [List.length_eq_zero] at h
          rw [h] at hmem
          exact absurd hmem (List.not_mem_nil _)
        omega
      by_cases hcg : cur = goal
      · subst hcg
        simp only [ucsAux, hpop, if_pos rfl]
        intro h
        simp at h
      · have hsub : ∀ e ∈ hrest, e ∈ heap := by
          intro e he
          rw [hrest_eq] at he
          exact List.mem_of_mem_erase he
        by_cases hcv : visited.contains cur = true
        · have inv2 : UcsInv g s hrest visited tr :=
            ⟨inv.nodupV, fun e he => inv.heapReach e (hsub e he),
              fun e he => inv.heapB e (hsub e he), inv.visB, inv.trNodup, inv.trSubV⟩
          have hred : ucsAux g goal (fuel + 1) heap visited parent tr =
              ucsAux g goal fuel hrest visited parent tr := by
            simp only [ucsAux, hpop]
            rw [if_neg hcg, if_pos hcv]
          rw [hred]
          exact ucsAux_no_fuelOut g s goal fuel hrest visited parent tr inv2 (by omega)
        · have hcv2 : cur ∉ visited := by
            intro h
            exact hcv (by simpa [List.contains, List.elem_eq_mem] using h)
          obtain ⟨pc, hpc⟩ := inv.heapReach (cost, cur) hmem
          have inv2 : UcsInv g s
              (ucsExpand cur cost (cur :: visited) (neighbors g cur) hrest parent).1
              (cur :: visited) (cur :: tr) := by
            rw [ucsExpand_heap]
            refine ⟨List.nodup_cons.mpr ⟨hcv2, inv.nodupV⟩, ?_, ?_, ?_, ?_, ?_⟩
            · intro e he
              rw [List.mem_append] at he
              rcases he with he | he
              · exact inv.heapReach e (hsub e he)
              · obtain ⟨n, hn, hne⟩ := List.mem_map.mp he
                have hnn : n ∈ neighbors g cur := (List.mem_filter.mp hn).1
                refine ⟨pc ++ [e.2], ?_⟩
                have he2 : e.2 = n := by rw [← hne]
                rw [he2]
                exact isPath_snoc g s cur n pc hpc hnn
            · intro e he
              rw [List.mem_append] at he
              rcases he with he | he
              · exact inv.heapB e (hsub e he)
              · obtain ⟨n, hn, hne⟩ := List.mem_map.mp he
                have hnn : n ∈ neighbors g cur := (List.mem_filter.mp hn).1
                simp only [neighbors, List.mem_filter, openCell, Bool.and_eq_true] at hnn
                have he2 : e.2 = n := by rw [← hne]
                rw [he2]
                exact Or.inr hnn.2.1
            · intro x hx
              rcases List.mem_cons.mp hx with hx | hx
              · subst hx
                exact inv.heapB (cost, x) hmem
              · exact inv.visB x hx
            · exact List.nodup_cons.mpr
                ⟨fun h => hcv2 (inv.trSubV cur h), inv.trNodup⟩
            · intro x hx
              rcases List.mem_cons.mp hx with hx | hx
              · exact hx ▸ List.mem_cons_self cur visited
              · exact List.mem_cons_of_mem cur (inv.trSubV x hx)
          have hred : ucsAux g goal (fuel + 1) heap visited parent tr =
              ucsAux g goal fuel
                (ucsExpand cur cost (cur :: visited) (neighbors g cur) hrest parent).1
                (cur :: visited)
                (ucsExpand cur cost (cur :: visited) (neighbors g cur) hrest parent).2
                (cur :: tr) := by
            simp only [ucsAux, hpop]
            rw [if_neg hcg, if_neg hcv]
          rw [hred]
          apply ucsAux_no_fuelOut g s goal fuel _ _ _ _ inv2
          have hvlen : (cur :: visited).length ≤ g.rows * g.cols + 1 :=
            bounded_pos_length g s (cur :: visited) inv2.nodupV inv2.visB
          have hhlen : (ucsExpand cur cost (cur :: visited) (neighbors g cur)
              hrest parent).1.length ≤ hrest.length + 4 := by
            rw [ucsExpand_heap]
            rw [List.length_append, List.length_map]
            have h1 := List.length_filter_le
              (fun n => decide ¬((cur :: visited).contains n = true)) (neighbors g cur)
            have h2 := neighbors_len_le g cur
            omega
          simp only [List.length_cons] at hvlen ⊢
          omega

/-- UCS on an unreachable goal exhausts its frontier and reports no path. -/
theorem solveUcs_unreachable (g : Grid) (s t : Pos) (h : ¬ ∃ p, isPath g s t p) :
    (solveUcs g s t).2 = .noPath := by
  have inv0 := ucsInv_init g s
  have hrun := ucsAux_run g s t (5 * (g.rows * g.cols) + 7) [(0, s)] [] [] [] inv0
  have hfuel := ucsAux_no_fuelOut g s t (5 * (g.rows * g.cols) + 7) [(0, s)] [] [] [] inv0
    (by simp only [List.length_singleton, List.length_nil]; omega)
  rcases hout : (solveUcs g s t).2 with par | _ | _
  · exact absurd (hrun.1 par hout) h
  · rfl
  · exact absurd hout hfuel

/-- The UCS expansion trace never contains a cell twice. -/
theorem solveUcs_trace_nodup (g : Grid) (s t : Pos) : (solveUcs g s t).1.Nodup :=
  (ucsAux_run g s t (5 * (g.rows * g.cols) + 7) [(0, s)] [] [] [] (ucsInv_init g s)).2

/-- Trace bookkeeping for the BFS/DFS loops: popped cells are unique, never
the goal, and already visited. -/
structure TrInv (goal : Pos) (st : SearchSt) (tr : List Pos) : Prop where
  qNodup : st.queue.Nodup
  trNodup : tr.Nodup
  disj : ∀ x ∈ tr, x ∉ st.queue
  trSubV : ∀ x ∈ tr, x ∈ st.visited
  qSubV : ∀ x ∈ st.queue, x ∈ st.visited
  trGoal : goal ∉ tr

theorem trInv_init (goal : Pos) (s : Pos) : TrInv goal ⟨[s], [s], []⟩ [] := by
  refine ⟨List.nodup_singleton s, List.nodup_nil, ?_, ?_, fun x hx => hx, ?_⟩
  · intro x hx; exact absurd hx (List.not_mem_nil x)
  · intro x hx; exact absurd hx (List.not_mem_nil x)
  · exact List.not_mem_nil goal

theorem trInv_step_bfs (g : Grid) (goal cur : Pos) (rest vis : List Pos)
    (par : List (Pos × Pos)) (tr : List Pos)
    (inv : TrInv goal ⟨cur :: rest, vis, par⟩ tr) (hcg : cur ≠ goal) :
    TrInv goal (bfsExpand g cur ⟨rest, vis, par⟩) (cur :: tr) := by
  set F := (neighbors g cur).filter (fun n => ¬ vis.contains n) with hF
  have hexp : bfsExpand g cur ⟨rest, vis, par⟩ =
      ⟨rest ++ F, F.reverse ++ vis, (F.map fun n => (n, cur)).reverse ++ par⟩ :=
    bfsExpand_eq g cur (neighbors g cur) (neighbors_nodup g cur) rest vis par
  have hFmem : ∀ x, x ∈ F ↔ x ∈ neighbors g cur ∧ x ∉ vis := fun x =>
    mem_fresh_iff vis (neighbors g cur) x
  have hFnd : F.Nodup := List.Nodup.filter _ (neighbors_nodup g cur)
  have hcurV : cur ∈ vis := inv.qSubV cur (List.mem_cons_self cur rest)
  have hqn := List.nodup_cons.mp inv.qNodup
  rw [hexp]
  refine ⟨?_, ?_, ?_, ?_, ?_, ?_⟩
  · rw [List.nodup_append]
    refine ⟨hqn.2, hFnd, ?_⟩
    intro x hx hxF
    exact ((hFmem x).mp hxF).2 (inv.qSubV x (List.mem_cons_of_mem cur hx))
  · exact List.nodup_cons.mpr ⟨fun h => (inv.disj cur h) (List.mem_cons_self cur rest),
      inv.trNodup⟩
  · intro x hx
    rcases List.mem_cons.mp hx with hx | hx
    · subst hx
      intro h
      rcases List.mem_append.mp h with h | h
      · exact hqn.1 h
      · exact ((hFmem x).mp h).2 hcurV
    · intro h
      rcases List.mem_append.mp h with h | h
      · exact (inv.disj x hx) (List.mem_cons_of_mem cur h)
      · exact ((hFmem x).mp h).2 (inv.trSubV x hx)
  · intro x hx
    rw [List.mem_append, List.mem_reverse]
    rcases List.mem_cons.mp hx with hx | hx
    · subst hx; exact Or.inr hcurV
    · exact Or.inr (inv.trSubV x hx)
  · intro x hx
    rw [List.mem_append, List.mem_reverse]
    rcases List.mem_append.mp hx with hx | hx
    · exact Or.inr (inv.qSubV x (List.mem_cons_of_mem cur hx))
    · exact Or.inl hx
  · intro h
    rcases List.mem_cons.mp h with h | h
    · exact hcg h.symm
    · exact inv.trGoal h

theorem trInv_step_dfs (g : Grid) (goal cur : Pos) (rest vis : List Pos)
    (par : List (Pos × Pos)) (tr : List Pos)
    (inv : TrInv goal ⟨cur :: rest, vis, par⟩ tr) (hcg : cur ≠ goal) :
    TrInv goal (dfsExpand g cur ⟨rest, vis, par⟩) (cur :: tr) := by
  set F := (neighbors g cur).filter (fun n => ¬ vis.contains n) with hF
  have hexp : dfsExpand g cur ⟨rest, vis, par⟩ =
      ⟨F.reverse ++ rest, F.reverse ++ vis, (F.map fun n => (n, cur)).reverse ++ par⟩ :=
    dfsExpand_eq g cur (neighbors g cur) (neighbors_nodup g cur) rest vis par
  have hFmem : ∀ x, x ∈ F ↔ x ∈ neighbors g cur ∧ x ∉ vis := fun x =>
    mem_fresh_iff vis (neighbors g cur) x
  have hFnd : F.Nodup := List.Nodup.filter _ (neighbors_nodup g cur)
  have hcurV : cur ∈ vis := inv.qSubV cur (List.mem_cons_self cur rest)
  have hqn := List.nodup_cons.mp inv.qNodup
  rw [hexp]
  refine ⟨?_, ?_, ?_, ?_, ?_, ?_⟩
  · rw [List.nodup_append]
    refine ⟨List.nodup_reverse.mpr hFnd, hqn.2, ?_⟩
    intro x hx hxq
    exact ((hFmem x).mp (List.mem_reverse.mp hx)).2
      (inv.qSubV x (List.mem_cons_of_mem cur hxq))
  · exact List.nodup_cons.mpr ⟨fun h => (inv.disj cur h) (List.mem_cons_self cur rest),
      inv.trNodup⟩
  · intro x hx
    rcases List.mem_cons.mp hx with hx | hx
    · subst hx
      intro h
      rcases List.mem_append.mp h with h | h
      · exact ((hFmem x).mp (List.mem_reverse.mp h)).2 hcurV
      · exact hqn.1 h
    · intro h
      rcases List.mem_append.mp h with h | h
      · exact ((hFmem x).mp (List.mem_reverse.mp h)).2 (inv.trSubV x hx)
      · exact (inv.disj x hx) (List.mem_cons_of_mem cur h)
  · intro x hx
    rw [List.mem_append, List.mem_reverse]
    rcases List.mem_cons.mp hx with hx | hx
    · subst hx; exact Or.inr hcurV
    · exact Or.inr (inv.trSubV x hx)
  · intro x hx
    rw [List.mem_append, List.mem_reverse]
    rcases List.mem_append.mp hx with hx | hx
    · exact Or.inl (List.mem_reverse.mp hx)
    · exact Or.inr (inv.qSubV x (List.mem_cons_of_mem cur hx))
  · intro h
    rcases List.mem_cons.mp h with h | h
    · exact hcg h.symm
    · exact inv.trGoal h

theorem bfsAux_trace (g : Grid) (goal : Pos) :
    ∀ (fuel : Nat) (st : SearchSt) (tr : List Pos), TrInv goal st tr →
      (bfsAux g goal fuel st tr).1.Nodup ∧ goal ∉ (bfsAux g goal fuel st tr).1
  | 0, st, tr => by
    intro inv
    simp only [bfsAux]
    exact ⟨List.nodup_reverse.mpr inv.trNodup,
      fun h => inv.trGoal (List.mem_reverse.mp h)⟩
  | fuel + 1, st, tr => by
    intro inv
    obtain ⟨q, v, par⟩ := st
    match q with
    | [] =>
      simp only [bfsAux]
      exact ⟨List.nodup_reverse.mpr inv.trNodup,
        fun h => inv.trGoal (List.mem_reverse.mp h)⟩
    | cur :: rest =>
      by_cases hcg : cur = goal
      · subst hcg
        simp only [bfsAux, if_pos rfl]
        exact ⟨List.nodup_reverse.mpr inv.trNodup,
          fun h => inv.trGoal (List.mem_reverse.mp h)⟩
      · have hred : bfsAux g goal (fuel + 1) ⟨cur :: rest, v, par⟩ tr =
            bfsAux g goal fuel (bfsExpand g cur ⟨rest, v, par⟩) (cur :: tr) := by
          simp [bfsAux, hcg]
        rw [hred]
        exact bfsAux_trace g goal fuel _ (cur :: tr)
          (trInv_step_bfs g goal cur rest v par tr inv hcg)

theorem dfsAux_trace (g : Grid) (goal : Pos) :
    ∀ (fuel : Nat) (st : SearchSt) (tr : List Pos), TrInv goal st tr →
      (dfsAux g goal fuel st tr).1.Nodup ∧ goal ∉ (dfsAux g goal fuel st tr).1
  | 0, st, tr => by
    intro inv
    simp only [dfsAux]
    exact ⟨List.nodup_reverse.mpr inv.trNodup,
      fun h => inv.trGoal (List.mem_reverse.mp h)⟩
  | fuel + 1, st, tr => by
    intro inv
    obtain ⟨q, v, par⟩ := st
    match q with
    | [] =>
      simp only [dfsAux]
      exact ⟨List.nodup_reverse.mpr inv.trNodup,
        fun h => inv.trGoal (List.mem_reverse.mp h)⟩
    | cur :: rest =>
      by_cases hcg : cur = goal
      · subst hcg
        simp only [dfsAux, if_pos rfl]
        exact ⟨List.nodup_reverse.mpr inv.trNodup,
          fun h => inv.trGoal (List.mem_reverse.mp h)⟩
      · have hred : dfsAux g goal (fuel + 1) ⟨cur :: rest, v, par⟩ tr =
            dfsAux g goal fuel (dfsExpand g cur ⟨rest, v, par⟩) (cur :: tr) := by
          simp [dfsAux, hcg]
        rw [hred]
        exact dfsAux_trace g goal fuel _ (cur :: tr)
          (trInv_step_dfs g goal cur rest v par tr inv hcg)

/-- On an unreachable goal, BFS exhausts the queue and reports no path. -/
theorem solveBfs_unreachable (g : Grid) (s t : Pos) (h : ¬ ∃ p, isPath g s t p) :
    (solveBfs g s t).2 = .noPath := by
  have inv0 := bfsInv_init g s t
  have hrun := bfsAux_run g s t (g.rows * g.cols + 2) ⟨[s], [s], []⟩ (fun _ => 0) [] inv0
  have hfuel := bfsAux_no_fuelOut g s t (g.rows * g.cols + 2) ⟨[s], [s], []⟩
    (fun _ => 0) [] inv0 (by simp only [List.length_singleton]; omega)
  rcases hout : (solveBfs g s t).2 with par | _ | _
  · obtain ⟨st2, d2, inv2, hgv, _⟩ := hrun.1 par hout
    obtain ⟨p, hp, _⟩ := inv2.dReach t hgv
    exact absurd ⟨p, hp⟩ h
  · rfl
  · exact absurd hout hfuel

/-- On an unreachable goal, DFS exhausts the stack and reports no path. -/
theorem solveDfs_unreachable (g : Grid) (s t : Pos) (h : ¬ ∃ p, isPath g s t p) :
    (solveDfs g s t).2 = .noPath := by
  have inv0 := dfsInv_init g s t
  have hrun := dfsAux_run g s t (g.rows * g.cols + 2) ⟨[s], [s], []⟩ (fun _ => 0) 0 [] inv0
  have hfuel := dfsAux_no_fuelOut g s t (g.rows * g.cols + 2) ⟨[s], [s], []⟩
    (fun _ => 0) 0 [] inv0 (by simp only [List.length_singleton]; omega)
  rcases hout : (solveDfs g s t).2 with par | _ | _
  · obtain ⟨st2, rk2, R2, inv2, hgv, _⟩ := hrun.1 par hout
    obtain ⟨p, _, hp, _, _⟩ := dfs_build g s t st2 rk2 R2 inv2 (rk2 t) t (le_refl _) hgv
    exact absurd ⟨p, hp⟩ h
  · rfl
  · exact absurd hout hfuel

/-! ### A* and greedy best-first, from PathfindingApp in
src/AI_CLASSWORK/Main (2).py -/

/-- A frontier entry as heapq stores it: (priority, pq_counter value, cell).
All counters in one frontier are distinct, so the cell is never compared. -/
abbrev AEntry := Nat × Nat × Pos

/-- Strict tuple comparison on (priority, counter); with distinct counters this
is exactly the order heapq uses on the stored triples. -/
def aLT (a b : AEntry) : Bool :=
  a.1 < b.1 || (a.1 == b.1 && a.2.1 < b.2.1)

/-- Popping the heap minimum; counters are distinct so the minimum is unique. -/
def aPopMin (h : List AEntry) : Option (AEntry × List AEntry) :=
  match h with
  | [] => none
  | e :: rest =>
    let m := rest.foldl (fun acc x => if aLT x acc then x else acc) e
    some (m, h.erase m)

/-- In-place update of an association list, modelling a Python dict write:
existing keys keep their position, new keys go to the back. -/
def setk {β : Type} : List (Pos × β) → Pos → β → List (Pos × β)
  | [], k, v => [(k, v)]
  | (k0, v0) :: rest, k, v =>
    if k0 = k then (k, v) :: rest else (k0, v0) :: setk rest k v

/-- The search state carried through the A* / greedy loops; pq_counter is the
module-level itertools counter. -/
structure AState where
  frontier : List AEntry
  cameFrom : CameFrom
  costSoFar : List (Pos × Nat)
  counter : Nat

/-- The relaxation loop of a_star_search over the neighbors of cur: a cell
with no recorded cost or a strictly cheaper new cost gets its cost and
predecessor updated and is pushed with priority new_cost + heuristic. -/
def aRelax (g : Grid) (goal cur : Pos) (ns : List Pos) (st : AState) : AState :=
  ns.foldl
    (fun st n =>
      if (List.lookup n st.costSoFar).isNone ||
          decide ((List.lookup cur st.costSoFar).getD 0 + 1 <
            (List.lookup n st.costSoFar).getD 0) then
        { frontier := st.frontier ++
            [((List.lookup cur st.costSoFar).getD 0 + 1 + manhattan goal n,
              st.counter, n)],
          cameFrom := setk st.cameFrom n (some cur),
          costSoFar := setk st.costSoFar n ((List.lookup cur st.costSoFar).getD 0 + 1),
          counter := st.counter + 1 }
      else st)
    st

/-- The while loop of a_star_search: pop the minimum; the goal breaks the loop
at its pop; any other popped cell other than the start is appended to
visited_order and relaxed.  Returns (visited_order, came_from, counter), with
none for fuel exhaustion (never reached with the wrapper fuel). -/
def aStarAux (g : Grid) (s goal : Pos) :
    Nat → AState → List Pos → Option (List Pos × CameFrom × Nat)
  | 0, _, _ => none
  | fuel + 1, st, vo =>
    match aPopMin st.frontier with
    | none => some (vo.reverse, st.cameFrom, st.counter)
    | some ((pri, cnt, cur), hrest) =>
      if cur = goal then some (vo.reverse, st.cameFrom, st.counter)
      else
        aStarAux g s goal fuel
          (aRelax g goal cur (neighbors g cur) { st with frontier := hrest })
          (if cur ≠ s ∧ cur ≠ goal then cur :: vo else vo)

/-- PathfindingApp.a_star_search started from pq_counter value c0. -/
def aStar (g : Grid) (s goal : Pos) (c0 : Nat) : Option (List Pos × CameFrom × Nat) :=
  aStarAux g s goal ((g.rows * g.cols + 1) * (g.rows * g.cols + 1) + 2)
    ⟨[(0, c0, s)], [(s, none)], [(s, 0)], c0 + 1⟩ []

/-- The push loop of greedy_best_first_search: only cells with no came_from
entry are pushed, with priority the heuristic alone. -/
def gRelax (g : Grid) (goal cur : Pos) (ns : List Pos) (st : AState) : AState :=
  ns.foldl
    (fun st n =>
      if (List.lookup n st.cameFrom).isNone then
        { frontier := st.frontier ++ [(manhattan goal n, st.counter, n)],
          cameFrom := setk st.cameFrom n (some cur),
          costSoFar := st.costSoFar,
          counter := st.counter + 1 }
      else st)
    st

def greedyAux (g : Grid) (s goal : Pos) :
    Nat → AState → List Pos → Option (List Pos × CameFrom × Nat)
  | 0, _, _ => none
  | fuel + 1, st, vo =>
    match aPopMin st.frontier with
    | none => some (vo.reverse, st.cameFrom, st.counter)
    | some ((pri, cnt, cur), hrest) =>
      if cur = goal then some (vo.reverse, st.cameFrom, st.counter)
      else
        greedyAux g s goal fuel
          (gRelax g goal cur (neighbors g cur) { st with frontier := hrest })
          (if cur ≠ s ∧ cur ≠ goal then cur :: vo else vo)

/-- PathfindingApp.greedy_best_first_search started from pq_counter value c0. -/
def greedy (g : Grid) (s goal : Pos) (c0 : Nat) : Option (List Pos × CameFrom × Nat) :=
  greedyAux g s goal (g.rows * g.cols + 3) ⟨[(0, c0, s)], [(s, none)], [], c0 + 1⟩ []

theorem lookup_setk_self {β : Type} :
    ∀ (l : List (Pos × β)) (k : Pos) (v : β), List.lookup k (setk l k v) = some v
  | [], k, v => by simp [setk]
  | (k0, v0) :: rest, k, v => by
    simp only [setk]
    by_cases he : k0 = k
    · rw [if_pos he]
      simp
    · rw [if_neg he]
      rw [List.lookup_cons]
      rw [beq_false_of_ne (fun h => he h.symm)]
      exact lookup_setk_self rest k v

theorem lookup_setk_other {β : Type} :
    ∀ (l : List (Pos × β)) (k : Pos) (v : β) (x : Pos), x ≠ k →
      List.lookup x (setk l k v) = List.lookup x l
  | [], k, v, x => by
    intro hx
    simp only [setk, List.lookup_cons, List.lookup_nil]
    rw [beq_false_of_ne hx]
  | (k0, v0) :: rest, k, v, x => by
    intro hx
    simp only [setk]
    by_cases he : k0 = k
    · rw [if_pos he]
      subst he
      simp only [List.lookup_cons]
      rw [beq_false_of_ne hx]
    · rw [if_neg he]
      simp only [List.lookup_cons]
      rcases hbe : x == k0 with _ | _
      · exact lookup_setk_other rest k v x hx
      · rfl

theorem setk_keys_mem {β : Type} :
    ∀ (l : List (Pos × β)) (k : Pos) (v : β) (x : Pos),
      x ∈ (setk l k v).map Prod.fst ↔ x = k ∨ x ∈ l.map Prod.fst
  | [], k, v, x => by simp [setk]
  | (k0, v0) :: rest, k, v, x => by
    simp only [setk]
    by_cases he : k0 = k
    · rw [if_pos he]
      subst he
      simp
    · rw [if_neg he]
      simp only [List.map_cons, List.mem_cons]
      rw [setk_keys_mem rest k v x]
      tauto

theorem setk_keys_nodup {β : Type} :
    ∀ (l : List (Pos × β)) (k : Pos) (v : β), (l.map Prod.fst).Nodup →
      ((setk l k v).map Prod.fst).Nodup
  | [], k, v => by intro _; simp [setk]
  | (k0, v0) :: rest, k, v => by
    intro hnd
    simp only [List.map_cons, List.nodup_cons] at hnd
    simp only [setk]
    by_cases he : k0 = k
    · rw [if_pos he]
      subst he
      simp only [List.map_cons, List.nodup_cons]
      exact hnd
    · rw [if_neg he]
      simp only [List.map_cons, List.nodup_cons]
      constructor
      · rw [setk_keys_mem]
        rintro (h | h)
        · exact he h
        · exact hnd.1 h
      · exact setk_keys_nodup rest k v hnd.2

theorem setk_len_ge {β : Type} :
    ∀ (l : List (Pos × β)) (k : Pos) (v : β),
      l.length ≤ (setk l k v).length ∧ (setk l k v).length ≤ l.length + 1
  | [], k, v => by simp [setk]
  | (k0, v0) :: rest, k, v => by
    simp only [setk]
    by_cases he : k0 = k
    · rw [if_pos he]; simp
    · rw [if_neg he]
      have := setk_len_ge rest k v
      simp only [List.length_cons]
      omega

theorem foldl_min_mem_gen {α : Type} (lt : α → α → Bool) :
    ∀ (rest : List α) (e : α),
      rest.foldl (fun acc x => if lt x acc then x else acc) e ∈ e :: rest
  | [], e => List.mem_singleton_self e
  | x :: xs, e => by
    simp only [List.foldl_cons]
    have := foldl_min_mem_gen lt xs (if lt x e then x else e)
    rcases List.mem_cons.mp this with h | h
    · rw [h]
      by_cases he : lt x e
      · rw [if_pos he]
        exact List.mem_cons_of_mem e (List.mem_cons_self x xs)
      · rw [if_neg he]
        exact List.mem_cons_self e _
    · exact List.mem_cons_of_mem e (List.mem_cons_of_mem x h)

theorem foldl_min_not_lt {α : Type} (lt : α → α → Bool)
    (htr : ∀ a b c, lt a b = true → lt b c = true → lt a c = true)
    (htr3 : ∀ a b c, lt a b = true → lt c b = false → lt a c = true)
    (hirr : ∀ a, lt a a = false) :
    ∀ (rest : List α) (e : α) (x : α), x ∈ e :: rest →
      lt x (rest.foldl (fun acc y => if lt y acc then y else acc) e) = false
  | [], e, x => by
    intro hx
    rw [List.mem_singleton] at hx
    subst hx
    exact hirr x
  | y :: ys, e, x => by
    intro hx
    simp only [List.foldl_cons]
    rcases List.mem_cons.mp hx with hxe | hx2
    · subst hxe
      by_cases he : lt y x
      · rw [if_pos he]
        by_contra hlt
        rw [Bool.not_eq_false] at hlt
        have hym := foldl_min_not_lt lt htr htr3 hirr ys (if lt y x then y else x) y
          (by rw [if_pos he]; exact List.mem_cons_self y ys)
        rw [if_pos he] at hym
        exact absurd (htr y x _ he hlt) (by rw [hym]; simp)
      · rw [if_neg he]
        exact foldl_min_not_lt lt htr htr3 hirr ys x x (List.mem_cons_self x ys)
    · rcases List.mem_cons.mp hx2 with hxy | hx3
      · subst hxy
        by_cases he : lt x e
        · rw [if_pos he]
          exact foldl_min_not_lt lt htr htr3 hirr ys x x (List.mem_cons_self x ys)
        · rw [if_neg he]
          by_contra hlt
          rw [Bool.not_eq_false] at hlt
          have hem := foldl_min_not_lt lt htr htr3 hirr ys (if lt x e then x else e) e
            (by rw [if_neg he]; exact List.mem_cons_self e ys)
          rw [if_neg he] at hem
          have := htr3 x _ e hlt hem
          rw [this] at he
          exact he rfl
      · exact foldl_min_not_lt lt htr htr3 hirr ys (if lt y e then y else e) x
          (List.mem_cons_of_mem _ hx3)

theorem aLT_iff (a b : AEntry) :
    aLT a b = true ↔ (a.1 < b.1 ∨ (a.1 = b.1 ∧ a.2.1 < b.2.1)) := by
  simp [aLT, Bool.or_eq_true, Bool.and_eq_true, beq_iff_eq, decide_eq_true_eq]

theorem aPopMin_spec (h : List AEntry) (e : AEntry) (rest : List AEntry)
    (hp : aPopMin h = some (e, rest)) :
    e ∈ h ∧ rest = h.erase e ∧ ∀ x ∈ h, aLT x e = false := by
  match h with
  | [] => simp [aPopMin] at hp
  | a :: as =>
    simp only [aPopMin, Option.some.injEq, Prod.mk.injEq] at hp
    obtain ⟨h1, h2⟩ := hp
    refine ⟨?_, ?_, ?_⟩
    · rw [← h1]
      exact foldl_min_mem_gen aLT as a
    · rw [← h1, ← h2]
    · intro x hx
      rw [← h1]
      apply foldl_min_not_lt aLT
      · intro p q r hpq hqr
        rw [aLT_iff] at hpq hqr ⊢
        omega
      · intro p q r hpq hqr
        rw [aLT_iff] at hpq ⊢
        rw [Bool.eq_false_iff, Ne, aLT_iff] at hqr
        omega
      · intro p
        rw [Bool.eq_false_iff, Ne, aLT_iff]
        omega
      · exact hx

/-! ### Application-level strategy runners with the endpoint guard -/

/-- What a strategy invocation reports to the user: the missing-endpoints
message, a found path with the visited steps, or the no-path message.  The
grid is returned unchanged alongside. -/
inductive AppOutcome
  | missingEndpoints
  | pathFound (steps : List Pos) (path : List Pos)
  | noPathFound (steps : List Pos)
  | outOfFuel
deriving DecidableEq

def runBfs (g : Grid) (sOpt tOpt : Option Pos) : AppOutcome × Grid :=
  match sOpt, tOpt with
  | some s, some t =>
    (match solveBfs g s t with
     | (tr, .found par) => .pathFound tr ((buildPath par s t).getD [])
     | (tr, .noPath) => .noPathFound tr
     | (_, .fuelOut) => .outOfFuel, g)
  | _, _ => (.missingEndpoints, g)

def runDfs (g : Grid) (sOpt tOpt : Option Pos) : AppOutcome × Grid :=
  match sOpt, tOpt with
  | some s, some t =>
    (match solveDfs g s t with
     | (tr, .found par) => .pathFound tr ((buildPath par s t).getD [])
     | (tr, .noPath) => .noPathFound tr
     | (_, .fuelOut) => .outOfFuel, g)
  | _, _ => (.missingEndpoints, g)

def runUcs (g : Grid) (sOpt tOpt : Option Pos) : AppOutcome × Grid :=
  match sOpt, tOpt with
  | some s, some t =>
    (match solveUcs g s t with
     | (tr, .found par) => .pathFound tr ((buildPath par s t).getD [])
     | (tr, .noPath) => .noPathFound tr
     | (_, .fuelOut) => .outOfFuel, g)
  | _, _ => (.missingEndpoints, g)

/-- PathfindingApp.run_algorithm for the A* choice: guard on endpoints, run
the search, report a path when the goal has a came_from entry (removing the
goal from the steps list) and no-path otherwise. -/
def runAStar (g : Grid) (sOpt tOpt : Option Pos) (c0 : Nat) : AppOutcome × Grid :=
  match sOpt, tOpt with
  | some s, some t =>
    (match aStar g s t c0 with
     | none => .outOfFuel
     | some (vo, cf, _) =>
       if (List.lookup t cf).isSome then .pathFound (vo.erase t) (reconstructPathRun cf s t)
       else .noPathFound vo, g)
  | _, _ => (.missingEndpoints, g)

def runGreedy (g : Grid) (sOpt tOpt : Option Pos) (c0 : Nat) : AppOutcome × Grid :=
  match sOpt, tOpt with
  | some s, some t =>
    (match greedy g s t c0 with
     | none => .outOfFuel
     | some (vo, cf, _) =>
       if (List.lookup t cf).isSome then .pathFound (vo.erase t) (reconstructPathRun cf s t)
       else .noPathFound vo, g)
  | _, _ => (.missingEndpoints, g)

/-- C6: with the start or the goal unset, every strategy runner reports the
missing-endpoints message without searching and leaves the grid unchanged. -/
theorem c6_missing_endpoints (g : Grid) (sOpt tOpt : Option Pos) (c0 : Nat)
    (h : sOpt = none ∨ tOpt = none) :
    runBfs g sOpt tOpt = (.missingEndpoints, g) ∧
    runDfs g sOpt tOpt = (.missingEndpoints, g) ∧
    runUcs g sOpt tOpt = (.missingEndpoints, g) ∧
    runAStar g sOpt tOpt c0 = (.missingEndpoints, g) ∧
    runGreedy g sOpt tOpt c0 = (.missingEndpoints, g) := by
  rcases h with h | h
  · subst h
    exact ⟨rfl, rfl, rfl, rfl, rfl⟩
  · subst h
    match sOpt with
    | none => exact ⟨rfl, rfl, rfl, rfl, rfl⟩
    | some s => exact ⟨rfl, rfl, rfl, rfl, rfl⟩

/-- C6, witness: applied with an unset goal on a concrete grid. -/
theorem c6_missing_endpoints_witness :
    runBfs ⟨2, 2, []⟩ (some (0, 0)) none = (.missingEndpoints, ⟨2, 2, []⟩) ∧
    runDfs ⟨2, 2, []⟩ (some (0, 0)) none = (.missingEndpoints, ⟨2, 2, []⟩) ∧
    runUcs ⟨2, 2, []⟩ (some (0, 0)) none = (.missingEndpoints, ⟨2, 2, []⟩) ∧
    runAStar ⟨2, 2, []⟩ (some (0, 0)) none 5 = (.missingEndpoints, ⟨2, 2, []⟩) ∧
    runGreedy ⟨2, 2, []⟩ (some (0, 0)) none 5 = (.missingEndpoints, ⟨2, 2, []⟩) :=
  c6_missing_endpoints ⟨2, 2, []⟩ (some (0, 0)) none 5 (Or.inr rfl)

/-- The 4x4 grid on which A* expands a cell twice: walls at (0,1), (1,0) and
(2,2), start (2,3), goal (0,0). -/
def dupGrid : Grid := ⟨4, 4, [(0, 1), (1, 0), (2, 2)]⟩

/-- C3, counterexample: a_star_search expands cells (3,1) and (3,0) twice on
dupGrid from (2,3) to (0,0) — its visited_order contains them twice, because
the algorithm keeps no closed set and a cheaper rediscovery re-queues an
already-expanded cell.  The whole run is evaluated in-kernel. -/
theorem c3_counterexample :
    ((aStar dupGrid (2, 3) (0, 0) 0).getD ([], [], 0)).1 =
      [(1, 3), (0, 3), (1, 2), (0, 2), (1, 1), (3, 3), (2, 1), (3, 2), (2, 0),
        (3, 1), (3, 0), (3, 1), (3, 0)] ∧
    (aStar dupGrid (2, 3) (0, 0) 0).isSome = true ∧
    ¬ ((aStar dupGrid (2, 3) (0, 0) 0).getD ([], [], 0)).1.Nodup :=
  ⟨by decide, by decide, by decide⟩

theorem setk_absent_append {β : Type} :
    ∀ (l : List (Pos × β)) (k : Pos) (v : β), List.lookup k l = none →
      setk l k v = l ++ [(k, v)]
  | [], k, v => by intro _; simp [setk]
  | (k0, v0) :: rest, k, v => by
    intro h
    simp only [List.lookup_cons] at h
    by_cases he : k0 = k
    · rw [beq_iff_eq.mpr he.symm] at h
      simp at h
    · rw [beq_false_of_ne (fun h2 => he h2.symm)] at h
      simp only [setk, if_neg he, List.cons_append, List.cons.injEq, true_and]
      exact setk_absent_append rest k v h

theorem setk_present_sum :
    ∀ (l : List (Pos × Nat)) (k : Pos) (v v0 : Nat), List.lookup k l = some v0 →
      ((setk l k v).map Prod.snd).sum + v0 = (l.map Prod.snd).sum + v
  | [], k, v, v0 => by intro h; simp [List.lookup] at h
  | (k0, w) :: rest, k, v, v0 => by
    intro h
    simp only [List.lookup_cons] at h
    by_cases he : k0 = k
    · rw [beq_iff_eq.mpr he.symm] at h
      simp only [Option.some.injEq] at h
      subst h
      simp only [setk, if_pos he, List.map_cons, List.sum_cons]
      omega
    · rw [beq_false_of_ne (fun h2 => he h2.symm)] at h
      simp only [setk, if_neg he, List.map_cons, List.sum_cons]
      have := setk_present_sum rest k v v0 h
      omega

theorem setk_present_length {β : Type} :
    ∀ (l : List (Pos × β)) (k : Pos) (v : β) (v0 : β), List.lookup k l = some v0 →
      (setk l k v).length = l.length
  | [], k, v, v0 => by intro h; simp [List.lookup] at h
  | (k0, w) :: rest, k, v, v0 => by
    intro h
    simp only [List.lookup_cons] at h
    by_cases he : k0 = k
    · simp [setk, if_pos he]
    · rw [beq_false_of_ne (fun h2 => he h2.symm)] at h
      simp only [setk, if_neg he, List.length_cons]
      rw [setk_present_length rest k v v0 h]

theorem not_mem_neighbors_self (g : Grid) (p : Pos) : p ∉ neighbors g p := by
  intro h
  rw [mem_neighbors_iff] at h
  obtain ⟨hm, _⟩ := h
  obtain ⟨r, c⟩ := p
  simp only [List.mem_cons, List.mem_singleton, Prod.mk.injEq, List.not_mem_nil,
    or_false] at hm
  rcases hm with ⟨h1, _⟩ | ⟨h1, _⟩ | ⟨_, h2⟩ | ⟨_, h2⟩ <;> omega

/-- Core A* loop invariant (everything except the optimality bookkeeping). -/
structure AInvCore (g : Grid) (s goal : Pos) (st : AState) : Prop where
  csKeys : (st.costSoFar.map Prod.fst).Nodup
  cfKeys : (st.cameFrom.map Prod.fst).Nodup
  csTocf : ∀ x, (List.lookup x st.costSoFar).isSome → (List.lookup x st.cameFrom).isSome
  cfTocs : ∀ x, (List.lookup x st.cameFrom).isSome → (List.lookup x st.costSoFar).isSome
  sCost : List.lookup s st.costSoFar = some 0
  sCF : List.lookup s st.cameFrom = some none
  linkInv : ∀ x v, x ≠ s → List.lookup x st.cameFrom = some v →
      ∃ c gx gc, v = some c ∧ List.lookup x st.costSoFar = some gx ∧
        List.lookup c st.costSoFar = some gc ∧ x ∈ neighbors g c ∧ gc + 1 ≤ gx
  gBound : ∀ x gx, List.lookup x st.costSoFar = some gx → gx + 1 ≤ st.costSoFar.length
  frontDom : ∀ e ∈ st.frontier, (List.lookup e.2.2 st.costSoFar).isSome
  frontCnt : ∀ e ∈ st.frontier, e.2.1 < st.counter
  cntNodup : (st.frontier.map (fun e => e.2.1)).Nodup
  domB : ∀ x, (List.lookup x st.costSoFar).isSome → x = s ∨ inBounds g x = true
  priOK : ∀ e ∈ st.frontier, e.2.2 = s ∨ ∃ ge, List.lookup e.2.2 st.costSoFar = some ge ∧
      ge + manhattan goal e.2.2 ≤ e.1

theorem aInvCore_init (g : Grid) (s goal : Pos) (c0 : Nat) :
    AInvCore g s goal ⟨[(0, c0, s)], [(s, none)], [(s, 0)], c0 + 1⟩ := by
  refine ⟨?_, ?_, ?_, ?_, ?_, ?_, ?_, ?_, ?_, ?_, ?_, ?_, ?_⟩
  · simp
  · simp
  · intro x hx
    simp only [List.lookup_cons, List.lookup_nil] at hx ⊢
    rcases hbe : x == s with _ | _
    · rw [hbe] at hx; simp at hx
    · simp
  · intro x hx
    simp only [List.lookup_cons, List.lookup_nil] at hx ⊢
    rcases hbe : x == s with _ | _
    · rw [hbe] at hx; simp at hx
    · simp
  · simp [List.lookup_cons_self]
  · simp [List.lookup_cons_self]
  · intro x v hx hv
    simp only [List.lookup_cons, List.lookup_nil] at hv
    rcases hbe : x == s with _ | _
    · rw [hbe] at hv; simp at hv
    · exact absurd (eq_of_beq hbe) hx
  · intro x gx hx
    simp only [List.lookup_cons, List.lookup_nil] at hx
    rcases hbe : x == s with _ | _
    · rw [hbe] at hx; simp at hx
    · rw [hbe] at hx
      simp only [Option.some.injEq] at hx
      simp [← hx]
  · intro e he
    rw [List.mem_singleton] at he
    subst he
    simp [List.lookup_cons_self]
  · intro e he
    rw [List.mem_singleton] at he
    subst he
    simp
  · simp
  · intro x hx
    simp only [List.lookup_cons, List.lookup_nil] at hx
    rcases hbe : x == s with _ | _
    · rw [hbe] at hx; simp at hx
    · exact Or.inl (eq_of_beq hbe)
  · intro e he
    rw [List.mem_singleton] at he
    subst he
    exact Or.inl rfl

/-- Termination measure for the A* loop: frontier size, total recorded cost,
and remaining dictionary capacity. -/
def phiA (M : Nat) (st : AState) : Nat :=
  st.frontier.length + (st.costSoFar.map Prod.snd).sum +
    (M - st.costSoFar.length) * M

/-- One relaxation step of a_star_search on a single neighbor. -/
def aRelax1 (goal cur n : Pos) (st : AState) : AState :=
  if (List.lookup n st.costSoFar).isNone ||
      decide ((List.lookup cur st.costSoFar).getD 0 + 1 <
        (List.lookup n st.costSoFar).getD 0) then
    { frontier := st.frontier ++
        [((List.lookup cur st.costSoFar).getD 0 + 1 + manhattan goal n,
          st.counter, n)],
      cameFrom := setk st.cameFrom n (some cur),
      costSoFar := setk st.costSoFar n ((List.lookup cur st.costSoFar).getD 0 + 1),
      counter := st.counter + 1 }
  else st

theorem aRelax_eq_foldl (g : Grid) (goal cur : Pos) (ns : List Pos) (st : AState) :
    aRelax g goal cur ns st = ns.foldl (fun st n => aRelax1 goal cur n st) st := rfl

theorem mem_keys_isSome {β : Type} (l : List (Pos × β)) (x : Pos)
    (h : x ∈ l.map Prod.fst) : (List.lookup x l).isSome := by
  rw [List.lookup_isSome_iff]
  rw [List.mem_map] at h
  obtain ⟨p, hp, he⟩ := h
  exact ⟨p, hp, beq_iff_eq.mpr he.symm⟩

theorem aInvCore_cs_len (g : Grid) (s goal : Pos) (st : AState)
    (inv : AInvCore g s goal st) :
    st.costSoFar.length ≤ g.rows * g.cols + 1 := by
  have h2 : (st.costSoFar.map Prod.fst).length ≤ g.rows * g.cols + 1 := by
    apply bounded_pos_length g s _ inv.csKeys
    intro x hx
    exact inv.domB x (mem_keys_isSome _ _ hx)
  simpa using h2

theorem aInvCore_mk (g : Grid) (s goal : Pos) (F : List AEntry) (cf : CameFrom)
    (cs : List (Pos × Nat)) (cnt : Nat)
    (h1 : (cs.map Prod.fst).Nodup)
    (h2 : (cf.map Prod.fst).Nodup)
    (h3 : ∀ x, (List.lookup x cs).isSome → (List.lookup x cf).isSome)
    (h4 : ∀ x, (List.lookup x cf).isSome → (List.lookup x cs).isSome)
    (h5 : List.lookup s cs = some 0)
    (h6 : List.lookup s cf = some none)
    (h7 : ∀ x v, x ≠ s → List.lookup x cf = some v →
        ∃ c gx gc, v = some c ∧ List.lookup x cs = some gx ∧
          List.lookup c cs = some gc ∧ x ∈ neighbors g c ∧ gc + 1 ≤ gx)
    (h8 : ∀ x gx, List.lookup x cs = some gx → gx + 1 ≤ cs.length)
    (h9 : ∀ e ∈ F, (List.lookup e.2.2 cs).isSome)
    (h10 : ∀ e ∈ F, e.2.1 < cnt)
    (h11 : (F.map (fun e => e.2.1)).Nodup)
    (h12 : ∀ x, (List.lookup x cs).isSome → x = s ∨ inBounds g x = true)
    (h13 : ∀ e ∈ F, e.2.2 = s ∨ ∃ ge, List.lookup e.2.2 cs = some ge ∧
        ge + manhattan goal e.2.2 ≤ e.1) :
    AInvCore g s goal ⟨F, cf, cs, cnt⟩ :=
  ⟨h1, h2, h3, h4, h5, h6, h7, h8, h9, h10, h11, h12, h13⟩

/-- One relaxation step preserves the core invariant, only lowers recorded
costs, only appends to the frontier, leaves the relaxed neighbor with cost at
most g(cur) + 1, and does not increase the termination measure. -/
theorem aRelax1_core (g : Grid) (s goal cur n : Pos) (st : AState)
    (inv : AInvCore g s goal st) (gcur : Nat)
    (hc : List.lookup cur st.costSoFar = some gcur)
    (hn : n ∈ neighbors g cur) :
    AInvCore g s goal (aRelax1 goal cur n st) ∧
    st.counter ≤ (aRelax1 goal cur n st).counter ∧
    (∀ x gx, List.lookup x st.costSoFar = some gx →
      ∃ gx2, List.lookup x (aRelax1 goal cur n st).costSoFar = some gx2 ∧ gx2 ≤ gx) ∧
    (∃ extra, (aRelax1 goal cur n st).frontier = st.frontier ++ extra) ∧
    (∃ gn, List.lookup n (aRelax1 goal cur n st).costSoFar = some gn ∧ gn ≤ gcur + 1) ∧
    phiA (g.rows * g.cols + 1) (aRelax1 goal cur n st) ≤
      phiA (g.rows * g.cols + 1) st := by
  have hcurn : cur ≠ n := by
    intro he
    exact not_mem_neighbors_self g cur (he ▸ hn)
  have hinb : inBounds g n = true := by
    have hn2 := hn
    rw [mem_neighbors_iff] at hn2
    have h2 := hn2.2
    unfold openCell at h2
    simp only [Bool.and_eq_true] at h2
    exact h2.1
  rcases hgo : List.lookup n st.costSoFar with _ | gold
  · -- n has no recorded cost: always relaxed
    have hns : n ≠ s := by
      intro he
      rw [he, inv.sCost] at hgo
      exact Option.noConfusion hgo
    have hcond : ((List.lookup n st.costSoFar).isNone ||
        decide ((List.lookup cur st.costSoFar).getD 0 + 1 <
          (List.lookup n st.costSoFar).getD 0)) = true := by
      rw [hgo]
      rfl
    have hst : aRelax1 goal cur n st =
        ⟨st.frontier ++ [(gcur + 1 + manhattan goal n, st.counter, n)],
          setk st.cameFrom n (some cur),
          setk st.costSoFar n (gcur + 1),
          st.counter + 1⟩ := by
      unfold aRelax1
      rw [if_pos hcond, hc]
      rfl
    rw [hst]
    have happend : setk st.costSoFar n (gcur + 1) = st.costSoFar ++ [(n, gcur + 1)] :=
      setk_absent_append st.costSoFar n (gcur + 1) hgo
    have hlen' : (setk st.costSoFar n (gcur + 1)).length = st.costSoFar.length + 1 := by
      rw [happend]
      simp
    have hlookupN : List.lookup n (setk st.costSoFar n (gcur + 1)) = some (gcur + 1) :=
      lookup_setk_self _ _ _
    have hlookupO : ∀ x : Pos, x ≠ n →
        List.lookup x (setk st.costSoFar n (gcur + 1)) = List.lookup x st.costSoFar :=
      fun x hx => lookup_setk_other _ _ _ _ hx
    have hlookupCFN : List.lookup n (setk st.cameFrom n (some cur)) = some (some cur) :=
      lookup_setk_self _ _ _
    have hlookupCFO : ∀ x : Pos, x ≠ n →
        List.lookup x (setk st.cameFrom n (some cur)) = List.lookup x st.cameFrom :=
      fun x hx => lookup_setk_other _ _ _ _ hx
    have hinv' : AInvCore g s goal
        ⟨st.frontier ++ [(gcur + 1 + manhattan goal n, st.counter, n)],
          setk st.cameFrom n (some cur), setk st.costSoFar n (gcur + 1),
          st.counter + 1⟩ := by
      apply aInvCore_mk
      · exact setk_keys_nodup _ _ _ inv.csKeys
      · exact setk_keys_nodup _ _ _ inv.cfKeys
      · intro x hx
        by_cases hxe : x = n
        · subst hxe
          rw [hlookupCFN]
          rfl
        · rw [hlookupO x hxe] at hx
          rw [hlookupCFO x hxe]
          exact inv.csTocf x hx
      · intro x hx
        by_cases hxe : x = n
        · subst hxe
          rw [hlookupN]
          rfl
        · rw [hlookupCFO x hxe] at hx
          rw [hlookupO x hxe]
          exact inv.cfTocs x hx
      · rw [hlookupO s (fun h2 => hns h2.symm)]
        exact inv.sCost
      · rw [hlookupCFO s (fun h2 => hns h2.symm)]
        exact inv.sCF
      · intro x v hx hv
        by_cases hxe : x = n
        · subst hxe
          rw [hlookupCFN] at hv
          injection hv with hv
          refine ⟨cur, gcur + 1, gcur, hv.symm, hlookupN, ?_, hn, le_refl _⟩
          rw [hlookupO cur hcurn]
          exact hc
        · rw [hlookupCFO x hxe] at hv
          obtain ⟨c, gx, gc, hv2, hgx, hgc, hmem, hle⟩ := inv.linkInv x v hx hv
          by_cases hce : c = n
          · subst hce
            rw [hgo] at hgc
            exact Option.noConfusion hgc
          · exact ⟨c, gx, gc, hv2, by rw [hlookupO x hxe]; exact hgx,
              by rw [hlookupO c hce]; exact hgc, hmem, hle⟩
      · intro x gx2 hx
        by_cases hxe : x = n
        · subst hxe
          rw [hlookupN] at hx
          injection hx with hx
          have hgb := inv.gBound cur gcur hc
          rw [hlen']
          omega
        · rw [hlookupO x hxe] at hx
          have hgb := inv.gBound x gx2 hx
          rw [hlen']
          omega
      · intro e he
        rw [List.mem_append] at he
        rcases he with he | he
        · by_cases hxe : e.2.2 = n
          · rw [hxe, hlookupN]
            rfl
          · rw [hlookupO _ hxe]
            exact inv.frontDom e he
        · rw [List.mem_singleton] at he
          subst he
          have hx : (List.lookup n (setk st.costSoFar n (gcur + 1))).isSome := by
            rw [hlookupN]
            rfl
          exact hx
      · intro e he
        rw [List.mem_append] at he
        rcases he with he | he
        · have h2 := inv.frontCnt e he
          omega
        · rw [List.mem_singleton] at he
          subst he
          show st.counter < st.counter + 1
          omega
      · rw [List.map_append]
        apply List.Nodup.append inv.cntNodup
        · show List.Nodup [st.counter]
          exact List.nodup_singleton _
        · intro a ha hb
          have hb2 : a = st.counter := by
            have h3 : a ∈ [st.counter] := hb
            rw [List.mem_singleton] at h3
            exact h3
          rw [List.mem_map] at ha
          obtain ⟨e, he, hea⟩ := ha
          have h4 := inv.frontCnt e he
          omega
      · intro x hx
        by_cases hxe : x = n
        · subst hxe
          exact Or.inr hinb
        · rw [hlookupO x hxe] at hx
          exact inv.domB x hx
      · intro e he
        rw [List.mem_append] at he
        rcases he with he | he
        · rcases inv.priOK e he with hs2 | ⟨ge, hge, hle2⟩
          · exact Or.inl hs2
          · by_cases hxe : e.2.2 = n
            · rw [hxe, hgo] at hge
              exact Option.noConfusion hge
            · exact Or.inr ⟨ge, by rw [hlookupO _ hxe]; exact hge, hle2⟩
        · rw [List.mem_singleton] at he
          subst he
          refine Or.inr ⟨gcur + 1, ?_, ?_⟩
          · show List.lookup n (setk st.costSoFar n (gcur + 1)) = some (gcur + 1)
            exact hlookupN
          · show gcur + 1 + manhattan goal n ≤ gcur + 1 + manhattan goal n
            exact le_refl _
    refine ⟨hinv', Nat.le_succ _, ?_, ⟨[(gcur + 1 + manhattan goal n, st.counter, n)], rfl⟩,
      ⟨gcur + 1, hlookupN, le_refl _⟩, ?_⟩
    · intro x gx hx
      by_cases hxe : x = n
      · subst hxe
        rw [hgo] at hx
        exact Option.noConfusion hx
      · exact ⟨gx, by rw [hlookupO x hxe]; exact hx, le_refl _⟩
    · have hlenM0 := aInvCore_cs_len g s goal _ hinv'
      have hlenM1 : (setk st.costSoFar n (gcur + 1)).length ≤ g.rows * g.cols + 1 := hlenM0
      rw [hlen'] at hlenM1
      show (st.frontier ++ [(gcur + 1 + manhattan goal n, st.counter, n)]).length +
          ((setk st.costSoFar n (gcur + 1)).map Prod.snd).sum +
          (g.rows * g.cols + 1 - (setk st.costSoFar n (gcur + 1)).length) *
            (g.rows * g.cols + 1) ≤
        st.frontier.length + (st.costSoFar.map Prod.snd).sum +
          (g.rows * g.cols + 1 - st.costSoFar.length) * (g.rows * g.cols + 1)
      have hsum : ((setk st.costSoFar n (gcur + 1)).map Prod.snd).sum =
          (st.costSoFar.map Prod.snd).sum + (gcur + 1) := by
        rw [happend, List.map_append, List.sum_append]
        simp
      have hgb := inv.gBound cur gcur hc
      rw [List.length_append, hsum, hlen']
      set M := g.rows * g.cols + 1 with hMdef
      set L := st.costSoFar.length with hLdef
      have hmul : (M - L) * M = (M - (L + 1)) * M + M := by
        have h1 : M - L = (M - (L + 1)) + 1 := by omega
        rw [h1, Nat.succ_mul]
      simp only [List.length_singleton]
      linarith [hmul, hgb, hlenM1]
  · -- n already has a recorded cost gold
    by_cases hlt : gcur + 1 < gold
    · -- strictly cheaper: relaxed
      have hns : n ≠ s := by
        intro he
        rw [he, inv.sCost] at hgo
        injection hgo with h2
        omega
      have hcond : ((List.lookup n st.costSoFar).isNone ||
          decide ((List.lookup cur st.costSoFar).getD 0 + 1 <
            (List.lookup n st.costSoFar).getD 0)) = true := by
        rw [hgo, hc]
        simp only [Option.isNone_some, Bool.false_or, Option.getD_some, decide_eq_true_eq]
        exact hlt
      have hst : aRelax1 goal cur n st =
          ⟨st.frontier ++ [(gcur + 1 + manhattan goal n, st.counter, n)],
            setk st.cameFrom n (some cur),
            setk st.costSoFar n (gcur + 1),
            st.counter + 1⟩ := by
        unfold aRelax1
        rw [if_pos hcond, hc]
        rfl
      rw [hst]
      have hlenEq : (setk st.costSoFar n (gcur + 1)).length = st.costSoFar.length :=
        setk_present_length st.costSoFar n (gcur + 1) gold hgo
      have hlookupN : List.lookup n (setk st.costSoFar n (gcur + 1)) = some (gcur + 1) :=
        lookup_setk_self _ _ _
      have hlookupO : ∀ x : Pos, x ≠ n →
          List.lookup x (setk st.costSoFar n (gcur + 1)) = List.lookup x st.costSoFar :=
        fun x hx => lookup_setk_other _ _ _ _ hx
      have hlookupCFN : List.lookup n (setk st.cameFrom n (some cur)) = some (some cur) :=
        lookup_setk_self _ _ _
      have hlookupCFO : ∀ x : Pos, x ≠ n →
          List.lookup x (setk st.cameFrom n (some cur)) = List.lookup x st.cameFrom :=
        fun x hx => lookup_setk_other _ _ _ _ hx
      have hinv' : AInvCore g s goal
          ⟨st.frontier ++ [(gcur + 1 + manhattan goal n, st.counter, n)],
            setk st.cameFrom n (some cur), setk st.costSoFar n (gcur + 1),
            st.counter + 1⟩ := by
        apply aInvCore_mk
        · exact setk_keys_nodup _ _ _ inv.csKeys
        · exact setk_keys_nodup _ _ _ inv.cfKeys
        · intro x hx
          by_cases hxe : x = n
          · subst hxe
            rw [hlookupCFN]
            rfl
          · rw [hlookupO x hxe] at hx
            rw [hlookupCFO x hxe]
            exact inv.csTocf x hx
        · intro x hx
          by_cases hxe : x = n
          · subst hxe
            rw [hlookupN]
            rfl
          · rw [hlookupCFO x hxe] at hx
            rw [hlookupO x hxe]
            exact inv.cfTocs x hx
        · rw [hlookupO s (fun h2 => hns h2.symm)]
          exact inv.sCost
        · rw [hlookupCFO s (fun h2 => hns h2.symm)]
          exact inv.sCF
        · intro x v hx hv
          by_cases hxe : x = n
          · subst hxe
            rw [hlookupCFN] at hv
            injection hv with hv
            refine ⟨cur, gcur + 1, gcur, hv.symm, hlookupN, ?_, hn, le_refl _⟩
            rw [hlookupO cur hcurn]
            exact hc
          · rw [hlookupCFO x hxe] at hv
            obtain ⟨c, gx, gc, hv2, hgx, hgc, hmem, hle⟩ := inv.linkInv x v hx hv
            by_cases hce : c = n
            · rw [hce] at hgc
              rw [hgo] at hgc
              injection hgc with hgc
              refine ⟨c, gx, gcur + 1, hv2, by rw [hlookupO x hxe]; exact hgx,
                ?_, hmem, ?_⟩
              · rw [hce]
                exact hlookupN
              · omega
            · exact ⟨c, gx, gc, hv2, by rw [hlookupO x hxe]; exact hgx,
                by rw [hlookupO c hce]; exact hgc, hmem, hle⟩
        · intro x gx2 hx
          by_cases hxe : x = n
          · subst hxe
            rw [hlookupN] at hx
            injection hx with hx
            have hgb := inv.gBound x gold hgo
            rw [hlenEq]
            omega
          · rw [hlookupO x hxe] at hx
            have hgb := inv.gBound x gx2 hx
            rw [hlenEq]
            omega
        · intro e he
          rw [List.mem_append] at he
          rcases he with he | he
          · by_cases hxe : e.2.2 = n
            · rw [hxe, hlookupN]
              rfl
            · rw [hlookupO _ hxe]
              exact inv.frontDom e he
          · rw [List.mem_singleton] at he
            subst he
            have hx : (List.lookup n (setk st.costSoFar n (gcur + 1))).isSome := by
              rw [hlookupN]
              rfl
            exact hx
        · intro e he
          rw [List.mem_append] at he
          rcases he with he | he
          · have h2 := inv.frontCnt e he
            omega
          · rw [List.mem_singleton] at he
            subst he
            show st.counter < st.counter + 1
            omega
        · rw [List.map_append]
          apply List.Nodup.append inv.cntNodup
          · show List.Nodup [st.counter]
            exact List.nodup_singleton _
          · intro a ha hb
            have hb2 : a = st.counter := by
              have h3 : a ∈ [st.counter] := hb
              rw [List.mem_singleton] at h3
              exact h3
            rw [List.mem_map] at ha
            obtain ⟨e, he, hea⟩ := ha
            have h4 := inv.frontCnt e he
            omega
        · intro x hx
          by_cases hxe : x = n
          · subst hxe
            exact Or.inr hinb
          · rw [hlookupO x hxe] at hx
            exact inv.domB x hx
        · intro e he
          rw [List.mem_append] at he
          rcases he with he | he
          · rcases inv.priOK e he with hs2 | ⟨ge, hge, hle2⟩
            · exact Or.inl hs2
            · by_cases hxe : e.2.2 = n
              · rw [hxe] at hge hle2 ⊢
                rw [hgo] at hge
                injection hge with hge
                refine Or.inr ⟨gcur + 1, hlookupN, ?_⟩
                omega
              · exact Or.inr ⟨ge, by rw [hlookupO _ hxe]; exact hge, hle2⟩
          · rw [List.mem_singleton] at he
            subst he
            refine Or.inr ⟨gcur + 1, ?_, ?_⟩
            · show List.lookup n (setk st.costSoFar n (gcur + 1)) = some (gcur + 1)
              exact hlookupN
            · show gcur + 1 + manhattan goal n ≤ gcur + 1 + manhattan goal n
              exact le_refl _
      refine ⟨hinv', Nat.le_succ _, ?_,
        ⟨[(gcur + 1 + manhattan goal n, st.counter, n)], rfl⟩,
        ⟨gcur + 1, hlookupN, le_refl _⟩, ?_⟩
      · intro x gx hx
        by_cases hxe : x = n
        · subst hxe
          rw [hgo] at hx
          injection hx with hx
          subst hx
          exact ⟨gcur + 1, hlookupN, by omega⟩
        · exact ⟨gx, by rw [hlookupO x hxe]; exact hx, le_refl _⟩
      · show (st.frontier ++ [(gcur + 1 + manhattan goal n, st.counter, n)]).length +
            ((setk st.costSoFar n (gcur + 1)).map Prod.snd).sum +
            (g.rows * g.cols + 1 - (setk st.costSoFar n (gcur + 1)).length) *
              (g.rows * g.cols + 1) ≤
          st.frontier.length + (st.costSoFar.map Prod.snd).sum +
            (g.rows * g.cols + 1 - st.costSoFar.length) * (g.rows * g.cols + 1)
        have hsum := setk_present_sum st.costSoFar n (gcur + 1) gold hgo
        rw [List.length_append, hlenEq]
        simp only [List.length_singleton]
        linarith [hsum, hlt]
    · -- not cheaper: no write
      have hcondn : ¬(((List.lookup n st.costSoFar).isNone ||
          decide ((List.lookup cur st.costSoFar).getD 0 + 1 <
            (List.lookup n st.costSoFar).getD 0)) = true) := by
        rw [hgo, hc]
        simp only [Option.isNone_some, Bool.false_or, Option.getD_some, decide_eq_true_eq]
        exact hlt
      have hst : aRelax1 goal cur n st = st := by
        unfold aRelax1
        rw [if_neg hcondn]
      rw [hst]
      exact ⟨inv, le_refl _, fun x gx hx => ⟨gx, hx, le_refl _⟩,
        ⟨[], (List.append_nil _).symm⟩, ⟨gold, hgo, by omega⟩, le_refl _⟩

/-- Every recorded cell either has a live frontier entry whose priority is
bounded by its current cost plus the heuristic, or has already been expanded
at (at most) its current cost: all its neighbors carry cost at most one more.
The exception cell ex is the cell currently being expanded. -/
def ANodeInvX (g : Grid) (goal ex : Pos) (st : AState) : Prop :=
  ∀ x gx, x ≠ ex → List.lookup x st.costSoFar = some gx →
    (∃ e ∈ st.frontier, e.2.2 = x ∧ e.1 ≤ gx + manhattan goal x) ∨
    (∀ m ∈ neighbors g x, ∃ gm, List.lookup m st.costSoFar = some gm ∧ gm ≤ gx + 1)

/-- The exception-free version, holding at every loop head. -/
def ANodeInv (g : Grid) (goal : Pos) (st : AState) : Prop :=
  ∀ x gx, List.lookup x st.costSoFar = some gx →
    (∃ e ∈ st.frontier, e.2.2 = x ∧ e.1 ≤ gx + manhattan goal x) ∨
    (∀ m ∈ neighbors g x, ∃ gm, List.lookup m st.costSoFar = some gm ∧ gm ≤ gx + 1)

theorem aNodeInv_to_X (g : Grid) (goal ex : Pos) (st : AState)
    (h : ANodeInv g goal st) : ANodeInvX g goal ex st :=
  fun x gx _ hx => h x gx hx

/-- One relaxation step preserves the node invariant. -/
theorem aRelax1_nodeInvX (g : Grid) (goal ex cur n : Pos) (st : AState)
    (hni : ANodeInvX g goal ex st) :
    ANodeInvX g goal ex (aRelax1 goal cur n st) := by
  by_cases hcond : ((List.lookup n st.costSoFar).isNone ||
      decide ((List.lookup cur st.costSoFar).getD 0 + 1 <
        (List.lookup n st.costSoFar).getD 0)) = true
  · have hst : aRelax1 goal cur n st =
        ⟨st.frontier ++
            [((List.lookup cur st.costSoFar).getD 0 + 1 + manhattan goal n,
              st.counter, n)],
          setk st.cameFrom n (some cur),
          setk st.costSoFar n ((List.lookup cur st.costSoFar).getD 0 + 1),
          st.counter + 1⟩ := by
      unfold aRelax1
      rw [if_pos hcond]
    rw [hst]
    intro x gx hxex hx
    by_cases hxe : x = n
    · left
      have hlk : List.lookup x (setk st.costSoFar n
          ((List.lookup cur st.costSoFar).getD 0 + 1)) =
          some ((List.lookup cur st.costSoFar).getD 0 + 1) := by
        rw [hxe]
        exact lookup_setk_self _ _ _
      have hx2 : List.lookup x (setk st.costSoFar n
          ((List.lookup cur st.costSoFar).getD 0 + 1)) = some gx := hx
      rw [hlk] at hx2
      injection hx2 with hx2
      refine ⟨((List.lookup cur st.costSoFar).getD 0 + 1 + manhattan goal n,
        st.counter, n), ?_, ?_, ?_⟩
      · exact List.mem_append_right _ (List.mem_singleton_self _)
      · exact hxe.symm
      · rw [← hx2, hxe]
    · have hx2 : List.lookup x st.costSoFar = some gx := by
        have h3 : List.lookup x (setk st.costSoFar n
            ((List.lookup cur st.costSoFar).getD 0 + 1)) = some gx := hx
        rw [lookup_setk_other _ _ _ _ hxe] at h3
        exact h3
      rcases hni x gx hxex hx2 with ⟨e, he, hee, hep⟩ | hr
      · exact Or.inl ⟨e, List.mem_append_left _ he, hee, hep⟩
      · right
        intro m hm
        obtain ⟨gm, hgm, hb⟩ := hr m hm
        by_cases hme : m = n
        · have hV : (List.lookup cur st.costSoFar).getD 0 + 1 ≤ gx + 1 := by
            rw [Bool.or_eq_true] at hcond
            rcases hcond with h4 | h4
            · rw [hme] at hgm
              rw [hgm] at h4
              simp at h4
            · rw [decide_eq_true_eq] at h4
              rw [hme] at hgm
              rw [hgm] at h4
              simp only [Option.getD_some] at h4
              omega
          refine ⟨(List.lookup cur st.costSoFar).getD 0 + 1, ?_, hV⟩
          rw [hme]
          exact lookup_setk_self _ _ _
        · exact ⟨gm, by rw [lookup_setk_other _ _ _ _ hme]; exact hgm, hb⟩
  · have hst : aRelax1 goal cur n st = st := by
      unfold aRelax1
      rw [if_neg hcond]
    rw [hst]
    exact hni

theorem aRelax1_lookup_other (goal cur n : Pos) (st : AState) (x : Pos)
    (hx : x ≠ n) :
    List.lookup x (aRelax1 goal cur n st).costSoFar = List.lookup x st.costSoFar := by
  unfold aRelax1
  by_cases hcond : ((List.lookup n st.costSoFar).isNone ||
      decide ((List.lookup cur st.costSoFar).getD 0 + 1 <
        (List.lookup n st.costSoFar).getD 0)) = true
  · rw [if_pos hcond]
    exact lookup_setk_other _ _ _ _ hx
  · rw [if_neg hcond]

/-- Folding the relaxation over a list of neighbors of cur preserves both
invariants, appends to the frontier, only lowers costs, leaves every relaxed
neighbor with cost at most gcur + 1, leaves other cells' costs untouched, and
does not increase the measure. -/
theorem aRelax_fold (g : Grid) (s goal cur ex : Pos) :
    ∀ (ns : List Pos) (st : AState), AInvCore g s goal st →
      ANodeInvX g goal ex st →
      ∀ gcur, List.lookup cur st.costSoFar = some gcur →
      (∀ n ∈ ns, n ∈ neighbors g cur) →
      AInvCore g s goal (ns.foldl (fun st n => aRelax1 goal cur n st) st) ∧
      ANodeInvX g goal ex (ns.foldl (fun st n => aRelax1 goal cur n st) st) ∧
      st.counter ≤ (ns.foldl (fun st n => aRelax1 goal cur n st) st).counter ∧
      (∀ x gx, List.lookup x st.costSoFar = some gx →
        ∃ gx2, List.lookup x
          (ns.foldl (fun st n => aRelax1 goal cur n st) st).costSoFar = some gx2 ∧
          gx2 ≤ gx) ∧
      (∃ extra, (ns.foldl (fun st n => aRelax1 goal cur n st) st).frontier =
        st.frontier ++ extra) ∧
      (∀ n ∈ ns, ∃ gn, List.lookup n
        (ns.foldl (fun st n => aRelax1 goal cur n st) st).costSoFar = some gn ∧
        gn ≤ gcur + 1) ∧
      phiA (g.rows * g.cols + 1) (ns.foldl (fun st n => aRelax1 goal cur n st) st) ≤
        phiA (g.rows * g.cols + 1) st ∧
      (∀ x : Pos, x ∉ ns → List.lookup x
        (ns.foldl (fun st n => aRelax1 goal cur n st) st).costSoFar =
        List.lookup x st.costSoFar)
  | [] => by
    intro st inv hni gcur hc _
    simp only [List.foldl_nil]
    refine ⟨inv, hni, le_refl _, fun x gx hx => ⟨gx, hx, le_refl _⟩,
      ⟨[], (List.append_nil _).symm⟩, fun n hn => absurd hn (List.not_mem_nil _),
      le_refl _, fun x _ => ?_⟩
    trivial
  | n :: rest => by
    intro st inv hni gcur hc hmem
    simp only [List.foldl_cons]
    obtain ⟨inv1, hcnt1, hmono1, ⟨ex1, hex1⟩, ⟨gn1, hgn1, hgn1le⟩, hphi1⟩ :=
      aRelax1_core g s goal cur n st inv gcur hc (hmem n (List.mem_cons_self _ _))
    have hni1 := aRelax1_nodeInvX g goal ex cur n st hni
    obtain ⟨gcur1, hgcur1, hgcur1le⟩ := hmono1 cur gcur hc
    obtain ⟨inv2, hni2, hcnt2, hmono2, ⟨ex2, hex2⟩, hrest, hphi2, hsame2⟩ :=
      aRelax_fold g s goal cur ex rest (aRelax1 goal cur n st) inv1 hni1 gcur1
        hgcur1 (fun m hm => hmem m (List.mem_cons_of_mem _ hm))
    refine ⟨inv2, hni2, le_trans hcnt1 hcnt2, ?_, ⟨ex1 ++ ex2, ?_⟩, ?_,
      le_trans hphi2 hphi1, ?_⟩
    · intro x gx hx
      obtain ⟨g1, hg1, hle1⟩ := hmono1 x gx hx
      obtain ⟨g2, hg2, hle2⟩ := hmono2 x g1 hg1
      exact ⟨g2, hg2, le_trans hle2 hle1⟩
    · rw [hex2, hex1, List.append_assoc]
    · intro m hm
      rcases List.mem_cons.mp hm with he | hm2
      · obtain ⟨g2, hg2, hle2⟩ := hmono2 m gn1 (he ▸ hgn1)
        exact ⟨g2, hg2, by omega⟩
      · obtain ⟨gm, hgm, hgmle⟩ := hrest m hm2
        exact ⟨gm, hgm, by omega⟩
    · intro x hx
      have hxn : x ≠ n := fun he => hx (he ▸ List.mem_cons_self _ _)
      have hxr : x ∉ rest := fun h2 => hx (List.mem_cons_of_mem _ h2)
      rw [hsame2 x hxr, aRelax1_lookup_other goal cur n st x hxn]

theorem aentry_erase_len : ∀ (l : List AEntry) (e : AEntry), e ∈ l →
    (l.erase e).length + 1 = l.length := by
  intro l e
  induction l with
  | nil =>
    intro h
    simp at h
  | cons a as ih =>
    intro h
    by_cases he : a = e
    · rw [List.erase_cons, if_pos (by rw [beq_iff_eq]; exact he)]
      simp
    · rw [List.erase_cons, if_neg (by rw [beq_iff_eq]; exact he)]
      simp only [List.length_cons]
      have h2 : e ∈ as := by
        rcases List.mem_cons.mp h with h3 | h3
        · exact absurd h3.symm he
        · exact h3
      have h3 := ih h2
      omega

theorem aInvCore_erase (g : Grid) (s goal : Pos) (st : AState)
    (inv : AInvCore g s goal st) (e : AEntry) :
    AInvCore g s goal ⟨st.frontier.erase e, st.cameFrom, st.costSoFar, st.counter⟩ := by
  apply aInvCore_mk
  · exact inv.csKeys
  · exact inv.cfKeys
  · exact inv.csTocf
  · exact inv.cfTocs
  · exact inv.sCost
  · exact inv.sCF
  · exact inv.linkInv
  · exact inv.gBound
  · exact fun e2 he2 => inv.frontDom e2 (List.mem_of_mem_erase he2)
  · exact fun e2 he2 => inv.frontCnt e2 (List.mem_of_mem_erase he2)
  · exact List.Nodup.sublist (List.Sublist.map _ (List.erase_sublist _ _)) inv.cntNodup
  · exact inv.domB
  · exact fun e2 he2 => inv.priOK e2 (List.mem_of_mem_erase he2)

theorem aNodeInvX_erase (g : Grid) (goal : Pos) (st : AState)
    (hni : ANodeInv g goal st) (pri cnt : Nat) (cur : Pos) :
    ANodeInvX g goal cur
      ⟨st.frontier.erase (pri, cnt, cur), st.cameFrom, st.costSoFar, st.counter⟩ := by
  intro x gx hxc hx
  rcases hni x gx hx with ⟨e, he, hee, hep⟩ | hr
  · left
    refine ⟨e, ?_, hee, hep⟩
    have hne : e ≠ (pri, cnt, cur) := by
      intro h2
      apply hxc
      rw [← hee, h2]
    exact (List.mem_erase_of_ne hne).mpr he
  · exact Or.inr hr

/-- The A* main loop: with both invariants and enough fuel it terminates messily
never via fuel-out, preserves the invariants to the exit state, keeps start and
goal out of visited_order, and exits either on an exhausted frontier or on
popping the goal. -/
theorem aStarAux_run (g : Grid) (s goal : Pos) :
    ∀ (fuel : Nat) (st : AState) (vo : List Pos),
      AInvCore g s goal st → ANodeInv g goal st →
      phiA (g.rows * g.cols + 1) st < fuel →
      (∀ x ∈ vo, x ≠ s ∧ x ≠ goal) →
      ∃ (stF : AState) (voF : List Pos),
        aStarAux g s goal fuel st vo = some (voF.reverse, stF.cameFrom, stF.counter) ∧
        AInvCore g s goal stF ∧ ANodeInv g goal stF ∧
        (∀ x ∈ voF, x ≠ s ∧ x ≠ goal) ∧
        (stF.frontier = [] ∨
          ∃ pri cnt hr, aPopMin stF.frontier = some ((pri, cnt, goal), hr))
  | 0 => by
    intro st vo _ _ hphi _
    exact absurd hphi (Nat.not_lt_zero _)
  | fuel + 1 => by
    intro st vo inv hni hphi hvo
    rcases hpop : aPopMin st.frontier with _ | ⟨⟨pri, cnt, cur⟩, hrest⟩
    · have hemp : st.frontier = [] := by
        cases hF : st.frontier with
        | nil => rfl
        | cons a as =>
          rw [hF] at hpop
          simp [aPopMin] at hpop
      refine ⟨st, vo, ?_, inv, hni, hvo, Or.inl hemp⟩
      simp only [aStarAux, hpop]
    · obtain ⟨hmem, hre, hmin⟩ := aPopMin_spec st.frontier _ _ hpop
      by_cases hcg : cur = goal
      · refine ⟨st, vo, ?_, inv, hni, hvo,
          Or.inr ⟨pri, cnt, hrest, hcg ▸ hpop⟩⟩
        simp only [aStarAux, hpop]
        rw [if_pos hcg]
      · have inv1 : AInvCore g s goal
            ⟨hrest, st.cameFrom, st.costSoFar, st.counter⟩ := by
          rw [hre]
          exact aInvCore_erase g s goal st inv _
        have hni1 : ANodeInvX g goal cur
            ⟨hrest, st.cameFrom, st.costSoFar, st.counter⟩ := by
          rw [hre]
          exact aNodeInvX_erase g goal st hni pri cnt cur
        have hds : (List.lookup cur st.costSoFar).isSome := inv.frontDom _ hmem
        rcases hcs : List.lookup cur st.costSoFar with _ | gcur
        · rw [hcs] at hds
          simp at hds
        obtain ⟨inv2, hni2X, hcnt2, hmono2, hext2, hnbr2, hphi2, hsame2⟩ :=
          aRelax_fold g s goal cur cur (neighbors g cur)
            ⟨hrest, st.cameFrom, st.costSoFar, st.counter⟩ inv1 hni1 gcur hcs
            (fun m hm => hm)
        have hni2 : ANodeInv g goal
            ((neighbors g cur).foldl (fun st n => aRelax1 goal cur n st)
              ⟨hrest, st.cameFrom, st.costSoFar, st.counter⟩) := by
          intro x gx hx
          by_cases hxc : x = cur
          · right
            rw [hxc] at hx ⊢
            have hcs2 : List.lookup cur
                ((neighbors g cur).foldl (fun st n => aRelax1 goal cur n st)
                  ⟨hrest, st.cameFrom, st.costSoFar, st.counter⟩).costSoFar =
                some gcur := by
              rw [hsame2 cur (not_mem_neighbors_self g cur)]
              exact hcs
            rw [hcs2] at hx
            injection hx with hx
            intro m hm
            obtain ⟨gm, hgm, hb⟩ := hnbr2 m hm
            exact ⟨gm, hgm, by omega⟩
          · exact hni2X x gx hxc hx
        have hlen1 : hrest.length + 1 = st.frontier.length := by
          rw [hre]
          exact aentry_erase_len st.frontier _ hmem
        have hphi1 : phiA (g.rows * g.cols + 1)
            ⟨hrest, st.cameFrom, st.costSoFar, st.counter⟩ + 1 =
            phiA (g.rows * g.cols + 1) st := by
          show hrest.length + (st.costSoFar.map Prod.snd).sum +
              (g.rows * g.cols + 1 - st.costSoFar.length) * (g.rows * g.cols + 1) +
              1 =
            st.frontier.length + (st.costSoFar.map Prod.snd).sum +
              (g.rows * g.cols + 1 - st.costSoFar.length) * (g.rows * g.cols + 1)
          omega
        have hvo2 : ∀ x ∈ (if cur ≠ s ∧ cur ≠ goal then cur :: vo else vo),
            x ≠ s ∧ x ≠ goal := by
          by_cases hg2 : cur ≠ s ∧ cur ≠ goal
          · rw [if_pos hg2]
            intro x hx
            rcases List.mem_cons.mp hx with he | hx2
            · exact he ▸ hg2
            · exact hvo x hx2
          · rw [if_neg hg2]
            exact hvo
        obtain ⟨stF, voF, heq, hinvF, hniF, hvoF, hexitF⟩ :=
          aStarAux_run g s goal fuel
            ((neighbors g cur).foldl (fun st n => aRelax1 goal cur n st)
              ⟨hrest, st.cameFrom, st.costSoFar, st.counter⟩)
            (if cur ≠ s ∧ cur ≠ goal then cur :: vo else vo)
            inv2 hni2 (by omega) hvo2
        refine ⟨stF, voF, ?_, hinvF, hniF, hvoF, hexitF⟩
        simp only [aStarAux, hpop]
        rw [if_neg hcg]
        exact heq

theorem manhattan_self (a : Pos) : manhattan a a = 0 := by
  simp [manhattan]

theorem manhattan_comm (a b : Pos) : manhattan a b = manhattan b a := by
  unfold manhattan
  omega

theorem chain'_get? {R : Pos → Pos → Prop} :
    ∀ (l : List Pos), l.Chain' R →
      ∀ j a b, l.get? j = some a → l.get? (j + 1) = some b → R a b := by
  intro l
  induction l with
  | nil =>
    intro _ j a b h1 _
    simp at h1
  | cons x t ih =>
    intro hch j a b h1 h2
    cases t with
    | nil =>
      cases j with
      | zero => simp [List.get?] at h2
      | succ j2 => simp [List.get?] at h1
    | cons y t2 =>
      rw [List.chain'_cons] at hch
      obtain ⟨hxy, hch2⟩ := hch
      cases j with
      | zero =>
        simp only [List.get?, Option.some.injEq] at h1 h2
        rw [← h1, ← h2]
        exact hxy
      | succ j2 =>
        simp only [List.get?] at h1 h2
        exact ih hch2 j2 a b h1 h2

theorem getLast?_get? :
    ∀ (l : List Pos) (t : Pos), l.getLast? = some t →
      l.get? (l.length - 1) = some t := by
  intro l
  induction l with
  | nil =>
    intro t h
    simp at h
  | cons a as ih =>
    intro t h
    cases as with
    | nil =>
      simp only [List.getLast?_singleton, Option.some.injEq] at h
      simp [List.get?, h]
    | cons b bs =>
      rw [List.getLast?_cons_cons] at h
      have h2 := ih t h
      simp only [List.length_cons, Nat.add_sub_cancel] at h2 ⊢
      simp only [List.get?]
      exact h2

/-- The cut argument: while both invariants hold, any path from start to goal
either certifies a recorded goal cost of at most its edge count, or meets a
frontier entry with priority at most its edge count. -/
theorem aStar_walk (g : Grid) (s goal : Pos) (st : AState)
    (inv : AInvCore g s goal st) (hni : ANodeInv g goal st)
    (P : List Pos) (hP : isPath g s goal P) :
    (∃ gg, List.lookup goal st.costSoFar = some gg ∧ gg + 1 ≤ P.length) ∨
    (∃ e ∈ st.frontier, e.1 + 1 ≤ P.length) := by
  obtain ⟨hhead, hlast, hchain⟩ := hP
  have hget0 : P.get? 0 = some s := by
    cases P with
    | nil => simp at hhead
    | cons a t =>
      simp only [List.head?_cons, Option.some.injEq] at hhead
      simp [List.get?, hhead]
  have hlastg : P.get? (P.length - 1) = some goal := getLast?_get? P goal hlast
  have hlen1 : 1 ≤ P.length := by
    cases P with
    | nil => simp at hhead
    | cons a t => simp
  have hidx : ∀ d j vj, P.length - 1 - j = d → P.get? j = some vj →
      manhattan goal vj ≤ P.length - 1 - j := by
    intro d
    induction d with
    | zero =>
      intro j vj hd hv
      obtain ⟨hjb, _⟩ := List.get?_eq_some.mp hv
      have hj2 : j = P.length - 1 := by omega
      rw [hj2, hlastg] at hv
      injection hv with hv
      rw [← hv, manhattan_self]
      omega
    | succ d ih =>
      intro j vj hd hv
      obtain ⟨hjb, _⟩ := List.get?_eq_some.mp hv
      have hj1 : j + 1 < P.length := by omega
      obtain ⟨v1, hv1⟩ : ∃ v1, P.get? (j + 1) = some v1 :=
        ⟨_, List.get?_eq_get hj1⟩
      have hnb : v1 ∈ neighbors g vj := chain'_get? P hchain j vj v1 hv hv1
      have hih := ih (j + 1) v1 (by omega) hv1
      have hms := manhattan_step g goal vj v1 hnb
      have he1 : manhattan goal vj = manhattan vj goal := manhattan_comm _ _
      have he2 : manhattan goal v1 = manhattan v1 goal := manhattan_comm _ _
      omega
  have hmain : ∀ j vj, j < P.length → P.get? j = some vj →
      (∃ gj, List.lookup vj st.costSoFar = some gj ∧ gj ≤ j) ∨
      (∃ e ∈ st.frontier, e.1 + 1 ≤ P.length) := by
    intro j
    induction j with
    | zero =>
      intro vj _ hv
      rw [hget0] at hv
      injection hv with hv
      exact Or.inl ⟨0, by rw [← hv]; exact inv.sCost, le_refl _⟩
    | succ j ih =>
      intro vj hjb hv
      have hjb0 : j < P.length := by omega
      obtain ⟨vj0, hv0⟩ : ∃ v0, P.get? j = some v0 := ⟨_, List.get?_eq_get hjb0⟩
      rcases ih vj0 hjb0 hv0 with ⟨gj, hgj, hle⟩ | hr
      · rcases hni vj0 gj hgj with ⟨e, he, hee, hep⟩ | hexp
        · right
          refine ⟨e, he, ?_⟩
          have hh := hidx (P.length - 1 - j) j vj0 rfl hv0
          omega
        · left
          have hnb : vj ∈ neighbors g vj0 := chain'_get? P hchain j vj0 vj hv0 hv
          obtain ⟨gm, hgm, hb⟩ := hexp vj hnb
          exact ⟨gm, hgm, by omega⟩
      · exact Or.inr hr
  rcases hmain (P.length - 1) goal (by omega) hlastg with ⟨gg, hgg, hle⟩ | hr
  · exact Or.inl ⟨gg, hgg, by omega⟩
  · exact Or.inr hr

/-- Every cell with a recorded cost has an intact predecessor chain back to
the start forming a grid path with at most that many edges. -/
theorem aStar_chain (g : Grid) (s goal : Pos) (st : AState)
    (inv : AInvCore g s goal st) :
    ∀ gx x, List.lookup x st.costSoFar = some gx →
      ∃ p, CFReach st.cameFrom s x p ∧ isPath g s x (s :: p) ∧ p.length ≤ gx := by
  intro gx
  induction gx using Nat.strong_induction_on with
  | _ gx ih =>
    intro x hx
    by_cases hxs : x = s
    · refine ⟨[], ?_, ?_, by simp⟩
      · rw [hxs]
        exact CFReach.base
      · rw [hxs]
        exact isPath_single g s
    · have hcf : (List.lookup x st.cameFrom).isSome :=
        inv.csTocf x (by rw [hx]; rfl)
      rcases hv : List.lookup x st.cameFrom with _ | v
      · rw [hv] at hcf
        simp at hcf
      · obtain ⟨c, gx2, gc, hveq, hgx2, hgc, hnb, hlt⟩ := inv.linkInv x v hxs hv
        rw [hx] at hgx2
        injection hgx2 with hgx2
        obtain ⟨p, hreach, hpath, hlen⟩ := ih gc (by omega) c hgc
        refine ⟨p ++ [x], ?_, ?_, ?_⟩
        · refine CFReach.step x c p hxs ?_ hreach
          rw [hv, hveq]
          rfl
        · have h2 := isPath_snoc g s c x (s :: p) hpath hnb
          simpa using h2
        · simp only [List.length_append, List.length_singleton]
          omega

/-- At either exit of the A* loop, any start-goal path certifies a recorded
goal cost of at most its edge count. -/
theorem aStar_exit_goal_cost (g : Grid) (s goal : Pos) (st : AState)
    (inv : AInvCore g s goal st) (hni : ANodeInv g goal st) (hsg : s ≠ goal)
    (hexit : st.frontier = [] ∨
      ∃ pri cnt hr, aPopMin st.frontier = some ((pri, cnt, goal), hr))
    (P : List Pos) (hP : isPath g s goal P) :
    ∃ gg, List.lookup goal st.costSoFar = some gg ∧ gg + 1 ≤ P.length := by
  rcases aStar_walk g s goal st inv hni P hP with h | ⟨e, he, hle⟩
  · exact h
  · rcases hexit with hemp | ⟨pri, cnt, hr, hpop⟩
    · rw [hemp] at he
      simp at he
    · obtain ⟨hmem, _, hmin⟩ := aPopMin_spec st.frontier _ _ hpop
      have h2 := hmin e he
      simp only [aLT, Bool.or_eq_false_iff, Bool.and_eq_false_iff,
        decide_eq_false_iff_not] at h2
      have hprile : pri ≤ e.1 := by
        have h3 := h2.1
        omega
      rcases inv.priOK (pri, cnt, goal) hmem with hgs | ⟨ge, hge, hgele⟩
      · exact absurd hgs.symm hsg
      · refine ⟨ge, hge, ?_⟩
        have hms : manhattan goal goal = 0 := manhattan_self _
        have hgele2 : ge + manhattan goal goal ≤ pri := hgele
        omega

/-- Running the embedded a_star_search from any counter start: it terminates
with both invariants at the exit state, visited_order free of start and goal,
and the loop left only by frontier exhaustion or by popping the goal. -/
theorem aStar_spec (g : Grid) (s goal : Pos) (c0 : Nat) :
    ∃ (stF : AState) (voF : List Pos),
      aStar g s goal c0 = some (voF.reverse, stF.cameFrom, stF.counter) ∧
      AInvCore g s goal stF ∧ ANodeInv g goal stF ∧
      (∀ x ∈ voF, x ≠ s ∧ x ≠ goal) ∧
      (stF.frontier = [] ∨
        ∃ pri cnt hr, aPopMin stF.frontier = some ((pri, cnt, goal), hr)) := by
  have hinit := aInvCore_init g s goal c0
  have hni0 : ANodeInv g goal ⟨[(0, c0, s)], [(s, none)], [(s, 0)], c0 + 1⟩ := by
    intro x gx hx
    left
    simp only [List.lookup_cons, List.lookup_nil] at hx
    rcases hbe : x == s with _ | _
    · rw [hbe] at hx
      simp at hx
    · rw [hbe] at hx
      injection hx with hx
      have hxs := eq_of_beq hbe
      refine ⟨(0, c0, s), List.mem_singleton_self _, hxs.symm, ?_⟩
      omega
  have hphi : phiA (g.rows * g.cols + 1)
      ⟨[(0, c0, s)], [(s, none)], [(s, 0)], c0 + 1⟩ <
      (g.rows * g.cols + 1) * (g.rows * g.cols + 1) + 2 := by
    show 1 + ([((s : Pos), (0 : Nat))].map Prod.snd).sum +
        (g.rows * g.cols + 1 - 1) * (g.rows * g.cols + 1) <
      (g.rows * g.cols + 1) * (g.rows * g.cols + 1) + 2
    have h1 : (g.rows * g.cols + 1 - 1) * (g.rows * g.cols + 1) ≤
        (g.rows * g.cols + 1) * (g.rows * g.cols + 1) :=
      Nat.mul_le_mul_right _ (by omega)
    simp only [List.map_cons, List.map_nil, List.sum_cons, List.sum_nil]
    omega
  obtain ⟨stF, voF, heq, h1, h2, h3, h4⟩ :=
    aStarAux_run g s goal ((g.rows * g.cols + 1) * (g.rows * g.cols + 1) + 2)
      ⟨[(0, c0, s)], [(s, none)], [(s, 0)], c0 + 1⟩ [] hinit hni0 hphi (by simp)
  exact ⟨stF, voF, heq, h1, h2, h3, h4⟩

/-- A* on a reachable goal: the run succeeds, the goal has a came_from entry,
and reconstruct_path yields a shortest path (start excluded, as the source
returns it); start and goal never appear in visited_order. -/
theorem aStar_found (g : Grid) (s goal : Pos) (c0 : Nat) (hsg : s ≠ goal)
    (hreach : ∃ p, isPath g s goal p) :
    ∃ vo cf cnt q,
      aStar g s goal c0 = some (vo, cf, cnt) ∧
      (List.lookup goal cf).isSome = true ∧
      reconstructPathRun cf s goal = q ∧
      isPath g s goal (s :: q) ∧
      (∀ P, isPath g s goal P → q.length + 1 ≤ P.length) ∧
      goal ∉ vo ∧ s ∉ vo := by
  obtain ⟨stF, voF, heq, inv, hni, hvo, hexit⟩ := aStar_spec g s goal c0
  obtain ⟨P0, hP0⟩ := hreach
  obtain ⟨gg, hgg, _⟩ := aStar_exit_goal_cost g s goal stF inv hni hsg hexit P0 hP0
  obtain ⟨p, hreach2, hpath, hplen⟩ := aStar_chain g s goal stF inv gg goal hgg
  refine ⟨voF.reverse, stF.cameFrom, stF.counter, p, heq, ?_, ?_, hpath, ?_, ?_, ?_⟩
  · exact inv.csTocf goal (by rw [hgg]; rfl)
  · exact reconstructPathRun_intact stF.cameFrom s goal p hreach2
  · intro P hP
    obtain ⟨gg2, hgg2, hle2⟩ :=
      aStar_exit_goal_cost g s goal stF inv hni hsg hexit P hP
    rw [hgg] at hgg2
    injection hgg2 with hgg2
    omega
  · intro h
    exact (hvo goal (List.mem_reverse.mp h)).2 rfl
  · intro h
    exact (hvo s (List.mem_reverse.mp h)).1 rfl

/-- A* on an unreachable goal: the run still terminates and the goal has no
came_from entry, so run_algorithm reports no path. -/
theorem aStar_unreachable (g : Grid) (s goal : Pos) (c0 : Nat)
    (h : ¬ ∃ p, isPath g s goal p) :
    ∃ vo cf cnt, aStar g s goal c0 = some (vo, cf, cnt) ∧
      List.lookup goal cf = none := by
  obtain ⟨stF, voF, heq, inv, hni, hvo, hexit⟩ := aStar_spec g s goal c0
  refine ⟨voF.reverse, stF.cameFrom, stF.counter, heq, ?_⟩
  rcases hcf : List.lookup goal stF.cameFrom with _ | v
  · rfl
  · have hcs : (List.lookup goal stF.costSoFar).isSome :=
      inv.cfTocs goal (by rw [hcf]; rfl)
    rcases hcs2 : List.lookup goal stF.costSoFar with _ | gg
    · rw [hcs2] at hcs
      simp at hcs
    · obtain ⟨p, _, hpath, _⟩ := aStar_chain g s goal stF inv gg goal hcs2
      exact absurd ⟨s :: p, hpath⟩ h

/-! ### Greedy best-first search invariants -/

/-- One push step of greedy_best_first_search on a single neighbor. -/
def gRelax1 (goal cur n : Pos) (st : AState) : AState :=
  if (List.lookup n st.cameFrom).isNone then
    { frontier := st.frontier ++ [(manhattan goal n, st.counter, n)],
      cameFrom := setk st.cameFrom n (some cur),
      costSoFar := st.costSoFar,
      counter := st.counter + 1 }
  else st

theorem gRelax_eq_foldl (g : Grid) (goal cur : Pos) (ns : List Pos) (st : AState) :
    gRelax g goal cur ns st = ns.foldl (fun st n => gRelax1 goal cur n st) st := rfl

/-- Greedy termination measure: frontier size plus remaining dictionary
capacity. -/
def phiG (M : Nat) (st : AState) : Nat :=
  st.frontier.length + (M - st.cameFrom.length)

/-- The greedy loop invariant, with a ghost discovery rank rk bounded by R and
an optional exception cell (the one being expanded) for the node condition. -/
structure GInvX (g : Grid) (s goal : Pos) (ex : Option Pos) (rk : Pos → Nat)
    (R : Nat) (st : AState) : Prop where
  cfKeys : (st.cameFrom.map Prod.fst).Nodup
  sCF : List.lookup s st.cameFrom = some none
  linkInv : ∀ x v, x ≠ s → List.lookup x st.cameFrom = some v →
      ∃ c, v = some c ∧ (List.lookup c st.cameFrom).isSome ∧ x ∈ neighbors g c ∧
        rk c < rk x
  rkBound : ∀ x, (List.lookup x st.cameFrom).isSome → rk x < R
  frontCF : ∀ e ∈ st.frontier, (List.lookup e.2.2 st.cameFrom).isSome
  fNodes : (st.frontier.map (fun e => e.2.2)).Nodup
  domB : ∀ x, (List.lookup x st.cameFrom).isSome → x = s ∨ inBounds g x = true
  nodeInv : ∀ x, some x ≠ ex → (List.lookup x st.cameFrom).isSome →
      (∃ e ∈ st.frontier, e.2.2 = x) ∨
      (∀ m ∈ neighbors g x, (List.lookup m st.cameFrom).isSome)

theorem gInvX_mk (g : Grid) (s goal : Pos) (ex : Option Pos) (rk : Pos → Nat)
    (R : Nat) (F : List AEntry) (cf : CameFrom) (cs : List (Pos × Nat)) (cnt : Nat)
    (h1 : (cf.map Prod.fst).Nodup)
    (h2 : List.lookup s cf = some none)
    (h3 : ∀ x v, x ≠ s → List.lookup x cf = some v →
        ∃ c, v = some c ∧ (List.lookup c cf).isSome ∧ x ∈ neighbors g c ∧
          rk c < rk x)
    (h4 : ∀ x, (List.lookup x cf).isSome → rk x < R)
    (h5 : ∀ e ∈ F, (List.lookup e.2.2 cf).isSome)
    (h6 : (F.map (fun e => e.2.2)).Nodup)
    (h7 : ∀ x, (List.lookup x cf).isSome → x = s ∨ inBounds g x = true)
    (h8 : ∀ x, some x ≠ ex → (List.lookup x cf).isSome →
        (∃ e ∈ F, e.2.2 = x) ∨
        (∀ m ∈ neighbors g x, (List.lookup m cf).isSome)) :
    GInvX g s goal ex rk R ⟨F, cf, cs, cnt⟩ :=
  ⟨h1, h2, h3, h4, h5, h6, h7, h8⟩

theorem gInvX_cf_len (g : Grid) (s goal : Pos) (ex : Option Pos) (rk : Pos → Nat)
    (R : Nat) (st : AState) (inv : GInvX g s goal ex rk R st) :
    st.cameFrom.length ≤ g.rows * g.cols + 1 := by
  have h2 : (st.cameFrom.map Prod.fst).length ≤ g.rows * g.cols + 1 := by
    apply bounded_pos_length g s _ inv.cfKeys
    intro x hx
    exact inv.domB x (mem_keys_isSome _ _ hx)
  simpa using h2

/-- One greedy push step: invariant preservation (with a fresh ghost rank),
frontier append, key growth, the relaxed neighbor keyed, measure preserved. -/
theorem gRelax1_step (g : Grid) (s goal cur n : Pos) (ex : Option Pos)
    (rk : Pos → Nat) (R : Nat) (st : AState)
    (inv : GInvX g s goal ex rk R st)
    (hcur : (List.lookup cur st.cameFrom).isSome)
    (hn : n ∈ neighbors g cur) :
    ∃ rk2 R2, GInvX g s goal ex rk2 R2 (gRelax1 goal cur n st) ∧
      R ≤ R2 ∧
      (∀ z, (List.lookup z st.cameFrom).isSome →
        (List.lookup z (gRelax1 goal cur n st).cameFrom).isSome) ∧
      (∃ extra, (gRelax1 goal cur n st).frontier = st.frontier ++ extra) ∧
      (∀ e ∈ (gRelax1 goal cur n st).frontier, e ∈ st.frontier ∨
        List.lookup e.2.2 st.cameFrom = none) ∧
      (List.lookup n (gRelax1 goal cur n st).cameFrom).isSome ∧
      phiG (g.rows * g.cols + 1) (gRelax1 goal cur n st) ≤
        phiG (g.rows * g.cols + 1) st ∧
      st.counter ≤ (gRelax1 goal cur n st).counter := by
  have hinb : inBounds g n = true := by
    have hn2 := hn
    rw [mem_neighbors_iff] at hn2
    have h2 := hn2.2
    unfold openCell at h2
    simp only [Bool.and_eq_true] at h2
    exact h2.1
  by_cases hcond : (List.lookup n st.cameFrom).isNone = true
  · -- fresh: pushed and recorded
    rw [Option.isNone_iff_eq_none] at hcond
    have hns : n ≠ s := by
      intro he
      rw [he, inv.sCF] at hcond
      exact Option.noConfusion hcond
    have hst : gRelax1 goal cur n st =
        ⟨st.frontier ++ [(manhattan goal n, st.counter, n)],
          setk st.cameFrom n (some cur), st.costSoFar, st.counter + 1⟩ := by
      unfold gRelax1
      rw [if_pos (by rw [Option.isNone_iff_eq_none]; exact hcond)]
    rw [hst]
    have happend : setk st.cameFrom n (some cur) = st.cameFrom ++ [(n, some cur)] :=
      setk_absent_append st.cameFrom n (some cur) hcond
    have hlookupN : List.lookup n (setk st.cameFrom n (some cur)) =
        some (some cur) := lookup_setk_self _ _ _
    have hlookupO : ∀ x : Pos, x ≠ n →
        List.lookup x (setk st.cameFrom n (some cur)) = List.lookup x st.cameFrom :=
      fun x hx => lookup_setk_other _ _ _ _ hx
    have hkeep : ∀ z, (List.lookup z st.cameFrom).isSome →
        (List.lookup z (setk st.cameFrom n (some cur))).isSome := by
      intro z hz
      by_cases hzn : z = n
      · rw [hzn, hlookupN]
        rfl
      · rw [hlookupO z hzn]
        exact hz
    have hinv2 : GInvX g s goal ex (fun z => if z = n then R else rk z) (R + 1)
        ⟨st.frontier ++ [(manhattan goal n, st.counter, n)],
          setk st.cameFrom n (some cur), st.costSoFar, st.counter + 1⟩ := by
      apply gInvX_mk
      · exact setk_keys_nodup _ _ _ inv.cfKeys
      · rw [hlookupO s (fun h2 => hns h2.symm)]
        exact inv.sCF
      · intro x v hx hv
        by_cases hxe : x = n
        · rw [hxe] at hv ⊢
          rw [hlookupN] at hv
          injection hv with hv
          refine ⟨cur, hv.symm, ?_, hn, ?_⟩
          · exact hkeep cur hcur
          · have hcn : cur ≠ n := by
              intro he
              rw [he, hcond] at hcur
              exact absurd hcur (by simp)
            rw [if_neg hcn, if_pos rfl]
            exact inv.rkBound cur hcur
        · rw [hlookupO x hxe] at hv
          obtain ⟨c, hveq, hckey, hcnb, hrk⟩ := inv.linkInv x v hx hv
          have hcn : c ≠ n := by
            intro he
            rw [he, hcond] at hckey
            exact absurd hckey (by simp)
          refine ⟨c, hveq, hkeep c hckey, hcnb, ?_⟩
          rw [if_neg hcn, if_neg hxe]
          exact hrk
      · intro x hx
        by_cases hxe : x = n
        · rw [if_pos hxe]
          omega
        · rw [if_neg hxe]
          rw [hlookupO x hxe] at hx
          have := inv.rkBound x hx
          omega
      · intro e he
        rcases List.mem_append.mp he with he | he
        · exact hkeep _ (inv.frontCF e he)
        · rw [List.mem_singleton] at he
          rw [he]
          have h3 : (List.lookup n (setk st.cameFrom n (some cur))).isSome := by
            rw [hlookupN]
            rfl
          exact h3
      · rw [List.map_append]
        apply List.Nodup.append inv.fNodes
        · show List.Nodup [n]
          exact List.nodup_singleton _
        · intro a ha hb
          have hb2 : a = n := by
            have h3 : a ∈ [n] := hb
            rw [List.mem_singleton] at h3
            exact h3
          rw [List.mem_map] at ha
          obtain ⟨e, he, hea⟩ := ha
          have h4 := inv.frontCF e he
          rw [hea, hb2, hcond] at h4
          exact absurd h4 (by simp)
      · intro x hx
        by_cases hxe : x = n
        · rw [hxe]
          exact Or.inr hinb
        · rw [hlookupO x hxe] at hx
          exact inv.domB x hx
      · intro x hxex hx
        by_cases hxe : x = n
        · left
          exact ⟨(manhattan goal n, st.counter, n),
            List.mem_append_right _ (List.mem_singleton_self _), hxe.symm⟩
        · rw [hlookupO x hxe] at hx
          rcases inv.nodeInv x hxex hx with ⟨e, he, hee⟩ | hr
          · exact Or.inl ⟨e, List.mem_append_left _ he, hee⟩
          · exact Or.inr fun m hm => hkeep m (hr m hm)
    refine ⟨fun z => if z = n then R else rk z, R + 1, hinv2, by omega, hkeep,
      ⟨[(manhattan goal n, st.counter, n)], rfl⟩, ?_, ?_, ?_, Nat.le_succ _⟩
    · intro e he
      rcases List.mem_append.mp he with he2 | he2
      · exact Or.inl he2
      · rw [List.mem_singleton] at he2
        rw [he2]
        exact Or.inr hcond
    · have h3 : (List.lookup n (setk st.cameFrom n (some cur))).isSome := by
        rw [hlookupN]
        rfl
      exact h3
    · have hlen2 : (setk st.cameFrom n (some cur)).length = st.cameFrom.length + 1 := by
        rw [happend]
        simp
      have hlenM := gInvX_cf_len g s goal ex _ _ _ hinv2
      have hlenM2 : (setk st.cameFrom n (some cur)).length ≤ g.rows * g.cols + 1 :=
        hlenM
      show (st.frontier ++ [(manhattan goal n, st.counter, n)]).length +
          (g.rows * g.cols + 1 - (setk st.cameFrom n (some cur)).length) ≤
        st.frontier.length + (g.rows * g.cols + 1 - st.cameFrom.length)
      rw [List.length_append, hlen2]
      simp only [List.length_singleton]
      omega
  · -- already discovered: no write
    have hst : gRelax1 goal cur n st = st := by
      unfold gRelax1
      rw [if_neg hcond]
    rw [hst]
    refine ⟨rk, R, inv, le_refl _, fun z hz => hz, ⟨[], (List.append_nil _).symm⟩,
      fun e he => Or.inl he, ?_, le_refl _, le_refl _⟩
    rw [Bool.not_eq_true, Option.isNone_eq_false_iff] at hcond
    exact hcond


theorem gRelax_fold (g : Grid) (s goal cur : Pos) (ex : Option Pos) :
    ∀ (ns : List Pos) (st : AState) (rk : Pos → Nat) (R : Nat),
      GInvX g s goal ex rk R st →
      (List.lookup cur st.cameFrom).isSome →
      (∀ n ∈ ns, n ∈ neighbors g cur) →
      ∃ rk2 R2,
        GInvX g s goal ex rk2 R2 (ns.foldl (fun st n => gRelax1 goal cur n st) st) ∧
        R ≤ R2 ∧
        (∀ z, (List.lookup z st.cameFrom).isSome →
          (List.lookup z
            (ns.foldl (fun st n => gRelax1 goal cur n st) st).cameFrom).isSome) ∧
        (∃ extra, (ns.foldl (fun st n => gRelax1 goal cur n st) st).frontier =
          st.frontier ++ extra) ∧
        (∀ e ∈ (ns.foldl (fun st n => gRelax1 goal cur n st) st).frontier,
          e ∈ st.frontier ∨ List.lookup e.2.2 st.cameFrom = none) ∧
        (∀ n ∈ ns, (List.lookup n
          (ns.foldl (fun st n => gRelax1 goal cur n st) st).cameFrom).isSome) ∧
        phiG (g.rows * g.cols + 1) (ns.foldl (fun st n => gRelax1 goal cur n st) st) ≤
          phiG (g.rows * g.cols + 1) st ∧
        st.counter ≤ (ns.foldl (fun st n => gRelax1 goal cur n st) st).counter
  | [] => by
    intro st rk R inv hcur _
    simp only [List.foldl_nil]
    exact ⟨rk, R, inv, le_refl _, fun z hz => hz, ⟨[], (List.append_nil _).symm⟩,
      fun e he => Or.inl he, fun n hn => absurd hn (List.not_mem_nil _),
      le_refl _, le_refl _⟩
  | n :: rest => by
    intro st rk R inv hcur hmem
    simp only [List.foldl_cons]
    obtain ⟨rk1, R1, inv1, hR1, hkeep1, ⟨ex1, hex1⟩, hfr1, hn1, hphi1, hcnt1⟩ :=
      gRelax1_step g s goal cur n ex rk R st inv hcur
        (hmem n (List.mem_cons_self _ _))
    obtain ⟨rk2, R2, inv2, hR2, hkeep2, ⟨ex2, hex2⟩, hfr2, hrest2, hphi2, hcnt2⟩ :=
      gRelax_fold g s goal cur ex rest (gRelax1 goal cur n st) rk1 R1 inv1
        (hkeep1 cur hcur) (fun m hm => hmem m (List.mem_cons_of_mem _ hm))
    refine ⟨rk2, R2, inv2, le_trans hR1 hR2, fun z hz => hkeep2 z (hkeep1 z hz),
      ⟨ex1 ++ ex2, ?_⟩, ?_, ?_, le_trans hphi2 hphi1, le_trans hcnt1 hcnt2⟩
    · rw [hex2, hex1, List.append_assoc]
    · intro e he
      rcases hfr2 e he with he2 | he2
      · exact hfr1 e he2
      · right
        rcases hl : List.lookup e.2.2 st.cameFrom with _ | v
        · rfl
        · have h3 := hkeep1 e.2.2 (by rw [hl]; rfl)
          rw [he2] at h3
          exact absurd h3 (by simp)
    · intro m hm
      rcases List.mem_cons.mp hm with he | hm2
      · exact he ▸ hkeep2 n hn1
      · exact hrest2 m hm2

theorem node_not_in_erase (l : List AEntry) (e : AEntry)
    (hnd : (l.map (fun e => e.2.2)).Nodup) (he : e ∈ l) :
    e.2.2 ∉ (l.erase e).map (fun e => e.2.2) := by
  intro hmem2
  rw [List.mem_map] at hmem2
  obtain ⟨e2, he2, hee2⟩ := hmem2
  have hlnd : l.Nodup := List.Nodup.of_map _ hnd
  by_cases hee : e2 = e
  · rw [hee] at he2
    rw [List.Nodup.mem_erase_iff hlnd] at he2
    exact he2.1 rfl
  · have he2' : e2 ∈ l := List.mem_of_mem_erase he2
    exact hee (List.inj_on_of_nodup_map hnd he2' he hee2)

theorem gInvX_erase (g : Grid) (s goal : Pos) (rk : Pos → Nat) (R : Nat)
    (st : AState) (inv : GInvX g s goal none rk R st) (pri cnt : Nat) (cur : Pos) :
    GInvX g s goal (some cur) rk R
      ⟨st.frontier.erase (pri, cnt, cur), st.cameFrom, st.costSoFar, st.counter⟩ := by
  refine ⟨inv.cfKeys, inv.sCF, inv.linkInv, inv.rkBound,
    fun e he => inv.frontCF e (List.mem_of_mem_erase he),
    List.Nodup.sublist (List.Sublist.map _ (List.erase_sublist _ _)) inv.fNodes,
    inv.domB, ?_⟩
  intro x hxex hx
  rcases inv.nodeInv x (by simp) hx with ⟨e, he, hee⟩ | hr
  · left
    refine ⟨e, ?_, hee⟩
    have hne : e ≠ (pri, cnt, cur) := by
      intro h2
      apply hxex
      rw [← hee, h2]
    exact (List.mem_erase_of_ne hne).mpr he
  · exact Or.inr hr

/-- The greedy main loop: terminates within fuel, preserves the invariant,
keeps visited_order duplicate-free and free of start and goal, and exits on
an empty frontier or on popping the goal. -/
theorem greedyAux_run (g : Grid) (s goal : Pos) :
    ∀ (fuel : Nat) (st : AState) (vo : List Pos) (rk : Pos → Nat) (R : Nat),
      GInvX g s goal none rk R st →
      phiG (g.rows * g.cols + 1) st < fuel →
      vo.Nodup →
      (∀ x ∈ vo, (x ≠ s ∧ x ≠ goal) ∧ (List.lookup x st.cameFrom).isSome ∧
        x ∉ st.frontier.map (fun e => e.2.2)) →
      ∃ (stF : AState) (voF : List Pos) (rkF : Pos → Nat) (RF : Nat),
        greedyAux g s goal fuel st vo = some (voF.reverse, stF.cameFrom, stF.counter) ∧
        GInvX g s goal none rkF RF stF ∧
        voF.Nodup ∧ (∀ x ∈ voF, x ≠ s ∧ x ≠ goal) ∧
        (stF.frontier = [] ∨
          ∃ pri cnt hr, aPopMin stF.frontier = some ((pri, cnt, goal), hr))
  | 0 => by
    intro st vo rk R _ hphi _ _
    exact absurd hphi (Nat.not_lt_zero _)
  | fuel + 1 => by
    intro st vo rk R inv hphi hnd hvo
    rcases hpop : aPopMin st.frontier with _ | ⟨⟨pri, cnt, cur⟩, hrest⟩
    · have hemp : st.frontier = [] := by
        cases hF : st.frontier with
        | nil => rfl
        | cons a as =>
          rw [hF] at hpop
          simp [aPopMin] at hpop
      refine ⟨st, vo, rk, R, ?_, inv, hnd, fun x hx => (hvo x hx).1, Or.inl hemp⟩
      simp only [greedyAux, hpop]
    · obtain ⟨hmem, hre, hmin⟩ := aPopMin_spec st.frontier _ _ hpop
      by_cases hcg : cur = goal
      · refine ⟨st, vo, rk, R, ?_, inv, hnd, fun x hx => (hvo x hx).1,
          Or.inr ⟨pri, cnt, hrest, hcg ▸ hpop⟩⟩
        simp only [greedyAux, hpop]
        rw [if_pos hcg]
      · have inv1 : GInvX g s goal (some cur) rk R
            ⟨hrest, st.cameFrom, st.costSoFar, st.counter⟩ := by
          rw [hre]
          exact gInvX_erase g s goal rk R st inv pri cnt cur
        have hcur1 : (List.lookup cur
            (⟨hrest, st.cameFrom, st.costSoFar, st.counter⟩ : AState).cameFrom).isSome :=
          inv.frontCF _ hmem
        obtain ⟨rk2, R2, inv2X, hR2, hkeep2, ⟨ext2, hext2⟩, hfr2, hnbr2, hphi2, hcnt2⟩ :=
          gRelax_fold g s goal cur (some cur) (neighbors g cur)
            ⟨hrest, st.cameFrom, st.costSoFar, st.counter⟩ rk R inv1 hcur1
            (fun m hm => hm)
        have inv2 : GInvX g s goal none rk2 R2
            ((neighbors g cur).foldl (fun st n => gRelax1 goal cur n st)
              ⟨hrest, st.cameFrom, st.costSoFar, st.counter⟩) := by
          refine ⟨inv2X.cfKeys, inv2X.sCF, inv2X.linkInv, inv2X.rkBound,
            inv2X.frontCF, inv2X.fNodes, inv2X.domB, ?_⟩
          intro x _ hx
          by_cases hxc : x = cur
          · right
            rw [hxc]
            intro m hm
            exact hnbr2 m hm
          · exact inv2X.nodeInv x (by simp [hxc]) hx
        have hlen1 : hrest.length + 1 = st.frontier.length := by
          rw [hre]
          exact aentry_erase_len st.frontier _ hmem
        have hphi1 : phiG (g.rows * g.cols + 1)
            ⟨hrest, st.cameFrom, st.costSoFar, st.counter⟩ + 1 =
            phiG (g.rows * g.cols + 1) st := by
          show hrest.length + (g.rows * g.cols + 1 - st.cameFrom.length) + 1 =
            st.frontier.length + (g.rows * g.cols + 1 - st.cameFrom.length)
          omega
        have hnotin2 : ∀ x, x ≠ s → (List.lookup x st.cameFrom).isSome →
            x ∉ hrest.map (fun e => e.2.2) →
            x ∉ ((neighbors g cur).foldl (fun st n => gRelax1 goal cur n st)
              ⟨hrest, st.cameFrom, st.costSoFar, st.counter⟩).frontier.map
                (fun e => e.2.2) := by
          intro x _ hkey hnot1 hmem3
          rw [List.mem_map] at hmem3
          obtain ⟨e, he, hee⟩ := hmem3
          rcases hfr2 e he with he2 | he2
          · apply hnot1
            rw [List.mem_map]
            exact ⟨e, he2, hee⟩
          · rw [hee] at he2
            rw [he2] at hkey
            exact absurd hkey (by simp)
        have hcurvo : cur ∉ vo := by
          intro hc
          have h3 := (hvo cur hc).2.2
          apply h3
          rw [List.mem_map]
          exact ⟨(pri, cnt, cur), hmem, rfl⟩
        have hcurkey : (List.lookup cur st.cameFrom).isSome := inv.frontCF _ hmem
        have hcurrest : cur ∉ hrest.map (fun e => e.2.2) := by
          rw [hre]
          exact node_not_in_erase st.frontier (pri, cnt, cur) inv.fNodes hmem
        have hnd2 : (if cur ≠ s ∧ cur ≠ goal then cur :: vo else vo).Nodup := by
          by_cases hg2 : cur ≠ s ∧ cur ≠ goal
          · rw [if_pos hg2]
            exact List.nodup_cons.mpr ⟨hcurvo, hnd⟩
          · rw [if_neg hg2]
            exact hnd
        have hvo2 : ∀ x ∈ (if cur ≠ s ∧ cur ≠ goal then cur :: vo else vo),
            (x ≠ s ∧ x ≠ goal) ∧
            (List.lookup x ((neighbors g cur).foldl
              (fun st n => gRelax1 goal cur n st)
              ⟨hrest, st.cameFrom, st.costSoFar, st.counter⟩).cameFrom).isSome ∧
            x ∉ ((neighbors g cur).foldl (fun st n => gRelax1 goal cur n st)
              ⟨hrest, st.cameFrom, st.costSoFar, st.counter⟩).frontier.map
                (fun e => e.2.2) := by
          have hold : ∀ x ∈ vo, (x ≠ s ∧ x ≠ goal) ∧
              (List.lookup x ((neighbors g cur).foldl
                (fun st n => gRelax1 goal cur n st)
                ⟨hrest, st.cameFrom, st.costSoFar, st.counter⟩).cameFrom).isSome ∧
              x ∉ ((neighbors g cur).foldl (fun st n => gRelax1 goal cur n st)
                ⟨hrest, st.cameFrom, st.costSoFar, st.counter⟩).frontier.map
                  (fun e => e.2.2) := by
            intro x hx
            obtain ⟨hxsg, hxkey, hxfr⟩ := hvo x hx
            refine ⟨hxsg, hkeep2 x hxkey, ?_⟩
            apply hnotin2 x hxsg.1 hxkey
            intro h4
            apply hxfr
            rw [List.mem_map] at h4 ⊢
            obtain ⟨e, he, hee⟩ := h4
            rw [hre] at he
            exact ⟨e, List.mem_of_mem_erase he, hee⟩
          by_cases hg2 : cur ≠ s ∧ cur ≠ goal
          · rw [if_pos hg2]
            intro x hx
            rcases List.mem_cons.mp hx with he | hx2
            · subst he
              exact ⟨hg2, hkeep2 x hcurkey, hnotin2 x hg2.1 hcurkey hcurrest⟩
            · exact hold x hx2
          · rw [if_neg hg2]
            exact hold
        obtain ⟨stF, voF, rkF, RF, heq, hinvF, hndF, hvoF, hexitF⟩ :=
          greedyAux_run g s goal fuel
            ((neighbors g cur).foldl (fun st n => gRelax1 goal cur n st)
              ⟨hrest, st.cameFrom, st.costSoFar, st.counter⟩)
            (if cur ≠ s ∧ cur ≠ goal then cur :: vo else vo) rk2 R2
            inv2 (by omega) hnd2 hvo2
        refine ⟨stF, voF, rkF, RF, ?_, hinvF, hndF, hvoF, hexitF⟩
        simp only [greedyAux, hpop]
        rw [if_neg hcg]
        exact heq

/-- Greedy predecessor chains: every recorded cell walks back to the start
along a valid grid path (by descent on the ghost rank). -/
theorem greedy_chain (g : Grid) (s goal : Pos) (rk : Pos → Nat) (R : Nat)
    (st : AState) (inv : GInvX g s goal none rk R st) :
    ∀ r x, rk x < r → (List.lookup x st.cameFrom).isSome →
      ∃ p, CFReach st.cameFrom s x p ∧ isPath g s x (s :: p) := by
  intro r
  induction r with
  | zero =>
    intro x hr
    exact absurd hr (Nat.not_lt_zero _)
  | succ r ih =>
    intro x hr hx
    by_cases hxs : x = s
    · refine ⟨[], ?_, ?_⟩
      · rw [hxs]
        exact CFReach.base
      · rw [hxs]
        exact isPath_single g s
    · rcases hv : List.lookup x st.cameFrom with _ | v
      · rw [hv] at hx
        exact absurd hx (by simp)
      · obtain ⟨c, hveq, hckey, hcnb, hrkc⟩ := inv.linkInv x v hxs hv
        obtain ⟨p, hreach, hpath⟩ := ih c (by omega) hckey
        refine ⟨p ++ [x], ?_, ?_⟩
        · refine CFReach.step x c p hxs ?_ hreach
          rw [hv, hveq]
          rfl
        · have h2 := isPath_snoc g s c x (s :: p) hpath hcnb
          simpa using h2

/-- At a greedy exit, a reachable goal has a came_from entry. -/
theorem greedy_goal_keyed (g : Grid) (s goal : Pos) (rk : Pos → Nat) (R : Nat)
    (st : AState) (inv : GInvX g s goal none rk R st)
    (hexit : st.frontier = [] ∨
      ∃ pri cnt hr, aPopMin st.frontier = some ((pri, cnt, goal), hr))
    (P : List Pos) (hP : isPath g s goal P) :
    (List.lookup goal st.cameFrom).isSome := by
  rcases hexit with hemp | ⟨pri, cnt, hr, hpop⟩
  · obtain ⟨hhead, hlast, hchain⟩ := hP
    have hget0 : P.get? 0 = some s := by
      cases P with
      | nil => simp at hhead
      | cons a t =>
        simp only [List.head?_cons, Option.some.injEq] at hhead
        simp [List.get?, hhead]
    have hlastg : P.get? (P.length - 1) = some goal := getLast?_get? P goal hlast
    have hlen1 : 1 ≤ P.length := by
      cases P with
      | nil => simp at hhead
      | cons a t => simp
    have hmain : ∀ j vj, j < P.length → P.get? j = some vj →
        (List.lookup vj st.cameFrom).isSome := by
      intro j
      induction j with
      | zero =>
        intro vj _ hv
        rw [hget0] at hv
        injection hv with hv
        rw [← hv, inv.sCF]
        rfl
      | succ j ih =>
        intro vj hjb hv
        have hjb0 : j < P.length := by omega
        obtain ⟨vj0, hv0⟩ : ∃ v0, P.get? j = some v0 := ⟨_, List.get?_eq_get hjb0⟩
        have hkey0 := ih vj0 hjb0 hv0
        rcases inv.nodeInv vj0 (by simp) hkey0 with ⟨e, he, _⟩ | hexp
        · rw [hemp] at he
          exact absurd he (List.not_mem_nil _)
        · exact hexp vj (chain'_get? P hchain j vj0 vj hv0 hv)
    exact hmain (P.length - 1) goal (by omega) hlastg
  · obtain ⟨hmem, _, _⟩ := aPopMin_spec st.frontier _ _ hpop
    exact inv.frontCF _ hmem

/-- Running the embedded greedy_best_first_search from any counter start. -/
theorem greedy_spec (g : Grid) (s goal : Pos) (c0 : Nat) :
    ∃ (stF : AState) (voF : List Pos) (rkF : Pos → Nat) (RF : Nat),
      greedy g s goal c0 = some (voF.reverse, stF.cameFrom, stF.counter) ∧
      GInvX g s goal none rkF RF stF ∧
      voF.Nodup ∧ (∀ x ∈ voF, x ≠ s ∧ x ≠ goal) ∧
      (stF.frontier = [] ∨
        ∃ pri cnt hr, aPopMin stF.frontier = some ((pri, cnt, goal), hr)) := by
  have hinit : GInvX g s goal none (fun _ => 0) 1
      ⟨[(0, c0, s)], [(s, none)], [], c0 + 1⟩ := by
    refine ⟨by simp, by simp [List.lookup_cons_self], ?_, ?_, ?_, by simp, ?_, ?_⟩
    · intro x v hx hv
      simp only [List.lookup_cons, List.lookup_nil] at hv
      rcases hbe : x == s with _ | _
      · rw [hbe] at hv
        simp at hv
      · exact absurd (eq_of_beq hbe) hx
    · intro x _
      omega
    · intro e he
      rw [List.mem_singleton] at he
      subst he
      simp [List.lookup_cons_self]
    · intro x hx
      simp only [List.lookup_cons, List.lookup_nil] at hx
      rcases hbe : x == s with _ | _
      · rw [hbe] at hx
        simp at hx
      · exact Or.inl (eq_of_beq hbe)
    · intro x _ hx
      simp only [List.lookup_cons, List.lookup_nil] at hx
      rcases hbe : x == s with _ | _
      · rw [hbe] at hx
        simp at hx
      · left
        exact ⟨(0, c0, s), List.mem_singleton_self _, (eq_of_beq hbe).symm⟩
  have hphi : phiG (g.rows * g.cols + 1)
      ⟨[(0, c0, s)], [(s, none)], [], c0 + 1⟩ < g.rows * g.cols + 3 := by
    show 1 + (g.rows * g.cols + 1 - 1) < g.rows * g.cols + 3
    omega
  obtain ⟨stF, voF, rkF, RF, heq, h1, h2, h3, h4⟩ :=
    greedyAux_run g s goal (g.rows * g.cols + 3)
      ⟨[(0, c0, s)], [(s, none)], [], c0 + 1⟩ [] (fun _ => 0) 1 hinit hphi
      List.nodup_nil (by simp)
  exact ⟨stF, voF, rkF, RF, heq, h1, h2, h3, h4⟩

/-- Greedy on a reachable goal: the run succeeds, the goal is recorded, and
reconstruct_path yields a valid (not necessarily shortest) path; the visited
order has no duplicates and excludes start and goal. -/
theorem greedy_found (g : Grid) (s goal : Pos) (c0 : Nat)
    (hreach : ∃ p, isPath g s goal p) :
    ∃ vo cf cnt q,
      greedy g s goal c0 = some (vo, cf, cnt) ∧
      (List.lookup goal cf).isSome = true ∧
      reconstructPathRun cf s goal = q ∧
      isPath g s goal (s :: q) ∧
      vo.Nodup ∧ goal ∉ vo ∧ s ∉ vo := by
  obtain ⟨stF, voF, rkF, RF, heq, inv, hndF, hvoF, hexitF⟩ := greedy_spec g s goal c0
  obtain ⟨P0, hP0⟩ := hreach
  have hkey := greedy_goal_keyed g s goal rkF RF stF inv hexitF P0 hP0
  obtain ⟨p, hreach2, hpath⟩ :=
    greedy_chain g s goal rkF RF stF inv (rkF goal + 1) goal (by omega) hkey
  refine ⟨voF.reverse, stF.cameFrom, stF.counter, p, heq, hkey,
    reconstructPathRun_intact stF.cameFrom s goal p hreach2, hpath,
    List.nodup_reverse.mpr hndF, ?_, ?_⟩
  · intro h
    exact (hvoF goal (List.mem_reverse.mp h)).2 rfl
  · intro h
    exact (hvoF s (List.mem_reverse.mp h)).1 rfl

/-- Greedy on an unreachable goal: terminates with no came_from entry for the
goal, so run_algorithm reports no path. -/
theorem greedy_unreachable (g : Grid) (s goal : Pos) (c0 : Nat)
    (h : ¬ ∃ p, isPath g s goal p) :
    ∃ vo cf cnt, greedy g s goal c0 = some (vo, cf, cnt) ∧
      List.lookup goal cf = none ∧ vo.Nodup := by
  obtain ⟨stF, voF, rkF, RF, heq, inv, hndF, hvoF, hexitF⟩ := greedy_spec g s goal c0
  refine ⟨voF.reverse, stF.cameFrom, stF.counter, heq, ?_, List.nodup_reverse.mpr hndF⟩
  rcases hcf : List.lookup goal stF.cameFrom with _ | v
  · rfl
  · have hkey : (List.lookup goal stF.cameFrom).isSome := by
      rw [hcf]
      rfl
    obtain ⟨p, _, hpath⟩ :=
      greedy_chain g s goal rkF RF stF inv (rkF goal + 1) goal (by omega) hkey
    exact absurd ⟨s :: p, hpath⟩ h

/-- A BFS expansion step never changes the recorded parent of a visited cell
(and every cell with a parent is visited, by the loop invariant). -/
theorem bfsExpand_parent_keep (g : Grid) (cur : Pos) (st : SearchSt) (x v : Pos)
    (hx : List.lookup x st.parent = some v) (hxv : x ∈ st.visited) :
    List.lookup x (bfsExpand g cur st).parent = some v := by
  obtain ⟨q, vis, par⟩ := st
  show List.lookup x ((neighbors g cur).foldl (fun st n =>
    if st.visited.contains n then st
    else ⟨st.queue ++ [n], n :: st.visited, (n, cur) :: st.parent⟩)
    (⟨q, vis, par⟩ : SearchSt)).parent = some v
  rw [bfsExpand_eq g cur (neighbors g cur) (neighbors_nodup g cur) q vis par]
  have hxf : x ∉ ((((neighbors g cur).filter (fun n => ¬ vis.contains n)).map
      (fun n => (n, cur))).reverse).map Prod.fst := by
    intro hmem
    rw [List.mem_map] at hmem
    obtain ⟨pr, hpr, hfst⟩ := hmem
    rw [List.mem_reverse, List.mem_map] at hpr
    obtain ⟨n, hn, hpr2⟩ := hpr
    rw [mem_fresh_iff] at hn
    have hnx : n = x := by
      rw [← hpr2] at hfst
      exact hfst
    exact hn.2 (by rw [hnx]; exact hxv)
  show List.lookup x ((((neighbors g cur).filter (fun n => ¬ vis.contains n)).map
      (fun n => (n, cur))).reverse ++ par) = some v
  rw [lookup_append_right _ _ x hxf]
  exact hx

/-- A DFS expansion step never changes the recorded parent of a visited cell. -/
theorem dfsExpand_parent_keep (g : Grid) (cur : Pos) (st : SearchSt) (x v : Pos)
    (hx : List.lookup x st.parent = some v) (hxv : x ∈ st.visited) :
    List.lookup x (dfsExpand g cur st).parent = some v := by
  obtain ⟨q, vis, par⟩ := st
  show List.lookup x ((neighbors g cur).foldl (fun st n =>
    if st.visited.contains n then st
    else ⟨n :: st.queue, n :: st.visited, (n, cur) :: st.parent⟩)
    (⟨q, vis, par⟩ : SearchSt)).parent = some v
  rw [dfsExpand_eq g cur (neighbors g cur) (neighbors_nodup g cur) q vis par]
  have hxf : x ∉ ((((neighbors g cur).filter (fun n => ¬ vis.contains n)).map
      (fun n => (n, cur))).reverse).map Prod.fst := by
    intro hmem
    rw [List.mem_map] at hmem
    obtain ⟨pr, hpr, hfst⟩ := hmem
    rw [List.mem_reverse, List.mem_map] at hpr
    obtain ⟨n, hn, hpr2⟩ := hpr
    rw [mem_fresh_iff] at hn
    have hnx : n = x := by
      rw [← hpr2] at hfst
      exact hfst
    exact hn.2 (by rw [hnx]; exact hxv)
  show List.lookup x ((((neighbors g cur).filter (fun n => ¬ vis.contains n)).map
      (fun n => (n, cur))).reverse ++ par) = some v
  rw [lookup_append_right _ _ x hxf]
  exact hx

/-- The exact behavior of one A* relaxation on the maps: other cells keep
their predecessor; the examined neighbor gets predecessor cur and cost
new_cost exactly when it is undiscovered or the new cost is strictly cheaper,
and otherwise nothing at all changes. -/
theorem aRelax1_parent_cases (goal cur n : Pos) (st : AState) :
    (∀ x, x ≠ n →
      List.lookup x (aRelax1 goal cur n st).cameFrom = List.lookup x st.cameFrom) ∧
    (((List.lookup n st.costSoFar).isNone = true ∨
        (List.lookup cur st.costSoFar).getD 0 + 1 <
          (List.lookup n st.costSoFar).getD 0) →
      List.lookup n (aRelax1 goal cur n st).cameFrom = some (some cur) ∧
      List.lookup n (aRelax1 goal cur n st).costSoFar =
        some ((List.lookup cur st.costSoFar).getD 0 + 1)) ∧
    (¬((List.lookup n st.costSoFar).isNone = true ∨
        (List.lookup cur st.costSoFar).getD 0 + 1 <
          (List.lookup n st.costSoFar).getD 0) →
      aRelax1 goal cur n st = st) := by
  by_cases hcond : ((List.lookup n st.costSoFar).isNone ||
      decide ((List.lookup cur st.costSoFar).getD 0 + 1 <
        (List.lookup n st.costSoFar).getD 0)) = true
  · have hst : aRelax1 goal cur n st =
        ⟨st.frontier ++
            [((List.lookup cur st.costSoFar).getD 0 + 1 + manhattan goal n,
              st.counter, n)],
          setk st.cameFrom n (some cur),
          setk st.costSoFar n ((List.lookup cur st.costSoFar).getD 0 + 1),
          st.counter + 1⟩ := by
      unfold aRelax1
      rw [if_pos hcond]
    rw [Bool.or_eq_true, decide_eq_true_eq] at hcond
    refine ⟨?_, ?_, ?_⟩
    · intro x hxn
      rw [hst]
      exact lookup_setk_other _ _ _ _ hxn
    · intro _
      rw [hst]
      exact ⟨lookup_setk_self _ _ _, lookup_setk_self _ _ _⟩
    · intro hno
      exact absurd hcond hno
  · have hst : aRelax1 goal cur n st = st := by
      unfold aRelax1
      rw [if_neg hcond]
    rw [Bool.or_eq_true, decide_eq_true_eq] at hcond
    exact ⟨fun x _ => by rw [hst], fun h => absurd h hcond, fun _ => hst⟩

/-- One greedy push: other cells keep their predecessor; the neighbor gets
predecessor cur exactly on first discovery, and otherwise nothing changes. -/
theorem gRelax1_parent_cases (goal cur n : Pos) (st : AState) :
    (∀ x, x ≠ n →
      List.lookup x (gRelax1 goal cur n st).cameFrom = List.lookup x st.cameFrom) ∧
    ((List.lookup n st.cameFrom).isNone = true →
      List.lookup n (gRelax1 goal cur n st).cameFrom = some (some cur)) ∧
    (¬(List.lookup n st.cameFrom).isNone = true → gRelax1 goal cur n st = st) := by
  by_cases hcond : (List.lookup n st.cameFrom).isNone = true
  · have hst : gRelax1 goal cur n st =
        ⟨st.frontier ++ [(manhattan goal n, st.counter, n)],
          setk st.cameFrom n (some cur), st.costSoFar, st.counter + 1⟩ := by
      unfold gRelax1
      rw [if_pos hcond]
    refine ⟨?_, ?_, fun h => absurd hcond h⟩
    · intro x hxn
      rw [hst]
      exact lookup_setk_other _ _ _ _ hxn
    · intro _
      rw [hst]
      exact lookup_setk_self _ _ _
  · have hst : gRelax1 goal cur n st = st := by
      unfold gRelax1
      rw [if_neg hcond]
    exact ⟨fun x _ => by rw [hst], fun h => absurd h hcond, fun _ => hst⟩

/-- The UCS trace never contains the goal: the goal pop breaks the loop before
any append. -/
theorem ucsAux_trace_goal (g : Grid) (goal : Pos) :
    ∀ (fuel : Nat) (heap : List (Nat × Pos)) (visited : List Pos)
      (parent : List (Pos × Pos)) (tr : List Pos), goal ∉ tr →
      goal ∉ (ucsAux g goal fuel heap visited parent tr).1
  | 0 => by
    intro heap visited parent tr h
    simp only [ucsAux]
    rw [List.mem_reverse]
    exact h
  | fuel + 1 => by
    intro heap visited parent tr h
    rcases hpop : ucsPopMin heap with _ | ⟨⟨cost, cur⟩, hrest⟩
    · simp only [ucsAux, hpop]
      rw [List.mem_reverse]
      exact h
    · by_cases hcg : cur = goal
      · simp only [ucsAux, hpop]
        rw [if_pos hcg]
        rw [List.mem_reverse]
        exact h
      · by_cases hcv : visited.contains cur
        · simp only [ucsAux, hpop]
          rw [if_neg hcg, if_pos hcv]
          exact ucsAux_trace_goal g goal fuel hrest visited parent tr h
        · simp only [ucsAux, hpop]
          rw [if_neg hcg, if_neg hcv]
          apply ucsAux_trace_goal
          intro h2
          rcases List.mem_cons.mp h2 with h3 | h3
          · exact hcg h3.symm
          · exact h h3

/-! ### Counter-shift invariance: the module-level pq_counter value does not
affect the visited order or the came_from map of a_star_search or
greedy_best_first_search. -/

/-- Shifting the tie-breaking counter of a heap entry. -/
def eShift (k : Nat) (e : AEntry) : AEntry := (e.1, e.2.1 + k, e.2.2)

/-- Shifting every counter in a search state. -/
def sShift (k : Nat) (st : AState) : AState :=
  ⟨st.frontier.map (eShift k), st.cameFrom, st.costSoFar, st.counter + k⟩

theorem aLT_shift (k : Nat) (a b : AEntry) :
    aLT (eShift k a) (eShift k b) = aLT a b := by
  rcases h : aLT a b with _ | _
  · rw [Bool.eq_false_iff, Ne, aLT_iff]
    rw [Bool.eq_false_iff, Ne, aLT_iff] at h
    simp only [eShift]
    omega
  · rw [aLT_iff]
    rw [aLT_iff] at h
    simp only [eShift]
    omega

theorem foldl_min_shift (k : Nat) :
    ∀ (rest : List AEntry) (e : AEntry),
      (rest.map (eShift k)).foldl (fun acc x => if aLT x acc then x else acc)
        (eShift k e) =
      eShift k (rest.foldl (fun acc x => if aLT x acc then x else acc) e)
  | [], e => rfl
  | a :: rest, e => by
    simp only [List.map_cons, List.foldl_cons, aLT_shift]
    rw [← apply_ite (eShift k)]
    exact foldl_min_shift k rest _

theorem erase_shift (k : Nat) :
    ∀ (l : List AEntry) (m : AEntry),
      (l.map (eShift k)).erase (eShift k m) = (l.erase m).map (eShift k)
  | [], m => rfl
  | a :: l, m => by
    obtain ⟨p, c, x⟩ := a
    obtain ⟨pm, cm, xm⟩ := m
    rcases hab : (((p, c, x) : AEntry) == (pm, cm, xm)) with _ | _
    · have hne : ((p, c, x) : AEntry) ≠ (pm, cm, xm) := ne_of_beq_false hab
      have hne2 : eShift k (p, c, x) ≠ eShift k (pm, cm, xm) := by
        intro he
        simp only [eShift, Prod.mk.injEq] at he
        obtain ⟨h1, h2, h3⟩ := he
        apply hne
        simp only [Prod.mk.injEq]
        exact ⟨h1, by omega, h3⟩
      rw [List.map_cons, List.erase_cons, List.erase_cons,
        if_neg (by rw [beq_iff_eq]; exact hne2), if_neg (by rw [beq_iff_eq]; exact hne)]
      rw [List.map_cons, erase_shift k l (pm, cm, xm)]
    · have heq : ((p, c, x) : AEntry) = (pm, cm, xm) := eq_of_beq hab
      have heq2 : eShift k (p, c, x) = eShift k (pm, cm, xm) := by rw [heq]
      rw [List.map_cons, List.erase_cons, List.erase_cons,
        if_pos (by rw [beq_iff_eq]; exact heq2), if_pos (by rw [beq_iff_eq]; exact heq)]

theorem aPopMin_shift (k : Nat) :
    ∀ (l : List AEntry),
      aPopMin (l.map (eShift k)) =
        (aPopMin l).map (fun er => (eShift k er.1, er.2.map (eShift k)))
  | [] => rfl
  | e :: rest => by
    simp only [aPopMin, List.map_cons, Option.map_some']
    rw [foldl_min_shift k rest e]
    rw [show (eShift k e :: rest.map (eShift k)) = (e :: rest).map (eShift k) from rfl]
    rw [erase_shift k (e :: rest)
      (rest.foldl (fun acc x => if aLT x acc then x else acc) e)]

theorem aRelax1_shift (k : Nat) (goal cur n : Pos) (st : AState) :
    aRelax1 goal cur n (sShift k st) = sShift k (aRelax1 goal cur n st) := by
  by_cases hcond : ((List.lookup n st.costSoFar).isNone ||
      decide ((List.lookup cur st.costSoFar).getD 0 + 1 <
        (List.lookup n st.costSoFar).getD 0)) = true
  · have h1 : aRelax1 goal cur n (sShift k st) =
        ⟨(sShift k st).frontier ++
            [((List.lookup cur st.costSoFar).getD 0 + 1 + manhattan goal n,
              (sShift k st).counter, n)],
          setk st.cameFrom n (some cur),
          setk st.costSoFar n ((List.lookup cur st.costSoFar).getD 0 + 1),
          (sShift k st).counter + 1⟩ := by
      unfold aRelax1
      have hc2 : ((List.lookup n (sShift k st).costSoFar).isNone ||
          decide ((List.lookup cur (sShift k st).costSoFar).getD 0 + 1 <
            (List.lookup n (sShift k st).costSoFar).getD 0)) = true := hcond
      rw [if_pos hc2]
      rfl
    have h2 : aRelax1 goal cur n st =
        ⟨st.frontier ++
            [((List.lookup cur st.costSoFar).getD 0 + 1 + manhattan goal n,
              st.counter, n)],
          setk st.cameFrom n (some cur),
          setk st.costSoFar n ((List.lookup cur st.costSoFar).getD 0 + 1),
          st.counter + 1⟩ := by
      unfold aRelax1
      rw [if_pos hcond]
    rw [h1, h2]
    show (⟨st.frontier.map (eShift k) ++
        [((List.lookup cur st.costSoFar).getD 0 + 1 + manhattan goal n,
          st.counter + k, n)],
      setk st.cameFrom n (some cur),
      setk st.costSoFar n ((List.lookup cur st.costSoFar).getD 0 + 1),
      st.counter + k + 1⟩ : AState) =
      ⟨(st.frontier ++
          [((List.lookup cur st.costSoFar).getD 0 + 1 + manhattan goal n,
            st.counter, n)]).map (eShift k),
        setk st.cameFrom n (some cur),
        setk st.costSoFar n ((List.lookup cur st.costSoFar).getD 0 + 1),
        st.counter + 1 + k⟩
    rw [List.map_append]
    have h3 : st.counter + k + 1 = st.counter + 1 + k := by omega
    rw [h3]
    rfl
  · have h1 : aRelax1 goal cur n (sShift k st) = sShift k st := by
      unfold aRelax1
      have hc2 : ¬(((List.lookup n (sShift k st).costSoFar).isNone ||
          decide ((List.lookup cur (sShift k st).costSoFar).getD 0 + 1 <
            (List.lookup n (sShift k st).costSoFar).getD 0)) = true) := hcond
      rw [if_neg hc2]
    have h2 : aRelax1 goal cur n st = st := by
      unfold aRelax1
      rw [if_neg hcond]
    rw [h1, h2]

theorem gRelax1_shift (k : Nat) (goal cur n : Pos) (st : AState) :
    gRelax1 goal cur n (sShift k st) = sShift k (gRelax1 goal cur n st) := by
  by_cases hcond : (List.lookup n st.cameFrom).isNone = true
  · have h1 : gRelax1 goal cur n (sShift k st) =
        ⟨(sShift k st).frontier ++ [(manhattan goal n, (sShift k st).counter, n)],
          setk st.cameFrom n (some cur), st.costSoFar, (sShift k st).counter + 1⟩ := by
      unfold gRelax1
      have hc2 : (List.lookup n (sShift k st).cameFrom).isNone = true := hcond
      rw [if_pos hc2]
      rfl
    have h2 : gRelax1 goal cur n st =
        ⟨st.frontier ++ [(manhattan goal n, st.counter, n)],
          setk st.cameFrom n (some cur), st.costSoFar, st.counter + 1⟩ := by
      unfold gRelax1
      rw [if_pos hcond]
    rw [h1, h2]
    show (⟨st.frontier.map (eShift k) ++ [(manhattan goal n, st.counter + k, n)],
        setk st.cameFrom n (some cur), st.costSoFar, st.counter + k + 1⟩ : AState) =
      ⟨(st.frontier ++ [(manhattan goal n, st.counter, n)]).map (eShift k),
        setk st.cameFrom n (some cur), st.costSoFar, st.counter + 1 + k⟩
    rw [List.map_append]
    have h3 : st.counter + k + 1 = st.counter + 1 + k := by omega
    rw [h3]
    rfl
  · have h1 : gRelax1 goal cur n (sShift k st) = sShift k st := by
      unfold gRelax1
      have hc2 : ¬((List.lookup n (sShift k st).cameFrom).isNone = true) := hcond
      rw [if_neg hc2]
    have h2 : gRelax1 goal cur n st = st := by
      unfold gRelax1
      rw [if_neg hcond]
    rw [h1, h2]

theorem aRelax_fold_shift (k : Nat) (goal cur : Pos) :
    ∀ (ns : List Pos) (st : AState),
      ns.foldl (fun st n => aRelax1 goal cur n st) (sShift k st) =
        sShift k (ns.foldl (fun st n => aRelax1 goal cur n st) st)
  | [], st => rfl
  | n :: rest, st => by
    simp only [List.foldl_cons]
    rw [aRelax1_shift k goal cur n st]
    exact aRelax_fold_shift k goal cur rest _

theorem gRelax_fold_shift (k : Nat) (goal cur : Pos) :
    ∀ (ns : List Pos) (st : AState),
      ns.foldl (fun st n => gRelax1 goal cur n st) (sShift k st) =
        sShift k (ns.foldl (fun st n => gRelax1 goal cur n st) st)
  | [], st => rfl
  | n :: rest, st => by
    simp only [List.foldl_cons]
    rw [gRelax1_shift k goal cur n st]
    exact gRelax_fold_shift k goal cur rest _

theorem aStarAux_shift (g : Grid) (s goal : Pos) (k : Nat) :
    ∀ (fuel : Nat) (st : AState) (vo : List Pos),
      aStarAux g s goal fuel (sShift k st) vo =
        (aStarAux g s goal fuel st vo).map (fun r => (r.1, r.2.1, r.2.2 + k))
  | 0, st, vo => rfl
  | fuel + 1, st, vo => by
    rcases hpop : aPopMin st.frontier with _ | ⟨⟨pri, cnt, cur⟩, hrest⟩
    · have hpop2 : aPopMin ((sShift k st).frontier) = none := by
        show aPopMin (st.frontier.map (eShift k)) = none
        rw [aPopMin_shift k st.frontier, hpop]
        rfl
      simp only [aStarAux, hpop, hpop2]
      rfl
    · have hpop2 : aPopMin ((sShift k st).frontier) =
          some ((pri, cnt + k, cur), hrest.map (eShift k)) := by
        show aPopMin (st.frontier.map (eShift k)) = _
        rw [aPopMin_shift k st.frontier, hpop]
        rfl
      by_cases hcg : cur = goal
      · simp only [aStarAux, hpop, hpop2]
        rw [if_pos hcg, if_pos hcg]
        rfl
      · simp only [aStarAux, hpop, hpop2]
        rw [if_neg hcg, if_neg hcg]
        have hmid : (aRelax g goal cur (neighbors g cur)
            { sShift k st with frontier := hrest.map (eShift k) }) =
            sShift k (aRelax g goal cur (neighbors g cur) { st with frontier := hrest }) := by
          rw [aRelax_eq_foldl, aRelax_eq_foldl]
          have hst : ({ sShift k st with frontier := hrest.map (eShift k) } : AState) =
              sShift k { st with frontier := hrest } := rfl
          rw [hst]
          exact aRelax_fold_shift k goal cur (neighbors g cur) _
        rw [hmid]
        exact aStarAux_shift g s goal k fuel _ _

theorem greedyAux_shift (g : Grid) (s goal : Pos) (k : Nat) :
    ∀ (fuel : Nat) (st : AState) (vo : List Pos),
      greedyAux g s goal fuel (sShift k st) vo =
        (greedyAux g s goal fuel st vo).map (fun r => (r.1, r.2.1, r.2.2 + k))
  | 0, st, vo => rfl
  | fuel + 1, st, vo => by
    rcases hpop : aPopMin st.frontier with _ | ⟨⟨pri, cnt, cur⟩, hrest⟩
    · have hpop2 : aPopMin ((sShift k st).frontier) = none := by
        show aPopMin (st.frontier.map (eShift k)) = none
        rw [aPopMin_shift k st.frontier, hpop]
        rfl
      simp only [greedyAux, hpop, hpop2]
      rfl
    · have hpop2 : aPopMin ((sShift k st).frontier) =
          some ((pri, cnt + k, cur), hrest.map (eShift k)) := by
        show aPopMin (st.frontier.map (eShift k)) = _
        rw [aPopMin_shift k st.frontier, hpop]
        rfl
      by_cases hcg : cur = goal
      · simp only [greedyAux, hpop, hpop2]
        rw [if_pos hcg, if_pos hcg]
        rfl
      · simp only [greedyAux, hpop, hpop2]
        rw [if_neg hcg, if_neg hcg]
        have hmid : (gRelax g goal cur (neighbors g cur)
            { sShift k st with frontier := hrest.map (eShift k) }) =
            sShift k (gRelax g goal cur (neighbors g cur) { st with frontier := hrest }) := by
          rw [gRelax_eq_foldl, gRelax_eq_foldl]
          have hst : ({ sShift k st with frontier := hrest.map (eShift k) } : AState) =
              sShift k { st with frontier := hrest } := rfl
          rw [hst]
          exact gRelax_fold_shift k goal cur (neighbors g cur) _
        rw [hmid]
        exact greedyAux_shift g s goal k fuel _ _

theorem aStar_shift (g : Grid) (s goal : Pos) (c0 k : Nat) :
    aStar g s goal (c0 + k) =
      (aStar g s goal c0).map (fun r => (r.1, r.2.1, r.2.2 + k)) := by
  unfold aStar
  have hst : (⟨[(0, c0 + k, s)], [(s, none)], [(s, 0)], c0 + k + 1⟩ : AState) =
      sShift k ⟨[(0, c0, s)], [(s, none)], [(s, 0)], c0 + 1⟩ := by
    show (⟨[(0, c0 + k, s)], [(s, none)], [(s, 0)], c0 + k + 1⟩ : AState) =
      ⟨[(0, c0 + k, s)], [(s, none)], [(s, 0)], c0 + 1 + k⟩
    have h3 : c0 + k + 1 = c0 + 1 + k := by omega
    rw [h3]
  rw [hst]
  exact aStarAux_shift g s goal k _ _ _

theorem greedy_shift (g : Grid) (s goal : Pos) (c0 k : Nat) :
    greedy g s goal (c0 + k) =
      (greedy g s goal c0).map (fun r => (r.1, r.2.1, r.2.2 + k)) := by
  unfold greedy
  have hst : (⟨[(0, c0 + k, s)], [(s, none)], [], c0 + k + 1⟩ : AState) =
      sShift k ⟨[(0, c0, s)], [(s, none)], [], c0 + 1⟩ := by
    show (⟨[(0, c0 + k, s)], [(s, none)], [], c0 + k + 1⟩ : AState) =
      ⟨[(0, c0 + k, s)], [(s, none)], [], c0 + 1 + k⟩
    have h3 : c0 + k + 1 = c0 + 1 + k := by omega
    rw [h3]
  rw [hst]
  exact greedyAux_shift g s goal k _ _ _

/-- The A* runner output does not depend on the starting pq_counter value. -/
theorem runAStar_counter (g : Grid) (sOpt tOpt : Option Pos) (c0 c1 : Nat) :
    runAStar g sOpt tOpt c0 = runAStar g sOpt tOpt c1 := by
  have H : ∀ c k : Nat, runAStar g sOpt tOpt (c + k) = runAStar g sOpt tOpt c := by
    intro c k
    match sOpt, tOpt with
    | none, _ => rfl
    | some s, none => rfl
    | some s, some t =>
      simp only [runAStar]
      rw [aStar_shift g s t c k]
      rcases h : aStar g s t c with _ | ⟨vo, cf, cnt⟩
      · rfl
      · rfl
  rcases le_total c0 c1 with h | h
  · have h2 : c0 + (c1 - c0) = c1 := by omega
    rw [← h2]
    exact (H c0 (c1 - c0)).symm
  · have h2 : c1 + (c0 - c1) = c0 := by omega
    rw [← h2]
    exact H c1 (c0 - c1)

/-- The greedy runner output does not depend on the starting pq_counter
value. -/
theorem runGreedy_counter (g : Grid) (sOpt tOpt : Option Pos) (c0 c1 : Nat) :
    runGreedy g sOpt tOpt c0 = runGreedy g sOpt tOpt c1 := by
  have H : ∀ c k : Nat, runGreedy g sOpt tOpt (c + k) = runGreedy g sOpt tOpt c := by
    intro c k
    match sOpt, tOpt with
    | none, _ => rfl
    | some s, none => rfl
    | some s, some t =>
      simp only [runGreedy]
      rw [greedy_shift g s t c k]
      rcases h : greedy g s t c with _ | ⟨vo, cf, cnt⟩
      · rfl
      · rfl
  rcases le_total c0 c1 with h | h
  · have h2 : c0 + (c1 - c0) = c1 := by omega
    rw [← h2]
    exact (H c0 (c1 - c0)).symm
  · have h2 : c1 + (c0 - c1) = c0 := by omega
    rw [← h2]
    exact H c1 (c0 - c1)

/-- C3 (amended): BFS, DFS, UCS and greedy best-first expand each cell at most
once: their reported expansion orders contain no duplicates.  (A* alone can
re-expand a cell, see the counterexample.) -/
theorem c3_expand_once (g : Grid) (s t : Pos) (c0 : Nat) :
    (solveBfs g s t).1.Nodup ∧ (solveDfs g s t).1.Nodup ∧
    (solveUcs g s t).1.Nodup ∧
    ∃ vo cf cnt, greedy g s t c0 = some (vo, cf, cnt) ∧ vo.Nodup := by
  refine ⟨(bfsAux_trace g t (g.rows * g.cols + 2) ⟨[s], [s], []⟩ [] (trInv_init t s)).1,
    (dfsAux_trace g t (g.rows * g.cols + 2) ⟨[s], [s], []⟩ [] (trInv_init t s)).1,
    solveUcs_trace_nodup g s t, ?_⟩
  obtain ⟨stF, voF, rkF, RF, heq, _, hnd, _, _⟩ := greedy_spec g s t c0
  exact ⟨voF.reverse, stF.cameFrom, stF.counter, heq, List.nodup_reverse.mpr hnd⟩

/-- C4: rerunning a strategy on an unchanged grid gives the identical outcome
(visited order and path): BFS, DFS and UCS consume no global state at all in
the source, and for A* and greedy the only cross-invocation state, the
module-level pq_counter, provably does not influence the result. -/
theorem c4_idempotent (g : Grid) (sOpt tOpt : Option Pos) (c0 c1 : Nat) :
    runAStar g sOpt tOpt c0 = runAStar g sOpt tOpt c1 ∧
    runGreedy g sOpt tOpt c0 = runGreedy g sOpt tOpt c1 :=
  ⟨runAStar_counter g sOpt tOpt c0 c1, runGreedy_counter g sOpt tOpt c0 c1⟩

/-- C5: with an unreachable goal, every strategy exhausts its frontier and the
runner reports NoPathFound with the grid unchanged. -/
theorem c5_no_path_found (g : Grid) (s t : Pos) (c0 : Nat)
    (h : ¬ ∃ p, isPath g s t p) :
    (∃ tr, runBfs g (some s) (some t) = (.noPathFound tr, g)) ∧
    (∃ tr, runDfs g (some s) (some t) = (.noPathFound tr, g)) ∧
    (∃ tr, runUcs g (some s) (some t) = (.noPathFound tr, g)) ∧
    (∃ vo, runAStar g (some s) (some t) c0 = (.noPathFound vo, g)) ∧
    (∃ vo, runGreedy g (some s) (some t) c0 = (.noPathFound vo, g)) := by
  refine ⟨?_, ?_, ?_, ?_, ?_⟩
  · have h2 := solveBfs_unreachable g s t h
    rcases hout : solveBfs g s t with ⟨tr, out⟩
    rw [hout] at h2
    have h3 : out = .noPath := h2
    subst h3
    exact ⟨tr, by simp only [runBfs, hout]⟩
  · have h2 := solveDfs_unreachable g s t h
    rcases hout : solveDfs g s t with ⟨tr, out⟩
    rw [hout] at h2
    have h3 : out = .noPath := h2
    subst h3
    exact ⟨tr, by simp only [runDfs, hout]⟩
  · have h2 := solveUcs_unreachable g s t h
    rcases hout : solveUcs g s t with ⟨tr, out⟩
    rw [hout] at h2
    have h3 : out = .noPath := h2
    subst h3
    exact ⟨tr, by simp only [runUcs, hout]⟩
  · obtain ⟨vo, cf, cnt, heq, hnone⟩ := aStar_unreachable g s t c0 h
    refine ⟨vo, ?_⟩
    simp only [runAStar, heq, hnone, Option.isSome_none, Bool.false_eq_true, if_false]
  · obtain ⟨vo, cf, cnt, heq, hnone, _⟩ := greedy_unreachable g s t c0 h
    refine ⟨vo, ?_⟩
    simp only [runGreedy, heq, hnone, Option.isSome_none, Bool.false_eq_true, if_false]

/-- C2: whenever the goal is reachable, A* returns a path with exactly the BFS
shortest-path edge count, while the DFS and greedy paths are valid but at
least as long.  (BFS paths include the start; a_star_search's and
greedy's reconstruct_path exclude it, so q edges correspond to list
length q.) -/
theorem c2_path_lengths (g : Grid) (s t : Pos) (c0 c1 : Nat) (hst : s ≠ t)
    (hreach : ∃ p, isPath g s t p) :
    ∃ parB pathB,
      (solveBfs g s t).2 = .found parB ∧
      buildPath parB s t = some pathB ∧ isPath g s t pathB ∧
      (∃ voA cfA cntA qA, aStar g s t c0 = some (voA, cfA, cntA) ∧
        reconstructPathRun cfA s t = qA ∧ isPath g s t (s :: qA) ∧
        qA.length + 1 = pathB.length) ∧
      (∃ parD pathD, (solveDfs g s t).2 = .found parD ∧
        buildPath parD s t = some pathD ∧ isPath g s t pathD ∧
        pathB.length ≤ pathD.length) ∧
      (∃ voG cfG cntG qG, greedy g s t c1 = some (voG, cfG, cntG) ∧
        reconstructPathRun cfG s t = qG ∧ isPath g s t (s :: qG) ∧
        pathB.length ≤ qG.length + 1) := by
  obtain ⟨parB, hfound, pathB, hbuild, hip, hmin⟩ := solveBfs_found g s t hreach
  obtain ⟨voA, cfA, cntA, qA, heqA, _, hrecon, hpathA, hminA, _, _⟩ :=
    aStar_found g s t c0 hst hreach
  obtain ⟨parD, hfoundD, pathD, hbuildD, hipD⟩ := solveDfs_found g s t hreach
  obtain ⟨voG, cfG, cntG, qG, heqG, _, hreconG, hpathG, _, _, _⟩ :=
    greedy_found g s t c1 hreach
  refine ⟨parB, pathB, hfound, hbuild, hip,
    ⟨voA, cfA, cntA, qA, heqA, hrecon, hpathA, ?_⟩,
    ⟨parD, pathD, hfoundD, hbuildD, hipD, hmin pathD hipD⟩,
    ⟨voG, cfG, cntG, qG, heqG, hreconG, hpathG, ?_⟩⟩
  · have h1 := hminA pathB hip
    have h2 := hmin (s :: qA) hpathA
    simp only [List.length_cons] at h2
    omega
  · have h2 := hmin (s :: qG) hpathG
    simp only [List.length_cons] at h2
    omega

/-- C7: predecessor bookkeeping per strategy, as the source performs it: BFS
and DFS never change the parent of an already-visited cell (and only visited
cells have parents, by their loop invariants); a UCS expansion leaves every
parent binding unchanged or fills in a previously missing one; one A*
relaxation rewrites a neighbor's predecessor and cost exactly when the cell is
undiscovered or the new cost is strictly cheaper, and otherwise changes
nothing; a greedy push records a predecessor exactly on first discovery and
otherwise changes nothing. -/
theorem c7_predecessor_discipline :
    (∀ (g : Grid) (cur : Pos) (st : SearchSt) (x v : Pos),
      List.lookup x st.parent = some v → x ∈ st.visited →
      List.lookup x (bfsExpand g cur st).parent = some v) ∧
    (∀ (g : Grid) (cur : Pos) (st : SearchSt) (x v : Pos),
      List.lookup x st.parent = some v → x ∈ st.visited →
      List.lookup x (dfsExpand g cur st).parent = some v) ∧
    (∀ (cur : Pos) (cost : Nat) (visited2 ns : List Pos)
      (heap : List (Nat × Pos)) (parent : List (Pos × Pos)) (x : Pos),
      List.lookup x (ucsExpand cur cost visited2 ns heap parent).2 =
          List.lookup x parent ∨
        (List.lookup x parent = none ∧
          List.lookup x (ucsExpand cur cost visited2 ns heap parent).2 = some cur)) ∧
    (∀ (goal cur n : Pos) (st : AState),
      (∀ x, x ≠ n → List.lookup x (aRelax1 goal cur n st).cameFrom =
        List.lookup x st.cameFrom) ∧
      (((List.lookup n st.costSoFar).isNone = true ∨
          (List.lookup cur st.costSoFar).getD 0 + 1 <
            (List.lookup n st.costSoFar).getD 0) →
        List.lookup n (aRelax1 goal cur n st).cameFrom = some (some cur) ∧
        List.lookup n (aRelax1 goal cur n st).costSoFar =
          some ((List.lookup cur st.costSoFar).getD 0 + 1)) ∧
      (¬((List.lookup n st.costSoFar).isNone = true ∨
          (List.lookup cur st.costSoFar).getD 0 + 1 <
            (List.lookup n st.costSoFar).getD 0) →
        aRelax1 goal cur n st = st)) ∧
    (∀ (goal cur n : Pos) (st : AState),
      (∀ x, x ≠ n → List.lookup x (gRelax1 goal cur n st).cameFrom =
        List.lookup x st.cameFrom) ∧
      ((List.lookup n st.cameFrom).isNone = true →
        List.lookup n (gRelax1 goal cur n st).cameFrom = some (some cur)) ∧
      (¬(List.lookup n st.cameFrom).isNone = true → gRelax1 goal cur n st = st)) :=
  ⟨fun g cur st x v hx hxv => bfsExpand_parent_keep g cur st x v hx hxv,
    fun g cur st x v hx hxv => dfsExpand_parent_keep g cur st x v hx hxv,
    fun cur cost visited2 ns heap parent x =>
      ucsExpand_parent_cases cur cost visited2 ns heap parent x,
    fun goal cur n st => aRelax1_parent_cases goal cur n st,
    fun goal cur n st => gRelax1_parent_cases goal cur n st⟩

/-- C8: each strategy succeeds exactly at the moment the goal is popped from
its frontier — the BFS/DFS loop head, the UCS heap minimum, the A*/greedy
heap minimum — and a popped non-goal cell always continues the loop, no
matter what is already enqueued; moreover the goal never appears in the
reported visited list of any strategy (and A*/greedy also exclude the start,
as the source's guard does). -/
theorem c8_goal_at_pop (g : Grid) (s t : Pos) (c0 : Nat) :
    (∀ (fuel : Nat) (q v : List Pos) (par : List (Pos × Pos)) (tr : List Pos),
      bfsAux g t (fuel + 1) ⟨t :: q, v, par⟩ tr = (tr.reverse, .found par)) ∧
    (∀ (fuel : Nat) (cur : Pos) (q v : List Pos) (par : List (Pos × Pos))
      (tr : List Pos), cur ≠ t →
      bfsAux g t (fuel + 1) ⟨cur :: q, v, par⟩ tr =
        bfsAux g t fuel (bfsExpand g cur ⟨q, v, par⟩) (cur :: tr)) ∧
    (∀ (fuel : Nat) (q v : List Pos) (par : List (Pos × Pos)) (tr : List Pos),
      dfsAux g t (fuel + 1) ⟨t :: q, v, par⟩ tr = (tr.reverse, .found par)) ∧
    (∀ (fuel : Nat) (cur : Pos) (q v : List Pos) (par : List (Pos × Pos))
      (tr : List Pos), cur ≠ t →
      dfsAux g t (fuel + 1) ⟨cur :: q, v, par⟩ tr =
        dfsAux g t fuel (dfsExpand g cur ⟨q, v, par⟩) (cur :: tr)) ∧
    (∀ (fuel : Nat) (heap hrest : List (Nat × Pos)) (visited : List Pos)
      (parent : List (Pos × Pos)) (tr : List Pos) (cost : Nat),
      ucsPopMin heap = some ((cost, t), hrest) →
      ucsAux g t (fuel + 1) heap visited parent tr = (tr.reverse, .found parent)) ∧
    (∀ (fuel : Nat) (st : AState) (vo : List Pos) (pri cnt : Nat)
      (hr : List AEntry), aPopMin st.frontier = some ((pri, cnt, t), hr) →
      aStarAux g s t (fuel + 1) st vo = some (vo.reverse, st.cameFrom, st.counter)) ∧
    (∀ (fuel : Nat) (st : AState) (vo : List Pos) (pri cnt : Nat)
      (hr : List AEntry), aPopMin st.frontier = some ((pri, cnt, t), hr) →
      greedyAux g s t (fuel + 1) st vo = some (vo.reverse, st.cameFrom, st.counter)) ∧
    t ∉ (solveBfs g s t).1 ∧
    t ∉ (solveDfs g s t).1 ∧
    t ∉ (solveUcs g s t).1 ∧
    (∃ vo cf cnt, aStar g s t c0 = some (vo, cf, cnt) ∧ t ∉ vo ∧ s ∉ vo) ∧
    (∃ vo cf cnt, greedy g s t c0 = some (vo, cf, cnt) ∧ t ∉ vo ∧ s ∉ vo) := by
  refine ⟨?_, ?_, ?_, ?_, ?_, ?_, ?_, ?_, ?_, ?_, ?_, ?_⟩
  · intro fuel q v par tr
    simp only [bfsAux]
    rw [if_pos trivial]
  · intro fuel cur q v par tr hne
    simp only [bfsAux]
    rw [if_neg hne]
  · intro fuel q v par tr
    simp only [dfsAux]
    rw [if_pos trivial]
  · intro fuel cur q v par tr hne
    simp only [dfsAux]
    rw [if_neg hne]
  · intro fuel heap hrest visited parent tr cost hpop
    simp only [ucsAux, hpop]
    rw [if_pos trivial]
  · intro fuel st vo pri cnt hr hpop
    simp only [aStarAux, hpop]
    rw [if_pos trivial]
  · intro fuel st vo pri cnt hr hpop
    simp only [greedyAux, hpop]
    rw [if_pos trivial]
  · exact (bfsAux_trace g t (g.rows * g.cols + 2) ⟨[s], [s], []⟩ []
      (trInv_init t s)).2
  · exact (dfsAux_trace g t (g.rows * g.cols + 2) ⟨[s], [s], []⟩ []
      (trInv_init t s)).2
  · exact ucsAux_trace_goal g t (5 * (g.rows * g.cols) + 7) [(0, s)] [] [] []
      (List.not_mem_nil _)
  · obtain ⟨stF, voF, heq, _, _, hvo, _⟩ := aStar_spec g s t c0
    refine ⟨voF.reverse, stF.cameFrom, stF.counter, heq, ?_, ?_⟩
    · intro h
      exact (hvo t (List.mem_reverse.mp h)).2 rfl
    · intro h
      exact (hvo s (List.mem_reverse.mp h)).1 rfl
  · obtain ⟨stF, voF, rkF, RF, heq, _, _, hvo, _⟩ := greedy_spec g s t c0
    refine ⟨voF.reverse, stF.cameFrom, stF.counter, heq, ?_, ?_⟩
    · intro h
      exact (hvo t (List.mem_reverse.mp h)).2 rfl
    · intro h
      exact (hvo s (List.mem_reverse.mp h)).1 rfl

/-- C2, witness: the theorem applied to the wall-free 2x2 grid. -/
theorem c2_witness :
    ∃ parB pathB,
      (solveBfs ⟨2, 2, []⟩ (0, 0) (1, 1)).2 = .found parB ∧
      buildPath parB (0, 0) (1, 1) = some pathB ∧
      isPath ⟨2, 2, []⟩ (0, 0) (1, 1) pathB ∧
      (∃ voA cfA cntA qA, aStar ⟨2, 2, []⟩ (0, 0) (1, 1) 0 = some (voA, cfA, cntA) ∧
        reconstructPathRun cfA (0, 0) (1, 1) = qA ∧
        isPath ⟨2, 2, []⟩ (0, 0) (1, 1) ((0, 0) :: qA) ∧
        qA.length + 1 = pathB.length) ∧
      (∃ parD pathD, (solveDfs ⟨2, 2, []⟩ (0, 0) (1, 1)).2 = .found parD ∧
        buildPath parD (0, 0) (1, 1) = some pathD ∧
        isPath ⟨2, 2, []⟩ (0, 0) (1, 1) pathD ∧
        pathB.length ≤ pathD.length) ∧
      (∃ voG cfG cntG qG, greedy ⟨2, 2, []⟩ (0, 0) (1, 1) 7 = some (voG, cfG, cntG) ∧
        reconstructPathRun cfG (0, 0) (1, 1) = qG ∧
        isPath ⟨2, 2, []⟩ (0, 0) (1, 1) ((0, 0) :: qG) ∧
        pathB.length ≤ qG.length + 1) :=
  c2_path_lengths ⟨2, 2, []⟩ (0, 0) (1, 1) 0 7 (by decide)
    ⟨[(0, 0), (0, 1), (1, 1)], rfl, rfl, by
      rw [List.chain'_cons, List.chain'_cons]
      exact ⟨by decide, by decide, List.chain'_singleton _⟩⟩

/-- A 2x2 grid whose off-diagonal cells are walls: (1,1) is unreachable from
(0,0). -/
def encGrid : Grid := ⟨2, 2, [(0, 1), (1, 0)]⟩

theorem enc_unreachable : ¬ ∃ p, isPath encGrid (0, 0) (1, 1) p := by
  rintro ⟨p, hh, hl, hc⟩
  match p, hh, hl, hc with
  | [], hh, _, _ => simp at hh
  | [a], hh, hl, _ =>
    simp only [List.head?_cons, Option.some.injEq] at hh
    simp only [List.getLast?_singleton, Option.some.injEq] at hl
    rw [hh] at hl
    exact absurd hl (by decide)
  | a :: b :: r, hh, _, hc =>
    simp only [List.head?_cons, Option.some.injEq] at hh
    rw [List.chain'_cons] at hc
    have hb := hc.1
    rw [hh] at hb
    have hn : neighbors encGrid (0, 0) = [] := by decide
    rw [hn] at hb
    exact absurd hb (List.not_mem_nil _)

/-- C5, witness: the theorem applied to the enclosed 2x2 grid. -/
theorem c5_witness :
    (¬ ∃ p, isPath encGrid (0, 0) (1, 1) p) ∧
    ((∃ tr, runBfs encGrid (some (0, 0)) (some (1, 1)) = (.noPathFound tr, encGrid)) ∧
     (∃ tr, runDfs encGrid (some (0, 0)) (some (1, 1)) = (.noPathFound tr, encGrid)) ∧
     (∃ tr, runUcs encGrid (some (0, 0)) (some (1, 1)) = (.noPathFound tr, encGrid)) ∧
     (∃ vo, runAStar encGrid (some (0, 0)) (some (1, 1)) 3 = (.noPathFound vo, encGrid)) ∧
     (∃ vo, runGreedy encGrid (some (0, 0)) (some (1, 1)) 3 = (.noPathFound vo, encGrid))) :=
  ⟨enc_unreachable, c5_no_path_found encGrid (0, 0) (1, 1) 3 enc_unreachable⟩

/-- C7, witness: the BFS clause applied to a concrete visited cell with a
recorded parent. -/
theorem c7_witness :
    List.lookup ((1, 1) : Pos)
      ((⟨[], [(1, 1)], [((1, 1), (0, 1))]⟩ : SearchSt).parent) = some (0, 1) ∧
    ((1, 1) : Pos) ∈ (⟨[], [(1, 1)], [((1, 1), (0, 1))]⟩ : SearchSt).visited ∧
    List.lookup ((1, 1) : Pos)
      (bfsExpand ⟨2, 2, []⟩ (0, 0)
        ⟨[], [(1, 1)], [((1, 1), (0, 1))]⟩).parent = some (0, 1) :=
  ⟨by decide, by decide,
    c7_predecessor_discipline.1 ⟨2, 2, []⟩ (0, 0)
      ⟨[], [(1, 1)], [((1, 1), (0, 1))]⟩ (1, 1) (0, 1) (by decide) (by decide)⟩

/-- C8, witness: the UCS clause applied to a singleton heap holding the goal:
it is popped and the search succeeds immediately. -/
theorem c8_witness :
    ucsPopMin [(0, ((1, 1) : Pos))] = some ((0, (1, 1)), []) ∧
    ucsAux ⟨2, 2, []⟩ (1, 1) 1 [(0, (1, 1))] [] [] [] =
      (([] : List Pos).reverse, .found []) :=
  ⟨by decide,
    (c8_goal_at_pop ⟨2, 2, []⟩ (0, 0) (1, 1) 0).2.2.2.2.1 0 [(0, (1, 1))] [] [] []
      [] 0 (by decide)⟩
